import Mathlib

/-!
# Verification of the `tspl` thermal-label bitmap codec

Shallow embedding of the Go sources `bin-img/img.go` (packed 1bpp images) and
`tspl.go` (BITMAP command codec and overlay compositor), together with proofs
of the specification's testable properties.

Conventions of the embedding:
* Go `byte` is `Nat` kept below 256 (the well-formedness predicates record it);
  Go `int` is `Int`; Go truncated division `/` is `Int.tdiv`, truncated
  remainder `%` is `Int.tmod`, and `uint(x) & 7` is `x % 8` (Euclidean).
* Go slices are `List Nat`.  An out-of-range index access in Go faults at run
  time; the accessors below total it with a default (`byteAt`, `byteSet`) and
  every verified use is shown in range.  The one place where a reachable Go
  fault matters for a claim (the trailer slice in `Bytes2Image`) is modelled
  explicitly as the error `GoErr.sliceFault`.
* Loops become folds over `List.range`; in-place mutation becomes functional
  update of the buffer.
-/

set_option maxRecDepth 10000

deriving instance DecidableEq for Except

namespace Tspl

/-! ## Byte-buffer primitives -/

/-- Read byte `i` (Go `l[i]`); all verified uses are in range. -/
def byteAt (l : List Nat) (i : Int) : Nat :=
  if 0 ≤ i then l.getD i.toNat 0 else 0

/-- Write byte `i` (Go `l[i] = v`); all verified uses are in range. -/
def byteSet (l : List Nat) (i : Int) (v : Nat) : List Nat :=
  if 0 ≤ i then l.set i.toNat v else l

/-! ## `image.Rectangle` (the fragment the sources use) -/

structure GoRect where
  MinX : Int
  MinY : Int
  MaxX : Int
  MaxY : Int
deriving DecidableEq

def GoRect.Dx (r : GoRect) : Int := r.MaxX - r.MinX

def GoRect.Dy (r : GoRect) : Int := r.MaxY - r.MinY

/-- `image.Pt(x,y).In(r)`. -/
def GoRect.Contains (r : GoRect) (x y : Int) : Bool :=
  r.MinX ≤ x ∧ x < r.MaxX ∧ r.MinY ≤ y ∧ y < r.MaxY

/-- `r.Empty()`. -/
def GoRect.IsEmpty (r : GoRect) : Bool :=
  r.MaxX ≤ r.MinX ∨ r.MaxY ≤ r.MinY

/-- `r.Intersect(s)`: clip and return the zero rectangle when empty. -/
def GoRect.Intersect (r s : GoRect) : GoRect :=
  let t : GoRect := ⟨max r.MinX s.MinX, max r.MinY s.MinY,
                     min r.MaxX s.MaxX, min r.MaxY s.MaxY⟩
  if t.IsEmpty then ⟨0, 0, 0, 0⟩ else t

/-! ## Errors

Each distinct Go error value (`errors.New` / `fmt.Errorf` message) is one
constructor; `sliceFault` models a Go runtime panic (slice bounds out of
range), which is not an error value but is observable as a fault. -/

inductive GoErr where
  | invalidDimensions      -- "binimg: invalid dimensions"
  | widthNotMult8          -- "binimg: width must be a multiple of 8"
  | notABitmapLine         -- "not a BITMAP line"
  | invalidHeaderFormat    -- "invalid BITMAP format"
  | scanFailed             -- error returned by fmt.Sscanf
  | invalidImageSize       -- "invalid image size got width: %d, height: %d"
  | overlayNil             -- "overlay is nil"
  | negativeOffset         -- "xOff/yOff must be >= 0"
  | baseEmpty              -- "base is empty"
  | baseTooShort           -- "base body too short: need %d bytes, got %d"
  | invalidOverlaySize     -- "invalid overlay size: %dx%d"
  | overlayOutOfBounds     -- "overlay out of bounds: ..."
  | sliceFault             -- runtime panic: slice bounds out of range
deriving DecidableEq

/-! ## `bin_img.Binary` -/

structure Binary where
  Pix : List Nat
  Stride : Int
  Rect : GoRect
deriving DecidableEq

/-- `NewBinary`. -/
def NewBinary (w h : Int) : Except GoErr Binary :=
  if w ≤ 0 ∨ h ≤ 0 then .error .invalidDimensions
  else if w % 8 ≠ 0 then .error .widthNotMult8
  else .ok { Pix := List.replicate ((Int.tdiv w 8) * h).toNat 0,
             Stride := Int.tdiv w 8,
             Rect := ⟨0, 0, w, h⟩ }

def Binary.Bounds (b : Binary) : GoRect := b.Rect

/-- `pixOffset`: Go `/` on int truncates toward zero (`Int.tdiv`). -/
def Binary.pixOffset (b : Binary) (x y : Int) : Int :=
  (y - b.Rect.MinY) * b.Stride + Int.tdiv (x - b.Rect.MinX) 8

/-- The mask `byte(0x80 >> (uint(x) & 7))`: conversion to `uint` followed by
`& 7` is the Euclidean remainder mod 8. -/
def maskOf (x : Int) : Nat := 0x80 >>> (x % 8).toNat

/-- `bit`. -/
def Binary.bit (b : Binary) (x y : Int) : Bool :=
  byteAt b.Pix (b.pixOffset x y) &&& maskOf x ≠ 0

/-- `setBit`: `&^` on bytes is AND with the 8-bit complement. -/
def Binary.setBit (b : Binary) (x y : Int) (v : Bool) : Binary :=
  let i := b.pixOffset x y
  if v then { b with Pix := byteSet b.Pix i (byteAt b.Pix i ||| maskOf x) }
  else { b with Pix := byteSet b.Pix i (byteAt b.Pix i &&& (255 ^^^ maskOf x)) }

/-- `At` (the gray level of the returned `color.Gray`): unlike `IsWhite` and
`IsBlack`, it checks the rectangle first. -/
def Binary.At (b : Binary) (x y : Int) : Nat :=
  if b.Rect.Contains x y then (if b.bit x y then 255 else 0) else 0

def Binary.IsWhite (b : Binary) (x y : Int) : Bool := b.bit x y

def Binary.IsBlack (b : Binary) (x y : Int) : Bool := !b.bit x y

def Binary.SetOn (b : Binary) (x y : Int) : Binary := b.setBit x y true

def Binary.SetOff (b : Binary) (x y : Int) : Binary := b.setBit x y false

/-- `Fill`: writes every byte of the buffer. -/
def Binary.Fill (b : Binary) (v : Bool) : Binary :=
  { b with Pix := List.replicate b.Pix.length (if v then 0xFF else 0x00) }

/-- `SubImage` (returns the same shared-buffer view, here a functional copy of
the tail of the parent's buffer; the geometry is exactly the source's). -/
def Binary.SubImage (b : Binary) (r : GoRect) : Binary :=
  let r := r.Intersect b.Rect
  if r.IsEmpty then { Pix := [], Stride := 0, Rect := r }
  else { Pix := b.Pix.drop (b.pixOffset r.MinX r.MinY).toNat,
         Stride := b.Stride, Rect := r }

/-! ## Pixel sources and thresholding -/

/-- The result of `color.Color.RGBA()`: alpha-premultiplied 16-bit channels.
The Go interface contract bounds each channel by `0xFFFF`; theorems that need
the `uint32` arithmetic not to overflow take that bound as a hypothesis. -/
structure RGBA where
  R : Nat
  G : Nat
  B : Nat
  A : Nat

/-- An arbitrary `image.Image` pixel source: bounds plus a per-pixel query. -/
structure PixelSource where
  SrcBounds : GoRect
  At : Int → Int → RGBA

/-- One row of the method `Binary.FromGrayThreshold`: the row is zeroed first,
then each on-pixel ORs its bit in.  `i := (x - bounds.Min.X) >> 3` and the
mask is `byte(0x80 >> (uint(x) & 7))`. -/
def grayRow (rect : GoRect) (strideN : Nat) (src : PixelSource) (thresh : Nat)
    (y : Int) : List Nat :=
  (List.range rect.Dx.toNat).foldl (fun row (xi : Nat) =>
    let x : Int := rect.MinX + (xi : Int)
    let c := src.At x y
    let isOn : Bool :=
      if c.A = 0 then false
      else decide ((((299 * c.R + 587 * c.G + 114 * c.B) / 1000) >>> 8) % 256 ≥ thresh)
    if isOn then
      let i := xi / 8
      row.set i (row.getD i 0 ||| (0x80 >>> (x % 8).toNat))
    else row)
    (List.replicate strideN 0)

/-- Replace the segment of `l` starting at `off` by `seg` (Go writes through a
row slice `b.Pix[off : off+stride]`; all verified uses are in range). -/
def setSeg (l : List Nat) (off : Nat) (seg : List Nat) : List Nat :=
  l.take off ++ seg ++ l.drop (off + seg.length)

/-- The method `(*Binary).FromGrayThreshold`. -/
def Binary.fromGrayThresh (b : Binary) (src : PixelSource) (thresh : Nat) :
    Binary :=
  { b with Pix := (List.range b.Rect.Dy.toNat).foldl (fun pix yi =>
      setSeg pix (yi * b.Stride.toNat)
        (grayRow b.Rect b.Stride.toNat src thresh (b.Rect.MinY + yi))) b.Pix }

/-- The package-level `FromGrayThreshold`. -/
def FromGrayThreshold (src : PixelSource) (thresh : Nat) :
    Except GoErr Binary :=
  match NewBinary src.SrcBounds.Dx src.SrcBounds.Dy with
  | .error e => .error e
  | .ok b => .ok (b.fromGrayThresh src thresh)

/-! ## Rotate180 -/

/-- `math/bits.Reverse8`. -/
def rev8 (b : Nat) : Nat :=
  (List.range 8).foldl (fun acc k => acc ||| (((b >>> k) &&& 1) <<< (7 - k))) 0

/-- One iteration of the general rotation path: read both bits, then write
both swapped. -/
def bitSwap (b : Binary) (x1 y1 x2 y2 : Int) : Binary :=
  let v1 := b.bit x1 y1
  let v2 := b.bit x2 y2
  (b.setBit x1 y1 v2).setBit x2 y2 v1

/-- The general (bit-by-bit) path of `Rotate180`; `w`, `h` are the visible
width/height (nonnegative by the caller's geometry). -/
def rotGeneral (b : Binary) (w h : Nat) : Binary :=
  let minX := b.Rect.MinX
  let minY := b.Rect.MinY
  let b1 := (List.range (h / 2)).foldl (fun bb (y : Nat) =>
    (List.range w).foldl (fun bb (x : Nat) =>
      let xm : Nat := w - 1 - x
      let ym : Nat := h - 1 - y
      bitSwap bb (minX + (x : Int)) (minY + (y : Int))
        (minX + (xm : Int)) (minY + (ym : Int))) bb) b
  if h % 2 = 1 then
    (List.range (w / 2)).foldl (fun bb (x : Nat) =>
      let xm : Nat := w - 1 - x
      bitSwap bb (minX + (x : Int)) (minY + ((h / 2 : Nat) : Int))
        (minX + (xm : Int)) (minY + ((h / 2 : Nat) : Int))) b1
  else b1

/-- One iteration of the fast path: swap two bytes, bit-reversing each. -/
def revSwapBytes (pix : List Nat) (o1 o2 : Nat) : List Nat :=
  let a := pix.getD o1 0
  let c := pix.getD o2 0
  (pix.set o1 (rev8 c)).set o2 (rev8 a)

/-- The byte-aligned fast path of `Rotate180`. -/
def rotFast (b : Binary) (rb h : Nat) : Binary :=
  let strideN := b.Stride.toNat
  let pix1 := (List.range (h / 2)).foldl (fun pix y =>
    (List.range rb).foldl (fun pix i =>
      revSwapBytes pix (y * strideN + i)
        ((h - 1 - y) * strideN + (rb - 1 - i))) pix) b.Pix
  let pix2 :=
    if h % 2 = 1 then
      let off := (h / 2) * strideN
      let pixA := (List.range (rb / 2)).foldl (fun pix i =>
        revSwapBytes pix (off + i) (off + (rb - 1 - i))) pix1
      if rb % 2 = 1 then
        pixA.set (off + rb / 2) (rev8 (pixA.getD (off + rb / 2) 0))
      else pixA
    else pix1
  { b with Pix := pix2 }

/-- `Rotate180`.  `(w+7)>>3` is an arithmetic shift, i.e. floor division by 8;
`minX & 7` and `w & 7` on Go ints are the Euclidean remainders mod 8. -/
def Binary.Rotate180 (b : Binary) : Binary :=
  let w := b.Rect.Dx
  let h := b.Rect.Dy
  if w ≤ 1 ∧ h ≤ 1 then b
  else
    let rowBytes := Int.fdiv (w + 7) 8
    if rowBytes ≤ 0 then b
    else if b.Rect.MinX % 8 ≠ 0 ∨ w % 8 ≠ 0 then rotGeneral b w.toNat h.toNat
    else rotFast b rowBytes.toNat h.toNat

/-! ## The codec (`tspl.go`) -/

structure Options where
  Peel : Bool

def DefaultOptions : Options := ⟨false⟩

/-- Fuel-based digit emitter (structural recursion, so that concrete runs of
the codec reduce inside the kernel).  `fuel = n+1` always suffices. -/
def natDecCore : Nat → Nat → List Nat → List Nat
  | 0, _, acc => acc
  | fuel + 1, n, acc =>
    if n < 10 then (48 + n) :: acc
    else natDecCore fuel (n / 10) ((48 + n % 10) :: acc)

/-- Decimal ASCII digits of a natural number (the `%d` rendering). -/
def natDec (n : Nat) : List Nat := natDecCore (n + 1) n []

/-- `%d` rendering of a Go int. -/
def intDec (n : Int) : List Nat :=
  if n < 0 then 45 :: natDec (-n).toNat else natDec n.toNat

/-- Modelled from the spec: the `SIZE` line renders `v/dpm` via the Go float
format `%.1f` (one decimal digit).  Binary floating point formatting is not
shallowly embeddable; it is approximated by rational tenths rounded half away
from zero.  No claim depends on these digit values. -/
def mmDec (v dpm : Int) : List Nat :=
  let q := Int.tdiv (20 * v + dpm) (2 * dpm)
  intDec (Int.tdiv q 10) ++ [46] ++ natDec (Int.tmod q 10).toNat

/-- `Driver.Header`: `cmp.Or(dpm, 8)` yields 8 when `dpm` is zero.  The string
pieces are the ASCII bytes of `"SET CUTTER OFF\r\nSET PARTICAL_CUTTER OFF\r\n"
++ "SET PEEL <ON|OFF>\r\nSIZE <w> mm, <h> mm\r\nCLS\r\n"`. -/
def HeaderCmd (w h dpm : Int) (opt : Options) : List Nat :=
  let dpm := if dpm = 0 then 8 else dpm
  let peel := if opt.Peel then [79, 78] else [79, 70, 70]
  [83,69,84,32,67,85,84,84,69,82,32,79,70,70,13,10,
   83,69,84,32,80,65,82,84,73,67,65,76,95,67,85,84,84,69,82,32,79,70,70,13,10,
   83,69,84,32,80,69,69,76,32] ++ peel ++
  [13,10,83,73,90,69,32] ++ mmDec w dpm ++ [32,109,109,44,32] ++ mmDec h dpm ++
  [32,109,109,13,10,67,76,83,13,10]

/-- The trailer `"PRINT 1,1\r\n"`. -/
def printTail : List Nat := [80,82,73,78,84,32,49,44,49,13,10]

/-- The ASCII bytes of `fmt.Sprintf("BITMAP 0,0,%d,%d,1,", rowBytes, height)`. -/
def bmpHeaderBytes (rowBytes height : Int) : List Nat :=
  [66,73,84,77,65,80,32,48,44,48,44] ++ intDec rowBytes ++ [44] ++
    intDec height ++ [44,49,44]

/-- The `image.Image` argument of `Image2Bytes`: either an already-packed
`*bin_img.Binary` (the type assertion succeeds) or any other pixel source. -/
inductive GoImage where
  | bin (b : Binary)
  | src (s : PixelSource)

/-- The pixel loop of `Image2Bytes`: on-bits are ORed in at byte
`headerSize + y*rowBytes + x/8`, mask `1 << (7 - x%8)`. -/
def encodeLoop (bw : Binary) (hs : Nat) (rowBytes : Int) (buf0 : List Nat) :
    List Nat :=
  (List.range bw.Rect.Dy.toNat).foldl (fun buf (y : Nat) =>
    (List.range bw.Rect.Dx.toNat).foldl (fun buf (x : Nat) =>
      if bw.IsWhite (x : Int) (y : Int) then
        let bi : Nat := hs + y * rowBytes.toNat + x / 8
        buf.set bi (buf.getD bi 0 ||| (1 <<< (7 - x % 8)))
      else buf) buf) buf0

/-- `Driver.Image2Bytes`.  The buffer is allocated as header bytes followed by
`rowBytes*height` zero bytes, then the pixel loop runs. -/
def Image2Bytes (img : GoImage) : Except GoErr (Nat × List Nat) :=
  let conv : Except GoErr Binary :=
    match img with
    | .bin b => .ok b
    | .src s => FromGrayThreshold s 151
  match conv with
  | .error e => .error e
  | .ok bw =>
    let w := bw.Rect.Dx
    let h := bw.Rect.Dy
    let rowBytes := Int.tdiv (w + 7) 8
    let header := bmpHeaderBytes rowBytes h
    let hs := header.length
    let buf0 := header ++ List.replicate (rowBytes * h).toNat 0
    .ok (hs, encodeLoop bw hs rowBytes buf0)

/-- `Driver.Encode`: setup header ++ bitmap ++ `"PRINT 1,1\r\n"`. -/
def Encode (w h dpm : Int) (img : GoImage) (opt : Options) :
    Except GoErr (List Nat) :=
  match Image2Bytes img with
  | .error e => .error e
  | .ok (_, bitmap) => .ok (HeaderCmd w h dpm opt ++ bitmap ++ printTail)

structure BitmapHeader where
  RowBytes : Int
  Width : Int
  Height : Int
  HeaderEnd : Int
deriving DecidableEq

/-- The comma scan of `ParseBitmapHeader`: index of the fifth comma. -/
def find5c : List Nat → Nat → Nat → Option Nat
  | [], _, _ => none
  | c :: t, cnt, idx =>
    if c = 44 then
      if cnt + 1 = 5 then some idx else find5c t (cnt + 1) (idx + 1)
    else find5c t cnt (idx + 1)

/-- Literal match of an ASCII prefix (Sscanf ordinary characters). -/
def dropLit : List Nat → List Nat → Option (List Nat)
  | [], l => some l
  | _, [] => none
  | p :: ps, c :: cs => if c = p then dropLit ps cs else none

/-- Consume a run of spaces (a space in a Scanf format, and the whitespace
skipped before `%d`). -/
def skipSp : List Nat → List Nat
  | [] => []
  | c :: t => if c = 32 then skipSp t else c :: t

def isDigit (c : Nat) : Bool := 48 ≤ c ∧ c ≤ 57

def takeDigits : List Nat → List Nat × List Nat
  | [] => ([], [])
  | c :: t =>
    if isDigit c then
      let r := takeDigits t
      (c :: r.1, r.2)
    else ([], c :: t)

def digitsVal (ds : List Nat) : Nat := ds.foldl (fun a d => a * 10 + (d - 48)) 0

/-- `%d`: skip spaces, optional sign, then a nonempty digit run. -/
def parseIntTok (l : List Nat) : Option (Int × List Nat) :=
  match skipSp l with
  | [] => none
  | c :: t =>
    if c = 45 then
      match takeDigits t with
      | ([], _) => none
      | (ds, r) => some (-(digitsVal ds : Int), r)
    else if c = 43 then
      match takeDigits t with
      | ([], _) => none
      | (ds, r) => some ((digitsVal ds : Int), r)
    else
      match takeDigits (c :: t) with
      | ([], _) => none
      | (ds, r) => some ((digitsVal ds : Int), r)

def expectComma (l : List Nat) : Option (List Nat) :=
  match l with
  | [] => none
  | c :: t => if c = 44 then some t else none

/-- `fmt.Sscanf(string(body), "BITMAP %d,%d,%d,%d,%d,", ...)`: literals match
exactly, a format space consumes a space run, `%d` as above; input after the
format's final comma is ignored. -/
def scanBitmapLine (l : List Nat) :
    Option (Int × Int × Int × Int × Int) :=
  match dropLit [66,73,84,77,65,80] l with
  | none => none
  | some r =>
    (parseIntTok (skipSp r)).bind fun p1 =>
    (expectComma p1.2).bind fun r2 =>
    (parseIntTok r2).bind fun p2 =>
    (expectComma p2.2).bind fun r3 =>
    (parseIntTok r3).bind fun p3 =>
    (expectComma p3.2).bind fun r4 =>
    (parseIntTok r4).bind fun p4 =>
    (expectComma p4.2).bind fun r5 =>
    (parseIntTok r5).bind fun p5 =>
    (expectComma p5.2).map fun _ =>
    (p1.1, p2.1, p3.1, p4.1, p5.1)

/-- `Driver.ParseBitmapHeader`. -/
def ParseBitmapHeader (body : List Nat) : Except GoErr BitmapHeader :=
  if [66,73,84,77,65,80].isPrefixOf body then
    match find5c body 0 0 with
    | none => .error .invalidHeaderFormat
    | some idx =>
      match scanBitmapLine body with
      | none => .error .scanFailed
      | some (_, _, rowBytes, height, _) =>
        .ok ⟨rowBytes, rowBytes * 8, height, (idx : Int) + 1⟩
  else .error .notABitmapLine

structure TImage where
  Header : List Nat
  Bitmap : Binary
  Tail : List Nat
deriving DecidableEq

/-- The pixel/`bodyEnd` loop of `Bytes2Image` (state: image, `bodyEnd`). -/
def decodeLoop (body : List Nat) (headerEnd rowBytes : Int) (w h : Nat)
    (img0 : Binary) : Binary × Int :=
  (List.range h).foldl (fun (st : Binary × Int) (y : Nat) =>
    (List.range w).foldl (fun (st : Binary × Int) (x : Nat) =>
      let byteIndex : Int := headerEnd + (y : Int) * rowBytes + ((x / 8 : Nat) : Int)
      if byteIndex ≥ (body.length : Int) then st
      else if (byteAt body byteIndex >>> (7 - x % 8)) &&& 1 = 0 then
        (st.1.SetOff (x : Int) (y : Int), byteIndex)
      else (st.1.SetOn (x : Int) (y : Int), byteIndex)) st) (img0, headerEnd)

/-- `Driver.Bytes2Image`.  The final trailer slice `body[bodyEnd+1:]` faults
when `bodyEnd+1 > len(body)`; that runtime fault is `GoErr.sliceFault`. -/
def Bytes2Image (body : List Nat) : Except GoErr TImage :=
  match ParseBitmapHeader body with
  | .error e => .error e
  | .ok hd =>
    if hd.Width ≤ 0 ∨ hd.Height ≤ 0 then .error .invalidImageSize
    else match NewBinary hd.Width hd.Height with
    | .error e => .error e
    | .ok img0 =>
      let st := decodeLoop body hd.HeaderEnd hd.RowBytes
        hd.Width.toNat hd.Height.toNat img0
      if st.2 + 1 ≤ (body.length : Int) then
        .ok ⟨body.take hd.HeaderEnd.toNat, st.1, body.drop (st.2 + 1).toNat⟩
      else .error .sliceFault

/-- `setBitmapBit`: Go `%` on int is the truncated remainder (`Int.tmod`), and
`byte(1 << bitIndex)` truncates to 8 bits. -/
def setBitmapBit (body : List Nat) (headerEnd rowBytes x y : Int) (bit : Nat) :
    List Nat :=
  let byteIndex := headerEnd + y * rowBytes + Int.tdiv x 8
  let mask := (1 <<< (7 - Int.tmod x 8).toNat) % 256
  if bit = 0 then byteSet body byteIndex (byteAt body byteIndex &&& (255 ^^^ mask))
  else byteSet body byteIndex (byteAt body byteIndex ||| mask)

/-- The patch loop of `OverlayBinary`: every overlay pixel overwrites its bit
in the copy (`IsWhite` ↦ 1, else 0). -/
def overlayLoop (bh : BitmapHeader) (ov : Binary) (xOff yOff : Int)
    (base : List Nat) : List Nat :=
  (List.range ov.Rect.Dy.toNat).foldl (fun res (y : Nat) =>
    (List.range ov.Rect.Dx.toNat).foldl (fun res (x : Nat) =>
      let bit : Nat :=
        if ov.IsWhite ((x : Int) + ov.Rect.MinX)
            ((y : Int) + ov.Rect.MinY) then 1 else 0
      setBitmapBit res bh.HeaderEnd bh.RowBytes
        ((x : Int) + xOff) ((y : Int) + yOff) bit) res) base

/-- `Driver.OverlayBinary`. -/
def OverlayBinary (baseHeader : Option BitmapHeader) (base : List Nat)
    (overlay : Option Binary) (xOff yOff : Int) : Except GoErr (List Nat) :=
  match overlay with
  | none => .error .overlayNil
  | some ov =>
    if xOff < 0 ∨ yOff < 0 then .error .negativeOffset
    else if base.length = 0 then .error .baseEmpty
    else
      let hdr : Except GoErr BitmapHeader :=
        match baseHeader with
        | some bh => .ok bh
        | none => ParseBitmapHeader base
      match hdr with
      | .error e => .error e
      | .ok bh =>
        if bh.HeaderEnd + bh.RowBytes * bh.Height > (base.length : Int) then
          .error .baseTooShort
        else
          let ovW := ov.Rect.Dx
          let ovH := ov.Rect.Dy
          if ovW ≤ 0 ∨ ovH ≤ 0 then .error .invalidOverlaySize
          else if xOff + ovW > bh.Width ∨ yOff + ovH > bh.Height then
            .error .overlayOutOfBounds
          else
            .ok (overlayLoop bh ov xOff yOff base)

/-- `Driver.OverlayBinaryAtTopLeft`. -/
def OverlayBinaryAtTopLeft (baseHeader : Option BitmapHeader)
    (base : List Nat) (overlay : Option Binary) : Except GoErr (List Nat) :=
  OverlayBinary baseHeader base overlay 0 0

/-! ## Proof-side helper definitions -/

/-- Bit `k` of byte `i` of a buffer (the canonical accessor of the proofs). -/
def getBitB (l : List Nat) (i k : Nat) : Bool := (l.getD i 0).testBit k

/-- Set bit `k` of byte `i` to `v`: the normal form of every bit write the
sources perform (OR of a single-bit mask, or AND with its 8-bit complement). -/
def bitWrite (l : List Nat) (i k : Nat) (v : Bool) : List Nat :=
  if v then l.set i (l.getD i 0 ||| (1 <<< k))
  else l.set i (l.getD i 0 &&& (255 ^^^ (1 <<< k)))

/-- Row-major iteration order of the nested pixel loops. -/
def pairGrid (h w : Nat) : List (Nat × Nat) :=
  (List.range h).flatMap fun y => (List.range w).map fun x => (y, x)

/-- The normal form of the conditional-write loops: conditionally write bit
`kf q` of byte `idx q`. -/
def condStep {α : Type} (idx kf : α → Nat) (cond val : α → Bool) :
    List Nat → α → List Nat := fun l' q =>
  if cond q then bitWrite l' (idx q) (kf q) (val q) else l'

/-- The normal form of the byte-swap loops of the rotation fast path: read
the two bytes `a1 q`, `a2 q`, then write each as `g` of the other
(`revSwapBytes`, and — with `a1 = a2` — the middle-byte reversal). -/
def pairStep {α : Type} (a1 a2 : α → Nat) (g : Nat → Nat) :
    List Nat → α → List Nat := fun l q =>
  (l.set (a1 q) (g (l.getD (a2 q) 0))).set (a2 q) (g (l.getD (a1 q) 0))

/-- The normal form of the bit-swap loops of the rotation general path: read
bits `(i1, k1) q` and `(i2, k2) q`, then write each with the other's value
(`bitSwap` through the `setBit` bridge). -/
def pairStepBit {α : Type} (i1 k1 i2 k2 : α → Nat) :
    List Nat → α → List Nat := fun l q =>
  bitWrite (bitWrite l (i1 q) (k1 q) (getBitB l (i2 q) (k2 q)))
    (i2 q) (k2 q) (getBitB l (i1 q) (k1 q))

/-- Proof-side mirror of `natDec` (well-founded recursion, with an equation
lemma instead of kernel reduction). -/
def digitsOf (n : Nat) : List Nat :=
  if n < 10 then [48 + n] else digitsOf (n / 10) ++ [48 + n % 10]
decreasing_by exact Nat.div_lt_self (by omega) (by omega)

/-- Every byte of the buffer is an actual `uint8` value. -/
def BytesWF (l : List Nat) : Prop := ∀ c ∈ l, c < 256

instance : DecidablePred BytesWF := fun l =>
  inferInstanceAs (Decidable (∀ c ∈ l, c < 256))

/-- The invariant every `Binary` reachable through the package API satisfies
(`NewBinary` establishes it; sub-views and all mutators preserve it). -/
def Binary.WF (b : Binary) : Prop :=
  BytesWF b.Pix ∧ 0 < b.Stride ∧ 0 ≤ b.Rect.MinX ∧ 0 ≤ b.Rect.MinY ∧
  b.Rect.MinX ≤ b.Rect.MaxX ∧ b.Rect.MinY ≤ b.Rect.MaxY ∧
  (b.Rect.Dx + 7) / 8 ≤ b.Stride ∧
  (b.Rect.Dy - 1) * b.Stride + (b.Rect.Dx + 7) / 8 ≤ (b.Pix.length : Int)

instance : DecidablePred Binary.WF := fun b => by
  unfold Binary.WF; infer_instance

/-- The shape of an image produced by `NewBinary w h` followed by arbitrary
per-pixel sets: origin rectangle, stride `w/8`, width a positive multiple of
8, exactly `stride*h` bytes. -/
def Binary.StdWF (b : Binary) (w h : Nat) : Prop :=
  b.Rect = ⟨0, 0, (w : Int), (h : Int)⟩ ∧ b.Stride = ((w / 8 : Nat) : Int) ∧
  w % 8 = 0 ∧ 0 < w ∧ 0 < h ∧ b.Pix.length = (w / 8) * h ∧ BytesWF b.Pix

instance : ∀ b w h, Decidable (Binary.StdWF b w h) := fun b w h => by
  unfold Binary.StdWF; infer_instance

/-! ## Concrete instances used as test vectors -/

/-- The claim C2 header example, `"BITMAP 0,0,3,10,1,"` as bytes. -/
def c2Header : List Nat := [66,73,84,77,65,80,32,48,44,48,44,51,44,49,48,44,49,44]

/-- An 8×2 image whose only on-pixel is `(0,1)` (bytes `[0x00, 0x80]`). -/
def oobImage : Binary := ⟨[0x00, 0x80], 1, ⟨0, 0, 8, 2⟩⟩

/-- An 8×1 image with byte `0xA5`. -/
def tinyImage : Binary := ⟨[0xA5], 1, ⟨0, 0, 8, 1⟩⟩

/-- A valid encoded 8×1 base body: `"BITMAP 0,0,1,1,1,"` plus one zero
payload byte. -/
def tinyBase : List Nat := [66,73,84,77,65,80,32,48,44,48,44,49,44,49,44,49,44,0x00]

/-- The parsed header of `tinyBase`. -/
def tinyBaseHeader : BitmapHeader := ⟨1, 8, 1, 17⟩

/-- An encoded body whose buffer ends exactly at the header (zero payload
bytes): `"BITMAP 0,0,1,1,1,"`. -/
def headerOnlyBody : List Nat := [66,73,84,77,65,80,32,48,44,48,44,49,44,49,44,49,44]

/-- An encoded 8×2 body one byte short of its payload. -/
def shortBody : List Nat := [66,73,84,77,65,80,32,48,44,48,44,49,44,50,44,49,44,0xFF]

/-- The result of overlaying `tinyImage` onto `tinyBase` at the origin. -/
def ovlRes : List Nat := [66,73,84,77,65,80,32,48,44,48,44,49,44,49,44,49,44,0xA5]

/-- An unaligned 4×1 view (MinX = 1, so `Rotate180` takes the general
path). -/
def oddView : Binary := ⟨[0xA5, 0x5A, 0x33], 3, ⟨1, 0, 4, 1⟩⟩

/-- An unaligned 8×1 view (MinX = 1) holding the same visible pixels as
`tinyImage` under the shifted bit layout. -/
def shiftView : Binary := ⟨[0xD2], 1, ⟨1, 0, 9, 1⟩⟩

/-- A concrete 8×1 pixel source: a transparent pixel, a gray pixel whose
8-bit luma is exactly 151 (`0x9700` on all channels), and dark pixels. -/
def srcEx : PixelSource :=
  ⟨⟨0, 0, 8, 1⟩, fun x _ =>
    if x = 0 then ⟨0, 0, 0, 0⟩
    else if x = 1 then ⟨0x9700, 0x9700, 0x9700, 0xFFFF⟩
    else ⟨0x2000, 0x2000, 0x2000, 0xFFFF⟩⟩

/-! # Theorems

## Byte and bit primitives -/

theorem byteAt_ofNat (l : List Nat) (i : Nat) : byteAt l (i : Int) = l.getD i 0 := by
  simp [byteAt]

theorem byteSet_ofNat (l : List Nat) (i : Nat) (v : Nat) :
    byteSet l (i : Int) v = l.set i v := by
  simp [byteSet]

theorem getD_set_self (l : List Nat) (i v : Nat) (h : i < l.length) :
    (l.set i v).getD i 0 = v := by
  simp [List.getD, List.getElem?_set, h]

theorem getD_set_ne (l : List Nat) (i j v : Nat) (h : i ≠ j) :
    (l.set i v).getD j 0 = l.getD j 0 := by
  simp [List.getD, List.getElem?_set, h]

theorem getD_append_left (l1 l2 : List Nat) (i : Nat) (h : i < l1.length) :
    (l1 ++ l2).getD i 0 = l1.getD i 0 := by
  simp [List.getD, List.getElem?_append, h]

theorem getD_append_right (l1 l2 : List Nat) (i : Nat) (h : l1.length ≤ i) :
    (l1 ++ l2).getD i 0 = l2.getD (i - l1.length) 0 := by
  simp [List.getD, List.getElem?_append_right h]

theorem bitWrite_length (l : List Nat) (i k : Nat) (v : Bool) :
    (bitWrite l i k v).length = l.length := by
  unfold bitWrite; split <;> simp

theorem mask_testBit_self (k : Nat) : ((1 <<< k : Nat)).testBit k = true := by
  simp [Nat.shiftLeft_eq, Nat.testBit_two_pow]

theorem mask_testBit_ne (k j : Nat) (hne : k ≠ j) :
    ((1 <<< k : Nat)).testBit j = false := by
  simp [Nat.shiftLeft_eq, Nat.testBit_two_pow, hne]

theorem maskC_testBit_self (k : Nat) (hk : k < 8) :
    ((255 ^^^ (1 <<< k) : Nat)).testBit k = false := by
  interval_cases k <;> decide

theorem maskC_testBit_ne (k j : Nat) (hk : k < 8) (hj : j < 8) (hne : k ≠ j) :
    ((255 ^^^ (1 <<< k) : Nat)).testBit j = true := by
  interval_cases k <;> interval_cases j <;> simp_all <;> decide

theorem getBitB_bitWrite_self (l : List Nat) (i k : Nat) (v : Bool)
    (h : i < l.length) (hk : k < 8) :
    getBitB (bitWrite l i k v) i k = v := by
  unfold getBitB bitWrite
  cases v with
  | true => rw [if_pos rfl, getD_set_self _ _ _ h, Nat.testBit_or, mask_testBit_self]; simp
  | false =>
    rw [if_neg (by simp), getD_set_self _ _ _ h, Nat.testBit_and, maskC_testBit_self k hk]
    simp

theorem getBitB_bitWrite_ne (l : List Nat) (i k j k' : Nat) (v : Bool)
    (hk : k < 8) (hk' : k' < 8) (hne : i ≠ j ∨ k ≠ k') :
    getBitB (bitWrite l i k v) j k' = getBitB l j k' := by
  rcases eq_or_ne i j with rfl | hij
  · have hkk : k ≠ k' := hne.resolve_left (fun hc => hc rfl)
    by_cases hlen : i < l.length
    · unfold getBitB bitWrite
      cases v with
      | true =>
        rw [if_pos rfl, getD_set_self _ _ _ hlen, Nat.testBit_or,
          mask_testBit_ne k k' hkk]
        simp
      | false =>
        rw [if_neg (by simp), getD_set_self _ _ _ hlen, Nat.testBit_and,
          maskC_testBit_ne k k' hk hk' hkk]
        simp
    · have hset : ∀ w, l.set i w = l := fun w =>
        List.set_eq_of_length_le (by omega)
      unfold getBitB bitWrite
      cases v with
      | true => rw [if_pos rfl, hset]
      | false => rw [if_neg (by simp), hset]
  · unfold getBitB bitWrite
    cases v with
    | true => rw [if_pos rfl, getD_set_ne _ _ _ _ hij]
    | false => rw [if_neg (by simp), getD_set_ne _ _ _ _ hij]

theorem getD_bitWrite_ne (l : List Nat) (i k j : Nat) (v : Bool) (h : i ≠ j) :
    (bitWrite l i k v).getD j 0 = l.getD j 0 := by
  unfold bitWrite; split <;> exact getD_set_ne _ _ _ _ h

theorem bytesWF_set (l : List Nat) (i v : Nat) (hl : BytesWF l) (hv : v < 256) :
    BytesWF (l.set i v) := by
  intro c hc
  rcases List.mem_or_eq_of_mem_set hc with h | rfl
  · exact hl c h
  · exact hv

theorem getD_lt_256 (l : List Nat) (i : Nat) (hl : BytesWF l) : l.getD i 0 < 256 := by
  rcases h : l[i]? with _ | c
  · simp [List.getD, h]
  · have hm : c ∈ l := by
      rcases List.getElem?_eq_some.mp h with ⟨hi, rfl⟩
      exact List.getElem_mem hi
    simpa [List.getD, h] using hl c hm

theorem bytesWF_bitWrite (l : List Nat) (i k : Nat) (v : Bool)
    (hl : BytesWF l) (hk : k < 8) :
    BytesWF (bitWrite l i k v) := by
  have h256 : (256 : Nat) = 2 ^ 8 := by norm_num
  have hm : (1 <<< k : Nat) < 2 ^ 8 := by
    calc (1 <<< k : Nat) ≤ 2 ^ 7 := by
          rw [Nat.shiftLeft_eq, Nat.one_mul]
          exact Nat.pow_le_pow_right (by omega) (by omega)
    _ < 2 ^ 8 := by norm_num
  unfold bitWrite
  split
  · apply bytesWF_set _ _ _ hl
    rw [h256]
    exact Nat.or_lt_two_pow (h256 ▸ getD_lt_256 l i hl) hm
  · apply bytesWF_set _ _ _ hl
    rw [h256]
    exact Nat.and_lt_two_pow _ (Nat.xor_lt_two_pow (by norm_num) hm)

/-! ## The master lemma for conditional single-bit write loops

Every pixel loop of the sources (encode, decode, threshold rows, overlay)
writes single bits through `bitWrite` at an address computed from the
iteration element.  These lemmas characterise such a fold. -/

section CondFold

variable {α : Type}

theorem condStep_of_true (idx kf : α → Nat) (cond val : α → Bool)
    (l' : List Nat) (q : α) (hc : cond q = true) :
    condStep idx kf cond val l' q = bitWrite l' (idx q) (kf q) (val q) := by
  unfold condStep; rw [hc]; simp

theorem condStep_of_false (idx kf : α → Nat) (cond val : α → Bool)
    (l' : List Nat) (q : α) (hc : cond q = false) :
    condStep idx kf cond val l' q = l' := by
  unfold condStep; rw [hc]; simp

theorem condStep_length (idx kf : α → Nat) (cond val : α → Bool)
    (l' : List Nat) (q : α) :
    (condStep idx kf cond val l' q).length = l'.length := by
  unfold condStep; split
  · exact bitWrite_length ..
  · rfl

theorem condStep_getD_ne (idx kf : α → Nat) (cond val : α → Bool)
    (l' : List Nat) (q : α) (i : Nat) (h : idx q ≠ i) :
    (condStep idx kf cond val l' q).getD i 0 = l'.getD i 0 := by
  unfold condStep; split
  · exact getD_bitWrite_ne _ _ _ _ _ h
  · rfl

theorem condStep_getBit_ne (idx kf : α → Nat) (cond val : α → Bool)
    (l' : List Nat) (q : α) (i k' : Nat) (hkq : kf q < 8) (hk' : k' < 8)
    (h : idx q ≠ i ∨ kf q ≠ k') :
    getBitB (condStep idx kf cond val l' q) i k' = getBitB l' i k' := by
  unfold condStep; split
  · exact getBitB_bitWrite_ne _ _ _ _ _ _ hkq hk' h
  · rfl

theorem condFold_length (ps : List α) (idx kf : α → Nat) (cond val : α → Bool)
    (l : List Nat) :
    (ps.foldl (condStep idx kf cond val) l).length = l.length := by
  induction ps generalizing l with
  | nil => rfl
  | cons a t ih => rw [List.foldl_cons, ih, condStep_length]

theorem condFold_getD_frame (ps : List α) (idx kf : α → Nat)
    (cond val : α → Bool) (l : List Nat) (i : Nat)
    (h : ∀ p ∈ ps, idx p ≠ i) :
    (ps.foldl (condStep idx kf cond val) l).getD i 0 = l.getD i 0 := by
  induction ps generalizing l with
  | nil => rfl
  | cons a t ih =>
    rw [List.foldl_cons, ih _ (fun p hp => h p (List.mem_cons_of_mem a hp)),
      condStep_getD_ne _ _ _ _ _ _ _ (h a (List.mem_cons_self a t))]

theorem condFold_getBit_frame (ps : List α) (idx kf : α → Nat)
    (cond val : α → Bool) (l : List Nat) (i k' : Nat)
    (hks : ∀ p ∈ ps, kf p < 8) (hk' : k' < 8)
    (h : ∀ p ∈ ps, idx p ≠ i ∨ kf p ≠ k') :
    getBitB (ps.foldl (condStep idx kf cond val) l) i k' = getBitB l i k' := by
  induction ps generalizing l with
  | nil => rfl
  | cons a t ih =>
    rw [List.foldl_cons,
      ih _ (fun p hp => hks p (List.mem_cons_of_mem a hp))
        (fun p hp => h p (List.mem_cons_of_mem a hp)),
      condStep_getBit_ne _ _ _ _ _ _ _ _ (hks a (List.mem_cons_self a t)) hk'
        (h a (List.mem_cons_self a t))]

theorem condFold_bytesWF (ps : List α) (idx kf : α → Nat)
    (cond val : α → Bool) (l : List Nat)
    (hks : ∀ p ∈ ps, kf p < 8) (hl : BytesWF l) :
    BytesWF (ps.foldl (condStep idx kf cond val) l) := by
  induction ps generalizing l with
  | nil => exact hl
  | cons a t ih =>
    rw [List.foldl_cons]
    refine ih _ (fun p hp => hks p (List.mem_cons_of_mem a hp)) ?_
    unfold condStep
    split
    · exact bytesWF_bitWrite _ _ _ _ hl (hks a (List.mem_cons_self a t))
    · exact hl

/-- If every iteration aimed at bit `(i,k)` has a false condition, the bit is
untouched. -/
theorem condFold_getBit_noWrite (ps : List α) (idx kf : α → Nat)
    (cond val : α → Bool) (l : List Nat) (i k : Nat)
    (hks : ∀ q ∈ ps, kf q < 8) (hk : k < 8)
    (h : ∀ q ∈ ps, idx q = i → kf q = k → cond q = false) :
    getBitB (ps.foldl (condStep idx kf cond val) l) i k = getBitB l i k := by
  induction ps generalizing l with
  | nil => rfl
  | cons a t ih =>
    rw [List.foldl_cons,
      ih _ (fun q hq => hks q (List.mem_cons_of_mem a hq))
        (fun q hq => h q (List.mem_cons_of_mem a hq))]
    by_cases haddr : idx a = i ∧ kf a = k
    · rw [condStep_of_false _ _ _ _ _ _ (h a (List.mem_cons_self a t) haddr.1 haddr.2)]
    · exact condStep_getBit_ne _ _ _ _ _ _ _ _ (hks a (List.mem_cons_self a t)) hk
        (by by_cases h1 : idx a = i
            · right; intro h2; exact haddr ⟨h1, h2⟩
            · left; exact h1)

/-- The value of the bit addressed by iteration `p` after the loop: `val p`
when `cond p` holds, otherwise the initial bit.  Iterations sharing an
address must agree on condition and value (in the sources distinct pixels
always have distinct addresses). -/
theorem condFold_getBit (ps : List α) (idx kf : α → Nat) (cond val : α → Bool)
    (l : List Nat) (p : α) (hp : p ∈ ps)
    (hks : ∀ q ∈ ps, kf q < 8)
    (haddr : ∀ q ∈ ps, ∀ q' ∈ ps, idx q = idx q' → kf q = kf q' →
      cond q = cond q' ∧ val q = val q')
    (hi : idx p < l.length) :
    getBitB (ps.foldl (condStep idx kf cond val) l) (idx p) (kf p)
      = if cond p then val p else getBitB l (idx p) (kf p) := by
  induction ps using List.reverseRecOn generalizing l with
  | nil => exact absurd hp (List.not_mem_nil p)
  | append_singleton t a ih =>
    have hkp : kf p < 8 := hks p hp
    have hmemT : ∀ q ∈ t, q ∈ t ++ [a] := fun q hq =>
      List.mem_append.mpr (Or.inl hq)
    have hmemA : a ∈ t ++ [a] := List.mem_append.mpr (Or.inr (by simp))
    have hlenFold : (t.foldl (condStep idx kf cond val) l).length = l.length :=
      condFold_length ..
    rw [List.foldl_append, List.foldl_cons, List.foldl_nil]
    by_cases hap : idx a = idx p ∧ kf a = kf p
    · have hsame := haddr a hmemA p hp hap.1 hap.2
      by_cases hc : cond p = true
      · rw [condStep_of_true _ _ _ _ _ _ (hsame.1.trans hc), ← hap.1, ← hap.2,
          getBitB_bitWrite_self _ _ _ _ (by omega) (hks a hmemA), if_pos hc,
          hsame.2]
      · have hcf : cond p = false := by simpa using hc
        rw [condStep_of_false _ _ _ _ _ _ (hsame.1.trans hcf), if_neg (by simp [hcf])]
        exact condFold_getBit_noWrite t idx kf cond val l (idx p) (kf p)
          (fun q hq => hks q (hmemT q hq)) hkp
          (fun q hq h1 h2 => ((haddr q (hmemT q hq) p hp h1 h2).1).trans hcf)
    · have hne : idx a ≠ idx p ∨ kf a ≠ kf p := by
        by_cases h1 : idx a = idx p
        · right; intro h2; exact hap ⟨h1, h2⟩
        · left; exact h1
      have hpt : p ∈ t := by
        rcases List.mem_append.mp hp with h | h
        · exact h
        · exfalso
          rcases List.mem_singleton.mp h with rfl
          exact hne.elim (fun h => h rfl) (fun h => h rfl)
      rw [condStep_getBit_ne _ _ _ _ _ _ _ _ (hks a hmemA) hkp hne]
      exact ih l hpt (fun q hq => hks q (hmemT q hq))
        (fun q hq q' hq' => haddr q (hmemT q hq) q' (hmemT q' hq')) hi

end CondFold

/-! ## Iteration grids -/

theorem pairGrid_mem (h w y x : Nat) :
    (y, x) ∈ pairGrid h w ↔ y < h ∧ x < w := by
  simp [pairGrid, List.mem_flatMap, List.mem_map, List.mem_range]

theorem foldl_flatMap_eq {σ α β : Type} (f : α → List β) (g : σ → β → σ)
    (l : List α) (s : σ) :
    (l.flatMap f).foldl g s = l.foldl (fun s x => (f x).foldl g s) s := by
  induction l generalizing s with
  | nil => rfl
  | cons a t ih => simp [List.flatMap_cons, List.foldl_append, ih]

theorem foldl_pairGrid {σ : Type} (g : σ → Nat × Nat → σ) (h w : Nat) (s : σ) :
    (pairGrid h w).foldl g s
      = (List.range h).foldl (fun s y =>
          (List.range w).foldl (fun s x => g s (y, x)) s) s := by
  unfold pairGrid
  rw [foldl_flatMap_eq]
  congr 1
  funext s y
  rw [List.foldl_map]

/-- Distinct pixels of an aligned `rb`-bytes-per-row grid have distinct
(byte, bit) addresses. -/
theorem gridAddr_inj (rb : Nat) {y x y' x' : Nat}
    (hx : x < 8 * rb) (hx' : x' < 8 * rb)
    (hi : y * rb + x / 8 = y' * rb + x' / 8) (hk : 7 - x % 8 = 7 - x' % 8) :
    y = y' ∧ x = x' := by
  have hq : x / 8 < rb := by omega
  have hq' : x' / 8 < rb := by omega
  have hyy : y = y' := by
    rcases Nat.lt_trichotomy y y' with hlt | he | hgt
    · have h2 : (y + 1) * rb ≤ y' * rb := Nat.mul_le_mul_right rb (by omega)
      rw [Nat.add_mul, Nat.one_mul] at h2
      omega
    · exact he
    · have h2 : (y' + 1) * rb ≤ y * rb := Nat.mul_le_mul_right rb (by omega)
      rw [Nat.add_mul, Nat.one_mul] at h2
      omega
  subst hyy
  exact ⟨rfl, by omega⟩

/-! ## Bridges from the source-form pixel accessors to `getBitB`/`bitWrite` -/

theorem shift128 (r : Nat) (h : r < 8) : (0x80 : Nat) >>> r = 1 <<< (7 - r) := by
  interval_cases r <;> decide

theorem and_mask_ne_zero_iff (bv k : Nat) :
    (bv &&& (1 <<< k)) ≠ 0 ↔ bv.testBit k = true := by
  rw [Nat.shiftLeft_eq, Nat.one_mul, Nat.and_two_pow]
  rcases h : bv.testBit k with _ | _ <;> simp [h]

theorem maskOf_nonneg (x : Int) (hx : 0 ≤ x) :
    maskOf x = 1 <<< (7 - x.toNat % 8) := by
  unfold maskOf
  have h1 : ((x % 8)).toNat = x.toNat % 8 := by omega
  rw [h1]
  exact shift128 _ (Nat.mod_lt _ (by omega))

/-- `bit` at in-view coordinates, in `getBitB` form.  `sN` is the stride as a
natural number; the byte index is relative to the view's buffer. -/
theorem bit_bridge (b : Binary) (sN : Nat) (hS : b.Stride = (sN : Int))
    (hMx : 0 ≤ b.Rect.MinX) (hMy : 0 ≤ b.Rect.MinY) (x y : Nat) :
    b.bit (b.Rect.MinX + (x : Int)) (b.Rect.MinY + (y : Int))
      = getBitB b.Pix (y * sN + x / 8) (7 - (b.Rect.MinX.toNat + x) % 8) := by
  unfold Binary.bit Binary.pixOffset
  have hoff : (b.Rect.MinY + (y : Int) - b.Rect.MinY) * b.Stride
      + Int.tdiv (b.Rect.MinX + (x : Int) - b.Rect.MinX) 8
      = ((y * sN + x / 8 : Nat) : Int) := by
    have h1 : b.Rect.MinY + (y : Int) - b.Rect.MinY = (y : Int) := by ring
    have h2 : b.Rect.MinX + (x : Int) - b.Rect.MinX = (x : Int) := by ring
    rw [h1, h2, hS, Int.tdiv_eq_ediv (by positivity) (by norm_num)]
    rw [show ((x : Int)) / 8 = ((x / 8 : Nat) : Int) from
      ((Int.ofNat_ediv x 8).symm ▸ rfl)]
    push_cast
    ring
  rw [hoff, byteAt_ofNat]
  have hmask : maskOf (b.Rect.MinX + (x : Int))
      = 1 <<< (7 - (b.Rect.MinX.toNat + x) % 8) := by
    rw [maskOf_nonneg _ (by omega)]
    congr 2
    omega
  rw [hmask]
  apply Bool.eq_iff_iff.mpr
  rw [decide_eq_true_iff]
  unfold getBitB
  exact and_mask_ne_zero_iff ..

/-- `setBit` at in-view coordinates, in `bitWrite` form. -/
theorem setBit_bridge (b : Binary) (sN : Nat) (hS : b.Stride = (sN : Int))
    (hMx : 0 ≤ b.Rect.MinX) (hMy : 0 ≤ b.Rect.MinY) (x y : Nat) (v : Bool) :
    b.setBit (b.Rect.MinX + (x : Int)) (b.Rect.MinY + (y : Int)) v
      = { b with Pix := (bitWrite b.Pix (y * sN + x / 8)
            (7 - (b.Rect.MinX.toNat + x) % 8) v) } := by
  unfold Binary.setBit Binary.pixOffset bitWrite
  have h1 : b.Rect.MinY + (y : Int) - b.Rect.MinY = (y : Int) := by ring
  have h2 : b.Rect.MinX + (x : Int) - b.Rect.MinX = (x : Int) := by ring
  have hoff : (b.Rect.MinY + (y : Int) - b.Rect.MinY) * b.Stride
      + Int.tdiv (b.Rect.MinX + (x : Int) - b.Rect.MinX) 8
      = ((y * sN + x / 8 : Nat) : Int) := by
    rw [h1, h2, hS, Int.tdiv_eq_ediv (by positivity) (by norm_num)]
    rw [show ((x : Int)) / 8 = ((x / 8 : Nat) : Int) from
      ((Int.ofNat_ediv x 8).symm ▸ rfl)]
    push_cast
    ring
  have hmask : maskOf (b.Rect.MinX + (x : Int))
      = 1 <<< (7 - (b.Rect.MinX.toNat + x) % 8) := by
    rw [maskOf_nonneg _ (by omega)]
    congr 2
    omega
  rw [hoff, hmask]
  cases v with
  | true => simp only [eq_self_iff_true, if_true, byteAt_ofNat, byteSet_ofNat]
  | false => simp only [Bool.false_eq_true, if_false, byteAt_ofNat, byteSet_ofNat]

/-! ## The comma scan -/

theorem find5c_none_iff (l : List Nat) (cnt idx : Nat) (hcnt : cnt < 5) :
    find5c l cnt idx = none ↔ l.count 44 < 5 - cnt := by
  induction l generalizing cnt idx with
  | nil => simp [find5c]; omega
  | cons c t ih =>
    unfold find5c
    by_cases hc : c = 44
    · subst hc
      rw [if_pos rfl, List.count_cons_self]
      by_cases h5 : cnt + 1 = 5
      · rw [if_pos h5]
        simp
        omega
      · rw [if_neg h5, ih (cnt + 1) (idx + 1) (by omega)]
        omega
    · rw [if_neg hc, List.count_cons_of_ne (by omega), ih cnt (idx + 1) hcnt]

/-- C2: `ParseBitmapHeader` parses `"BITMAP 0,0,3,10,1,"` to
`{rowBytes 3, width 24, height 10}` with payload offset 18, one past the
fifth comma (at index 17); any buffer without the literal `"BITMAP"` prefix
yields the not-a-bitmap-line error; any `"BITMAP"`-prefixed buffer holding
fewer than five commas yields the invalid-header-format error. -/
theorem parseBitmapHeader_spec :
    (ParseBitmapHeader c2Header = .ok ⟨3, 24, 10, 18⟩
      ∧ find5c c2Header 0 0 = some 17) ∧
    (∀ body : List Nat, [66,73,84,77,65,80].isPrefixOf body = false →
      ParseBitmapHeader body = .error .notABitmapLine) ∧
    (∀ body : List Nat, [66,73,84,77,65,80].isPrefixOf body = true →
      body.count 44 < 5 →
      ParseBitmapHeader body = .error .invalidHeaderFormat) := by
  refine ⟨by decide, ?_, ?_⟩
  · intro body h
    unfold ParseBitmapHeader
    rw [h]
    simp
  · intro body hpre hcnt
    unfold ParseBitmapHeader
    rw [hpre]
    have h5 : find5c body 0 0 = none := (find5c_none_iff body 0 0 (by omega)).mpr (by omega)
    simp [h5]

/-- Witness for C2: the universally quantified error clauses evaluated at
concrete buffers. -/
theorem parseBitmapHeader_spec_witness :
    ParseBitmapHeader [83, 69, 84] = .error .notABitmapLine ∧
    ParseBitmapHeader [66,73,84,77,65,80,32,48,44,48,44,51,44] =
      .error .invalidHeaderFormat :=
  ⟨parseBitmapHeader_spec.2.1 [83, 69, 84] (by decide),
   parseBitmapHeader_spec.2.2 [66,73,84,77,65,80,32,48,44,48,44,51,44]
     (by decide) (by decide)⟩

/-- C9 (code evidence): `IsWhite`/`IsBlack` do **not** treat out-of-range
coordinates as "off".  On an 8×2 image whose only on pixel is `(0,1)`, the
out-of-range query `(8,0)` reads the neighbouring row's bit through the raw
buffer index and reports white; the specified behaviour is off/false.
(Other out-of-range queries, e.g. `(0,2)`, index past the buffer, a runtime
fault in Go.) -/
theorem isWhite_out_of_range_misreads :
    oobImage.Rect.Contains 8 0 = false ∧
    oobImage.IsWhite 8 0 = true ∧
    oobImage.IsBlack 8 0 = false ∧
    oobImage.At 8 0 = 0 := by
  decide

/-! ## Overlay validation order (C7) -/

/-- C7: with a supplied base header, `OverlayBinary` validates in order —
nil overlay, negative offsets, empty base, base shorter than
`headerEnd + rowBytes*height` (BaseTooShort), non-positive overlay size
(InvalidOverlaySize), overlay exceeding the base rectangle
(OverlayOutOfBounds) — each failing with its own distinct error, and returns
a patched buffer whenever every validation passes. -/
theorem overlayBinary_validation (bh : BitmapHeader) (base : List Nat)
    (o : Binary) (xOff yOff : Int)
    (hbw : bh.Width = bh.RowBytes * 8) (hhe : 0 ≤ bh.HeaderEnd) :
    (OverlayBinary (some bh) base none xOff yOff = .error .overlayNil) ∧
    (OverlayBinary (some bh) base (some o) xOff yOff = .error .negativeOffset
      ↔ (xOff < 0 ∨ yOff < 0)) ∧
    (OverlayBinary (some bh) base (some o) xOff yOff = .error .baseEmpty
      ↔ (0 ≤ xOff ∧ 0 ≤ yOff ∧ base = [])) ∧
    (OverlayBinary (some bh) base (some o) xOff yOff = .error .baseTooShort
      ↔ (0 ≤ xOff ∧ 0 ≤ yOff ∧ base ≠ [] ∧
         (base.length : Int) < bh.HeaderEnd + bh.RowBytes * bh.Height)) ∧
    (OverlayBinary (some bh) base (some o) xOff yOff = .error .invalidOverlaySize
      ↔ (0 ≤ xOff ∧ 0 ≤ yOff ∧ base ≠ [] ∧
         bh.HeaderEnd + bh.RowBytes * bh.Height ≤ (base.length : Int) ∧
         (o.Rect.Dx ≤ 0 ∨ o.Rect.Dy ≤ 0))) ∧
    (OverlayBinary (some bh) base (some o) xOff yOff = .error .overlayOutOfBounds
      ↔ (0 ≤ xOff ∧ 0 ≤ yOff ∧ base ≠ [] ∧
         bh.HeaderEnd + bh.RowBytes * bh.Height ≤ (base.length : Int) ∧
         0 < o.Rect.Dx ∧ 0 < o.Rect.Dy ∧
         (bh.Width < xOff + o.Rect.Dx ∨ bh.Height < yOff + o.Rect.Dy))) ∧
    ((∃ out, OverlayBinary (some bh) base (some o) xOff yOff = .ok out)
      ↔ (0 ≤ xOff ∧ 0 ≤ yOff ∧ base ≠ [] ∧
         bh.HeaderEnd + bh.RowBytes * bh.Height ≤ (base.length : Int) ∧
         0 < o.Rect.Dx ∧ 0 < o.Rect.Dy ∧
         xOff + o.Rect.Dx ≤ bh.Width ∧ yOff + o.Rect.Dy ≤ bh.Height)) := by
  unfold OverlayBinary
  refine ⟨rfl, ?_⟩
  simp only []
  split_ifs with h1 h2 h3 h4 h5
  · -- negative offset
    have hno : ¬(0 ≤ xOff ∧ 0 ≤ yOff) := by omega
    exact ⟨⟨fun _ => h1, fun _ => rfl⟩,
      ⟨fun hc => by simp at hc, fun hr => absurd ⟨hr.1, hr.2.1⟩ hno⟩,
      ⟨fun hc => by simp at hc, fun hr => absurd ⟨hr.1, hr.2.1⟩ hno⟩,
      ⟨fun hc => by simp at hc, fun hr => absurd ⟨hr.1, hr.2.1⟩ hno⟩,
      ⟨fun hc => by simp at hc, fun hr => absurd ⟨hr.1, hr.2.1⟩ hno⟩,
      ⟨fun hh => by rcases hh with ⟨out, hout⟩; simp at hout,
       fun hr => absurd ⟨hr.1, hr.2.1⟩ hno⟩⟩
  · -- empty base
    have hx : 0 ≤ xOff := by omega
    have hy : 0 ≤ yOff := by omega
    have hb : base = [] := List.length_eq_zero.mp h2
    exact ⟨⟨fun hc => by simp at hc, fun hr => absurd hr h1⟩,
      iff_of_true rfl ⟨hx, hy, hb⟩,
      ⟨fun hc => by simp at hc, fun hr => absurd hb hr.2.2.1⟩,
      ⟨fun hc => by simp at hc, fun hr => absurd hb hr.2.2.1⟩,
      ⟨fun hc => by simp at hc, fun hr => absurd hb hr.2.2.1⟩,
      ⟨fun hh => by rcases hh with ⟨out, hout⟩; simp at hout,
       fun hr => absurd hb hr.2.2.1⟩⟩
  · -- base too short
    have hx : 0 ≤ xOff := by omega
    have hy : 0 ≤ yOff := by omega
    have hbne : base ≠ [] := fun hb => h2 (by simp [hb])
    exact ⟨⟨fun hc => by simp at hc, fun hr => absurd hr h1⟩,
      ⟨fun hc => by simp at hc, fun hr => absurd hr.2.2 hbne⟩,
      iff_of_true rfl ⟨hx, hy, hbne, h3⟩,
      ⟨fun hc => by simp at hc, fun hr => absurd h3 (by exact not_lt.mpr hr.2.2.2.1)⟩,
      ⟨fun hc => by simp at hc, fun hr => absurd h3 (by exact not_lt.mpr hr.2.2.2.1)⟩,
      ⟨fun hh => by rcases hh with ⟨out, hout⟩; simp at hout,
       fun hr => absurd h3 (by exact not_lt.mpr hr.2.2.2.1)⟩⟩
  · -- invalid overlay size
    have hx : 0 ≤ xOff := by omega
    have hy : 0 ≤ yOff := by omega
    have hbne : base ≠ [] := fun hb => h2 (by simp [hb])
    have hlen : bh.HeaderEnd + bh.RowBytes * bh.Height ≤ (base.length : Int) :=
      not_lt.mp h3
    exact ⟨⟨fun hc => by simp at hc, fun hr => absurd hr h1⟩,
      ⟨fun hc => by simp at hc, fun hr => absurd hr.2.2 hbne⟩,
      ⟨fun hc => by simp at hc, fun hr => absurd hlen (not_le.mpr hr.2.2.2)⟩,
      iff_of_true rfl ⟨hx, hy, hbne, hlen, h4⟩,
      ⟨fun hc => by simp at hc,
       fun hr => absurd h4 (by rcases hr with ⟨-, -, -, -, hdx, hdy, -⟩; omega)⟩,
      ⟨fun hh => by rcases hh with ⟨out, hout⟩; simp at hout,
       fun hr => absurd h4 (by rcases hr with ⟨-, -, -, -, hdx, hdy, -⟩; omega)⟩⟩
  · -- overlay out of bounds
    have hx : 0 ≤ xOff := by omega
    have hy : 0 ≤ yOff := by omega
    have hbne : base ≠ [] := fun hb => h2 (by simp [hb])
    have hlen : bh.HeaderEnd + bh.RowBytes * bh.Height ≤ (base.length : Int) :=
      not_lt.mp h3
    have hdx : 0 < o.Rect.Dx := by omega
    have hdy : 0 < o.Rect.Dy := by omega
    exact ⟨⟨fun hc => by simp at hc, fun hr => absurd hr h1⟩,
      ⟨fun hc => by simp at hc, fun hr => absurd hr.2.2 hbne⟩,
      ⟨fun hc => by simp at hc, fun hr => absurd hlen (not_le.mpr hr.2.2.2)⟩,
      ⟨fun hc => by simp at hc, fun hr => absurd h4 (by omega)⟩,
      iff_of_true rfl ⟨hx, hy, hbne, hlen, hdx, hdy, h5⟩,
      ⟨fun hh => by rcases hh with ⟨out, hout⟩; simp at hout,
       fun hr => absurd h5 (by rcases hr with ⟨-, -, -, -, -, -, hbx, hby⟩; omega)⟩⟩
  · -- success
    have hx : 0 ≤ xOff := by omega
    have hy : 0 ≤ yOff := by omega
    have hbne : base ≠ [] := fun hb => h2 (by simp [hb])
    have hlen : bh.HeaderEnd + bh.RowBytes * bh.Height ≤ (base.length : Int) :=
      not_lt.mp h3
    have hdx : 0 < o.Rect.Dx := by omega
    have hdy : 0 < o.Rect.Dy := by omega
    have hbx : xOff + o.Rect.Dx ≤ bh.Width := by omega
    have hby : yOff + o.Rect.Dy ≤ bh.Height := by omega
    exact ⟨⟨fun hc => by simp at hc, fun hr => absurd hr h1⟩,
      ⟨fun hc => by simp at hc, fun hr => absurd hr.2.2 hbne⟩,
      ⟨fun hc => by simp at hc, fun hr => absurd hlen (not_le.mpr hr.2.2.2)⟩,
      ⟨fun hc => by simp at hc, fun hr => absurd h4 (by omega)⟩,
      ⟨fun hc => by simp at hc, fun hr => absurd h5 (by omega)⟩,
      iff_of_true ⟨_, rfl⟩ ⟨hx, hy, hbne, hlen, hdx, hdy, hbx, hby⟩⟩

/-- Witness for C7: on an 8×1 base with an 8×1 overlay at the origin, every
validation passes and the call returns a patched buffer; a nil overlay fails
with the nil-overlay error; offset (1,0) fails out-of-bounds. -/
theorem overlayBinary_validation_witness :
    OverlayBinary (some tinyBaseHeader) tinyBase none 0 0 = .error .overlayNil ∧
    (∃ out, OverlayBinary (some tinyBaseHeader) tinyBase (some tinyImage) 0 0 = .ok out) ∧
    OverlayBinary (some tinyBaseHeader) tinyBase (some tinyImage) 1 0 =
      .error .overlayOutOfBounds := by
  have h := overlayBinary_validation tinyBaseHeader tinyBase tinyImage 0 0
    (by decide) (by decide)
  have h1 := overlayBinary_validation tinyBaseHeader tinyBase tinyImage 1 0
    (by decide) (by decide)
  refine ⟨h.1, ?_, ?_⟩
  · exact h.2.2.2.2.2.2.mpr
      ⟨by decide, by decide, by decide, by decide, by decide, by decide,
       by decide, by decide⟩
  · exact h1.2.2.2.2.2.1.mpr
      ⟨by decide, by decide, by decide, by decide, by decide, by decide,
       by decide⟩

/-! ## Overlay frame effects (C6) -/

theorem rowcol_lt (y q H rb : Nat) (hy : y < H) (hq : q < rb) :
    y * rb + q < H * rb := by
  calc y * rb + q < y * rb + rb := by omega
  _ = (y + 1) * rb := by ring
  _ ≤ H * rb := Nat.mul_le_mul_right rb (by omega)

theorem foldl_congr_mem {σ β : Type} (f g : σ → β → σ) (l : List β) (a : σ)
    (h : ∀ s, ∀ b ∈ l, f s b = g s b) : l.foldl f a = l.foldl g a := by
  induction l generalizing a with
  | nil => rfl
  | cons x t ih =>
    simp only [List.foldl_cons, h a x (by simp)]
    exact ih _ (fun s b hb => h s b (by simp [hb]))

theorem foldl_pairGrid2 {σ : Type} (g : σ → Nat → Nat → σ) (h w : Nat) (s : σ) :
    (pairGrid h w).foldl (fun s p => g s p.1 p.2) s
      = (List.range h).foldl (fun s y =>
          (List.range w).foldl (fun s x => g s y x) s) s := by
  rw [foldl_pairGrid]

theorem shiftMask_lt_256 (k : Nat) (h : k ≤ 7) : (1 <<< k : Nat) < 256 := by
  calc (1 <<< k : Nat) ≤ 2 ^ 7 := by
        rw [Nat.shiftLeft_eq, Nat.one_mul]
        exact Nat.pow_le_pow_right (by omega) (by omega)
  _ < 256 := by norm_num

/-- `setBitmapBit` at nonnegative coordinates is a `bitWrite`. -/
theorem setBitmapBit_bridge (body : List Nat) (he rb : Int) (heN rbN : Nat)
    (hhe : he = (heN : Int)) (hrb : rb = (rbN : Int)) (x y : Nat) (bit : Nat) :
    setBitmapBit body he rb (x : Int) (y : Int) bit
      = bitWrite body (heN + y * rbN + x / 8) (7 - x % 8) (bit != 0) := by
  unfold setBitmapBit bitWrite
  have hidx : he + (y : Int) * rb + Int.tdiv (x : Int) 8
      = ((heN + y * rbN + x / 8 : Nat) : Int) := by
    rw [hhe, hrb, Int.tdiv_eq_ediv (by positivity) (by norm_num)]
    rw [show ((x : Int)) / 8 = ((x / 8 : Nat) : Int) from
      ((Int.ofNat_ediv x 8).symm ▸ rfl)]
    push_cast
    ring
  have hmod : Int.tmod (x : Int) 8 = ((x % 8 : Nat) : Int) := by
    rw [Int.tmod_eq_emod (by positivity) (by norm_num)]
    omega
  have hmask : (1 <<< ((7 : Int) - Int.tmod (x : Int) 8).toNat) % 256
      = 1 <<< (7 - x % 8) := by
    rw [hmod, show ((7 : Int) - ((x % 8 : Nat) : Int)).toNat = 7 - x % 8 by omega]
    exact Nat.mod_eq_of_lt (shiftMask_lt_256 _ (by omega))
  simp only [hidx, hmask]
  by_cases hb : bit = 0
  · rw [if_pos hb, if_neg (by simp [hb]), byteAt_ofNat, byteSet_ofNat]
  · rw [if_neg hb, if_pos (by simp [hb]), byteAt_ofNat, byteSet_ofNat]

/-- The overlay patch loop as a conditional-bit-write fold over the pixel
grid. -/
theorem overlayLoop_eq_condFold (bh : BitmapHeader) (o : Binary)
    (xOff yOff : Int) (base : List Nat) (heN rbN xON yON : Nat)
    (hhe : bh.HeaderEnd = (heN : Int)) (hrb : bh.RowBytes = (rbN : Int))
    (hxo : xOff = (xON : Int)) (hyo : yOff = (yON : Int)) :
    overlayLoop bh o xOff yOff base
      = (pairGrid o.Rect.Dy.toNat o.Rect.Dx.toNat).foldl
          (condStep
            (fun p => heN + (p.1 + yON) * rbN + (p.2 + xON) / 8)
            (fun p => 7 - (p.2 + xON) % 8)
            (fun _ => true)
            (fun p => o.IsWhite ((p.2 : Int) + o.Rect.MinX)
              ((p.1 : Int) + o.Rect.MinY)))
          base := by
  have h1 : overlayLoop bh o xOff yOff base
      = (List.range o.Rect.Dy.toNat).foldl (fun (s : List Nat) (y : Nat) =>
          (List.range o.Rect.Dx.toNat).foldl (fun (s : List Nat) (x : Nat) =>
            setBitmapBit s bh.HeaderEnd bh.RowBytes ((x : Int) + xOff)
              ((y : Int) + yOff)
              (if o.IsWhite ((x : Int) + o.Rect.MinX) ((y : Int) + o.Rect.MinY)
               then 1 else 0)) s) base := rfl
  rw [h1, ← foldl_pairGrid2 (fun (s : List Nat) (y x : Nat) =>
    setBitmapBit s bh.HeaderEnd bh.RowBytes ((x : Int) + xOff)
      ((y : Int) + yOff)
      (if o.IsWhite ((x : Int) + o.Rect.MinX) ((y : Int) + o.Rect.MinY)
       then 1 else 0))]
  apply foldl_congr_mem
  intro s p hp
  rw [condStep_of_true _ _ _ _ _ _ rfl]
  have hx : ((p.2 : Int) + xOff) = ((p.2 + xON : Nat) : Int) := by
    rw [hxo]; push_cast; ring
  have hy : ((p.1 : Int) + yOff) = ((p.1 + yON : Nat) : Int) := by
    rw [hyo]; push_cast; ring
  rw [hx, hy, setBitmapBit_bridge _ _ _ heN rbN hhe hrb]
  exact congrArg (bitWrite s _ _)
    (by rcases h : o.IsWhite ((p.2 : Int) + o.Rect.MinX)
          ((p.1 : Int) + o.Rect.MinY) with _ | _ <;> simp [h])

/-- C6: a successful overlay touches nothing but the overlay rectangle's bits
inside the payload region.  The returned buffer has the base's length; every
byte before `headerEnd` and from `headerEnd + rowBytes*height` on is
unchanged; every payload bit whose pixel lies outside the patched rectangle
is unchanged; and every bit inside the rectangle holds the overlay pixel
(`IsWhite` ↦ 1).  (The base buffer itself is never written: the result is
built from a copy, which the functional model makes structural.) -/
theorem overlayBinary_frame (bh : BitmapHeader) (base : List Nat) (o : Binary)
    (xOff yOff : Int) (res : List Nat)
    (hbw : bh.Width = bh.RowBytes * 8) (hhe0 : 0 ≤ bh.HeaderEnd)
    (hres : OverlayBinary (some bh) base (some o) xOff yOff = .ok res) :
    res.length = base.length ∧
    (∀ i : Nat, i < bh.HeaderEnd.toNat ∨
        bh.HeaderEnd.toNat + bh.RowBytes.toNat * bh.Height.toNat ≤ i →
      res.getD i 0 = base.getD i 0) ∧
    (∀ px py : Nat, px < 8 * bh.RowBytes.toNat → py < bh.Height.toNat →
      ¬(xOff.toNat ≤ px ∧ px < xOff.toNat + o.Rect.Dx.toNat ∧
        yOff.toNat ≤ py ∧ py < yOff.toNat + o.Rect.Dy.toNat) →
      getBitB res (bh.HeaderEnd.toNat + py * bh.RowBytes.toNat + px / 8)
          (7 - px % 8)
        = getBitB base (bh.HeaderEnd.toNat + py * bh.RowBytes.toNat + px / 8)
          (7 - px % 8)) ∧
    (∀ x y : Nat, x < o.Rect.Dx.toNat → y < o.Rect.Dy.toNat →
      getBitB res (bh.HeaderEnd.toNat + (y + yOff.toNat) * bh.RowBytes.toNat
            + (x + xOff.toNat) / 8)
          (7 - (x + xOff.toNat) % 8)
        = o.IsWhite ((x : Int) + o.Rect.MinX) ((y : Int) + o.Rect.MinY)) := by
  unfold OverlayBinary at hres
  simp only [] at hres
  split_ifs at hres with h1 h2 h3 h4 h5
  rw [Except.ok.injEq] at hres
  subst hres
  have hxo : xOff = (xOff.toNat : Int) := by omega
  have hyo : yOff = (yOff.toNat : Int) := by omega
  have hhe : bh.HeaderEnd = (bh.HeaderEnd.toNat : Int) := by omega
  have hrbpos : 0 < bh.RowBytes := by omega
  have hrb : bh.RowBytes = (bh.RowBytes.toNat : Int) := by omega
  have hHpos : 0 < bh.Height := by omega
  have hH : bh.Height = (bh.Height.toNat : Int) := by omega
  have hovW : o.Rect.Dx = (o.Rect.Dx.toNat : Int) := by omega
  have hovH : o.Rect.Dy = (o.Rect.Dy.toNat : Int) := by omega
  have hxW : xOff.toNat + o.Rect.Dx.toNat ≤ 8 * bh.RowBytes.toNat := by omega
  have hyH : yOff.toNat + o.Rect.Dy.toNat ≤ bh.Height.toNat := by omega
  have hlenI : (bh.HeaderEnd.toNat : Int) + (bh.RowBytes.toNat : Int)
      * (bh.Height.toNat : Int) ≤ (base.length : Int) := by
    rw [← hhe, ← hrb, ← hH]
    exact not_lt.mp h3
  have hlen : bh.HeaderEnd.toNat + bh.RowBytes.toNat * bh.Height.toNat
      ≤ base.length := by exact_mod_cast hlenI
  rw [overlayLoop_eq_condFold bh o xOff yOff base bh.HeaderEnd.toNat
    bh.RowBytes.toNat xOff.toNat yOff.toNat hhe hrb hxo hyo]
  have hwindow : ∀ p : Nat × Nat, p ∈ pairGrid o.Rect.Dy.toNat o.Rect.Dx.toNat →
      bh.HeaderEnd.toNat ≤ bh.HeaderEnd.toNat + (p.1 + yOff.toNat)
          * bh.RowBytes.toNat + (p.2 + xOff.toNat) / 8 ∧
      bh.HeaderEnd.toNat + (p.1 + yOff.toNat) * bh.RowBytes.toNat
          + (p.2 + xOff.toNat) / 8
        < bh.HeaderEnd.toNat + bh.RowBytes.toNat * bh.Height.toNat := by
    intro p hp
    rcases (pairGrid_mem _ _ _ _).mp hp with ⟨hp1, hp2⟩
    have hq : (p.2 + xOff.toNat) / 8 < bh.RowBytes.toNat := by omega
    have hrow : (p.1 + yOff.toNat) * bh.RowBytes.toNat + (p.2 + xOff.toNat) / 8
        < bh.Height.toNat * bh.RowBytes.toNat :=
      rowcol_lt _ _ _ _ (by omega) hq
    constructor
    · omega
    · rw [Nat.mul_comm bh.RowBytes.toNat bh.Height.toNat]
      omega
  refine ⟨condFold_length .., ?_, ?_, ?_⟩
  · intro i hi
    apply condFold_getD_frame
    intro p hp
    have := hwindow p hp
    omega
  · intro px py hpx hpy hout
    apply condFold_getBit_frame
    · intro p hp
      show 7 - (p.2 + xOff.toNat) % 8 < 8
      omega
    · omega
    · intro p hp
      rcases (pairGrid_mem _ _ _ _).mp hp with ⟨hp1, hp2⟩
      show ¬_ ∨ ¬_
      by_contra hcon
      push_neg at hcon
      obtain ⟨hcon1, hcon2⟩ := hcon
      have hinj := @gridAddr_inj bh.RowBytes.toNat
        (p.1 + yOff.toNat) (p.2 + xOff.toNat) py px
        (by omega) (by omega) (by omega) (by omega)
      exact hout ⟨by omega, by omega, by omega, by omega⟩
  · intro x y hx hy
    have hp : (y, x) ∈ pairGrid o.Rect.Dy.toNat o.Rect.Dx.toNat :=
      (pairGrid_mem _ _ _ _).mpr ⟨hy, hx⟩
    have hval := condFold_getBit
      (pairGrid o.Rect.Dy.toNat o.Rect.Dx.toNat)
      (fun p => bh.HeaderEnd.toNat + (p.1 + yOff.toNat) * bh.RowBytes.toNat
        + (p.2 + xOff.toNat) / 8)
      (fun p => 7 - (p.2 + xOff.toNat) % 8)
      (fun _ => true)
      (fun p => o.IsWhite ((p.2 : Int) + o.Rect.MinX)
        ((p.1 : Int) + o.Rect.MinY))
      base (y, x) hp
      (fun q hq => by show 7 - (q.2 + xOff.toNat) % 8 < 8; omega)
      ?haddr ?hlt
    case haddr =>
      intro q hq q' hq'
      intro hidx hkf
      simp only [] at hidx hkf
      rcases (pairGrid_mem _ _ _ _).mp hq with ⟨hq1, hq2⟩
      rcases (pairGrid_mem _ _ _ _).mp hq' with ⟨hq1', hq2'⟩
      have hinj := @gridAddr_inj bh.RowBytes.toNat
        (q.1 + yOff.toNat) (q.2 + xOff.toNat)
        (q'.1 + yOff.toNat) (q'.2 + xOff.toNat)
        (by omega) (by omega) (by omega) (by omega)
      have hqq : q = q' := by
        rcases hinj with ⟨hy', hx'⟩
        exact Prod.ext (by omega) (by omega)
      rw [hqq]
      exact ⟨rfl, rfl⟩
    case hlt =>
      have := hwindow (y, x) hp
      simp only [] at this
      show bh.HeaderEnd.toNat + (y + yOff.toNat) * bh.RowBytes.toNat
        + (x + xOff.toNat) / 8 < base.length
      omega
    simpa using hval

/-- Witness for C6: overlaying the 8×1 image `0xA5` onto `tinyBase` at the
origin yields `tinyBase` with its payload byte replaced; header bytes are
unchanged and pixel (0,0) of the patch holds the overlay's pixel. -/
theorem overlayBinary_frame_witness :
    (OverlayBinary (some tinyBaseHeader) tinyBase (some tinyImage) 0 0
      = .ok ovlRes) ∧
    ovlRes.getD 3 0 = tinyBase.getD 3 0 ∧
    getBitB ovlRes (tinyBaseHeader.HeaderEnd.toNat
        + (0 + (0 : Int).toNat) * tinyBaseHeader.RowBytes.toNat
        + (0 + (0 : Int).toNat) / 8) (7 - (0 + (0 : Int).toNat) % 8)
      = tinyImage.IsWhite (((0 : Nat) : Int) + tinyImage.Rect.MinX)
          (((0 : Nat) : Int) + tinyImage.Rect.MinY) := by
  have hres : OverlayBinary (some tinyBaseHeader) tinyBase (some tinyImage) 0 0
      = .ok ovlRes := by decide
  have h := overlayBinary_frame tinyBaseHeader tinyBase tinyImage 0 0 ovlRes
    (by decide) (by decide) hres
  exact ⟨hres, h.2.1 3 (by decide), h.2.2.2 0 0 (by decide) (by decide)⟩

/-! ## Decode: loop characterisation (shared by C8 and the round-trip) -/

theorem foldl_prod_split {α σ τ : Type} (step : σ × τ → α → σ × τ)
    (f : σ → α → σ) (g : τ → α → τ)
    (hstep : ∀ st p, step st p = (f st.1 p, g st.2 p))
    (l : List α) (s0 : σ) (t0 : τ) :
    l.foldl step (s0, t0) = (l.foldl f s0, l.foldl g t0) := by
  induction l generalizing s0 t0 with
  | nil => rfl
  | cons a t ih =>
    rw [List.foldl_cons, hstep, List.foldl_cons, List.foldl_cons]
    exact ih ..

theorem foldl_invariant {α σ : Type} (f : σ → α → σ) (P : σ → Prop)
    (l : List α) (s0 : σ) (h0 : P s0) (hstep : ∀ s p, P s → P (f s p)) :
    P (l.foldl f s0) := by
  induction l generalizing s0 with
  | nil => exact h0
  | cons a t ih => exact ih _ (hstep s0 a h0)

theorem foldl_binary_pix {α : Type} (R : GoRect) (S : Int)
    (step : Binary → α → Binary) (stepPix : List Nat → α → List Nat)
    (l : List α)
    (h : ∀ b p, b.Rect = R → b.Stride = S →
      step b p = { b with Pix := stepPix b.Pix p }) :
    ∀ b : Binary, b.Rect = R → b.Stride = S →
      l.foldl step b = { b with Pix := l.foldl stepPix b.Pix } := by
  induction l with
  | nil => intro b _ _; rfl
  | cons a t ih =>
    intro b hR hS
    rw [List.foldl_cons, h b a hR hS, List.foldl_cons]
    exact ih _ hR hS

theorem getD_replicate_zero (n k : Nat) : (List.replicate n 0).getD k 0 = 0 := by
  rcases Nat.lt_or_ge k n with h | h
  · simp [List.getD, List.getElem?_replicate, h]
  · simp [List.getD, List.getElem?_eq_none, h]

theorem getBitB_replicate_zero (n k j : Nat) :
    getBitB (List.replicate n 0) k j = false := by
  unfold getBitB
  rw [getD_replicate_zero]
  simp

theorem shiftAnd1_eq_testBit (b k : Nat) :
    ((b >>> k) &&& 1 != 0) = b.testBit k := by
  simp [Nat.testBit, Nat.and_comm]

/-- `bit` at origin-rectangle coordinates. -/
theorem bit_bridge0 (b : Binary) (rbN : Nat) (hS : b.Stride = (rbN : Int))
    (hMx : b.Rect.MinX = 0) (hMy : b.Rect.MinY = 0) (x y : Nat) :
    b.bit (x : Int) (y : Int) = getBitB b.Pix (y * rbN + x / 8) (7 - x % 8) := by
  have h1 := bit_bridge b rbN hS (le_of_eq hMx.symm) (le_of_eq hMy.symm) x y
  rw [hMx, hMy] at h1
  simpa using h1

/-- `setBit` at origin-rectangle coordinates. -/
theorem setBit_bridge0 (b : Binary) (rbN : Nat) (hS : b.Stride = (rbN : Int))
    (hMx : b.Rect.MinX = 0) (hMy : b.Rect.MinY = 0) (x y : Nat) (v : Bool) :
    b.setBit (x : Int) (y : Int) v
      = { b with Pix := bitWrite b.Pix (y * rbN + x / 8) (7 - x % 8) v } := by
  have h1 := setBit_bridge b rbN hS (le_of_eq hMx.symm) (le_of_eq hMy.symm) x y v
  rw [hMx, hMy] at h1
  simpa using h1

theorem find5c_some_bound (l : List Nat) (cnt idx j : Nat)
    (h : find5c l cnt idx = some j) : idx ≤ j ∧ j < idx + l.length := by
  induction l generalizing cnt idx with
  | nil => simp [find5c] at h
  | cons c t ih =>
    unfold find5c at h
    by_cases hc : c = 44
    · rw [if_pos hc] at h
      by_cases h5 : cnt + 1 = 5
      · rw [if_pos h5] at h
        injection h with h
        subst h
        simp
      · rw [if_neg h5] at h
        have := ih (cnt + 1) (idx + 1) h
        simp only [List.length_cons]
        omega
    · rw [if_neg hc] at h
      have := ih cnt (idx + 1) h
      simp only [List.length_cons]
      omega

/-- Structural facts every successfully parsed header satisfies. -/
theorem parseBitmapHeader_ok_props (body : List Nat) (bh : BitmapHeader)
    (h : ParseBitmapHeader body = .ok bh) :
    bh.Width = bh.RowBytes * 8 ∧ 1 ≤ bh.HeaderEnd ∧
    bh.HeaderEnd ≤ (body.length : Int) := by
  unfold ParseBitmapHeader at h
  by_cases hpre : [66,73,84,77,65,80].isPrefixOf body
  · rw [if_pos hpre] at h
    rcases hfind : find5c body 0 0 with _ | j
    · rw [hfind] at h; simp at h
    · rw [hfind] at h
      rcases hscan : scanBitmapLine body with _ | q
      · rw [hscan] at h; simp at h
      · rw [hscan] at h
        obtain ⟨a, b2, c, d, e⟩ := q
        simp only [Except.ok.injEq] at h
        have hb := find5c_some_bound body 0 0 j hfind
        rw [← h]
        refine ⟨rfl, ?_, ?_⟩
        · show (1 : Int) ≤ (j : Int) + 1
          omega
        · show (j : Int) + 1 ≤ (body.length : Int)
          omega
  · rw [if_neg hpre] at h
    simp at h

/-- Characterisation of the `Bytes2Image` pixel loop: the image component has
the input's geometry, and each grid bit holds the corresponding body bit when
its byte index is within the buffer (otherwise it keeps the input image's
bit); the `bodyEnd` component stays `headerEnd` or lands strictly inside the
buffer. -/
theorem decodeLoop_spec (body : List Nat) (he rb : Int) (heN rbN : Nat)
    (w h : Nat) (img0 : Binary)
    (hhe : he = (heN : Int)) (hrb : rb = (rbN : Int)) (hw : w ≤ 8 * rbN)
    (hR0 : img0.Rect.MinX = 0) (hR1 : img0.Rect.MinY = 0)
    (hS : img0.Stride = (rbN : Int))
    (hplen : h * rbN ≤ img0.Pix.length) :
    (decodeLoop body he rb w h img0).1.Rect = img0.Rect ∧
    (decodeLoop body he rb w h img0).1.Stride = img0.Stride ∧
    (decodeLoop body he rb w h img0).1.Pix.length = img0.Pix.length ∧
    (∀ x y : Nat, x < w → y < h →
      getBitB (decodeLoop body he rb w h img0).1.Pix (y * rbN + x / 8)
          (7 - x % 8)
        = if heN + y * rbN + x / 8 < body.length
          then getBitB body (heN + y * rbN + x / 8) (7 - x % 8)
          else getBitB img0.Pix (y * rbN + x / 8) (7 - x % 8)) ∧
    ((decodeLoop body he rb w h img0).2 = he ∨
      (0 ≤ (decodeLoop body he rb w h img0).2 ∧
        (decodeLoop body he rb w h img0).2 < (body.length : Int))) := by
  have hidxI : ∀ p : Nat × Nat, he + (p.1 : Int) * rb + ((p.2 / 8 : Nat) : Int)
      = ((heN + p.1 * rbN + p.2 / 8 : Nat) : Int) := by
    intro p
    rw [hhe, hrb]
    push_cast
    ring
  -- the image-side and bodyEnd-side step functions
  have hstep1 : decodeLoop body he rb w h img0
      = (pairGrid h w).foldl (fun (st : Binary × Int) p =>
          (if heN + p.1 * rbN + p.2 / 8 < body.length then
            (if (byteAt body ((heN + p.1 * rbN + p.2 / 8 : Nat) : Int)
                  >>> (7 - p.2 % 8)) &&& 1 = 0
             then st.1.SetOff (p.2 : Int) (p.1 : Int)
             else st.1.SetOn (p.2 : Int) (p.1 : Int))
           else st.1,
           if heN + p.1 * rbN + p.2 / 8 < body.length
           then ((heN + p.1 * rbN + p.2 / 8 : Nat) : Int) else st.2))
          (img0, he) := by
    have h0 : decodeLoop body he rb w h img0
        = (pairGrid h w).foldl (fun (st : Binary × Int) p =>
            if he + (p.1 : Int) * rb + ((p.2 / 8 : Nat) : Int)
                ≥ (body.length : Int) then st
            else if (byteAt body (he + (p.1 : Int) * rb
                  + ((p.2 / 8 : Nat) : Int)) >>> (7 - p.2 % 8)) &&& 1 = 0 then
              (st.1.SetOff (p.2 : Int) (p.1 : Int),
               he + (p.1 : Int) * rb + ((p.2 / 8 : Nat) : Int))
            else
              (st.1.SetOn (p.2 : Int) (p.1 : Int),
               he + (p.1 : Int) * rb + ((p.2 / 8 : Nat) : Int)))
            (img0, he) := by
      unfold decodeLoop
      rw [← foldl_pairGrid2 (fun (st : Binary × Int) (y x : Nat) =>
        if he + (y : Int) * rb + ((x / 8 : Nat) : Int)
            ≥ (body.length : Int) then st
        else if (byteAt body (he + (y : Int) * rb + ((x / 8 : Nat) : Int))
              >>> (7 - x % 8)) &&& 1 = 0 then
          (st.1.SetOff (x : Int) (y : Int),
           he + (y : Int) * rb + ((x / 8 : Nat) : Int))
        else
          (st.1.SetOn (x : Int) (y : Int),
           he + (y : Int) * rb + ((x / 8 : Nat) : Int)))]
    rw [h0]
    apply foldl_congr_mem
    intro st p hp
    rw [hidxI p]
    by_cases hc : heN + p.1 * rbN + p.2 / 8 < body.length
    · rw [if_neg (by exact_mod_cast not_le.mpr (by exact_mod_cast hc)),
        if_pos hc]
      split <;> rfl
    · rw [if_pos (by exact_mod_cast not_lt.mp (by omega)), if_neg hc,
        if_neg hc]
  have hsplit2 := foldl_prod_split
    (fun (st : Binary × Int) (p : Nat × Nat) =>
      (if heN + p.1 * rbN + p.2 / 8 < body.length then
        (if (byteAt body ((heN + p.1 * rbN + p.2 / 8 : Nat) : Int)
              >>> (7 - p.2 % 8)) &&& 1 = 0
         then st.1.SetOff (p.2 : Int) (p.1 : Int)
         else st.1.SetOn (p.2 : Int) (p.1 : Int))
       else st.1,
       if heN + p.1 * rbN + p.2 / 8 < body.length
       then ((heN + p.1 * rbN + p.2 / 8 : Nat) : Int) else st.2))
    (fun (b : Binary) (p : Nat × Nat) =>
      if heN + p.1 * rbN + p.2 / 8 < body.length then
        (if (byteAt body ((heN + p.1 * rbN + p.2 / 8 : Nat) : Int)
              >>> (7 - p.2 % 8)) &&& 1 = 0
         then b.SetOff (p.2 : Int) (p.1 : Int)
         else b.SetOn (p.2 : Int) (p.1 : Int))
      else b)
    (fun (t : Int) (p : Nat × Nat) =>
      if heN + p.1 * rbN + p.2 / 8 < body.length
      then ((heN + p.1 * rbN + p.2 / 8 : Nat) : Int) else t)
    (fun st p => rfl)
    (pairGrid h w) img0 he
  rw [hstep1, hsplit2]
  have himg : (pairGrid h w).foldl (fun (b : Binary) p =>
        if heN + p.1 * rbN + p.2 / 8 < body.length then
          (if (byteAt body ((heN + p.1 * rbN + p.2 / 8 : Nat) : Int)
                >>> (7 - p.2 % 8)) &&& 1 = 0
           then b.SetOff (p.2 : Int) (p.1 : Int)
           else b.SetOn (p.2 : Int) (p.1 : Int))
        else b) img0
      = { img0 with Pix := ((pairGrid h w).foldl (condStep
          (fun q : Nat × Nat => q.1 * rbN + q.2 / 8)
          (fun q => 7 - q.2 % 8)
          (fun q => decide (heN + q.1 * rbN + q.2 / 8 < body.length))
          (fun q => getBitB body (heN + q.1 * rbN + q.2 / 8) (7 - q.2 % 8)))
          img0.Pix) } := by
    apply foldl_binary_pix img0.Rect ((rbN : Nat) : Int) _ _ _ _ img0 rfl hS
    intro b p hbR hbS
    by_cases hc : heN + p.1 * rbN + p.2 / 8 < body.length
    · rw [if_pos hc, byteAt_ofNat]
      have hval : getBitB body (heN + p.1 * rbN + p.2 / 8) (7 - p.2 % 8)
          = ((body.getD (heN + p.1 * rbN + p.2 / 8) 0 >>> (7 - p.2 % 8)) &&& 1
            != 0) := by
        rw [shiftAnd1_eq_testBit]
        rfl
      by_cases hbit : (body.getD (heN + p.1 * rbN + p.2 / 8) 0
          >>> (7 - p.2 % 8)) &&& 1 = 0
      · rw [if_pos hbit]
        unfold Binary.SetOff
        rw [setBit_bridge0 b rbN (by rw [hbS]) (by rw [hbR, hR0])
          (by rw [hbR, hR1]) p.2 p.1 false,
          condStep_of_true _ _ _ _ _ _ (by simp [hc])]
        have : getBitB body (heN + p.1 * rbN + p.2 / 8) (7 - p.2 % 8)
            = false := by
          rw [hval, hbit]
          rfl
        rw [this]
      · rw [if_neg hbit]
        unfold Binary.SetOn
        rw [setBit_bridge0 b rbN (by rw [hbS]) (by rw [hbR, hR0])
          (by rw [hbR, hR1]) p.2 p.1 true,
          condStep_of_true _ _ _ _ _ _ (by simp [hc])]
        have : getBitB body (heN + p.1 * rbN + p.2 / 8) (7 - p.2 % 8)
            = true := by
          rw [hval]
          exact bne_iff_ne.mpr hbit
        rw [this]
    · rw [if_neg hc, condStep_of_false _ _ _ _ _ _ (by simp [hc])]
  rw [himg]
  refine ⟨rfl, rfl, condFold_length .., ?_, ?_⟩
  · intro x y hx hy
    have hp : (y, x) ∈ pairGrid h w := (pairGrid_mem _ _ _ _).mpr ⟨hy, hx⟩
    have hrbpos : 0 < rbN := by omega
    have hval := condFold_getBit (pairGrid h w)
      (fun q : Nat × Nat => q.1 * rbN + q.2 / 8)
      (fun q => 7 - q.2 % 8)
      (fun q => decide (heN + q.1 * rbN + q.2 / 8 < body.length))
      (fun q => getBitB body (heN + q.1 * rbN + q.2 / 8) (7 - q.2 % 8))
      img0.Pix (y, x) hp
      (fun q hq => by show 7 - q.2 % 8 < 8; omega)
      (fun q hq q' hq' hidx hkf => by
        show decide _ = decide _ ∧ getBitB _ _ _ = getBitB _ _ _
        simp only [] at hidx hkf
        have h1 : heN + q.1 * rbN + q.2 / 8 = heN + q'.1 * rbN + q'.2 / 8 := by
          omega
        rw [h1, hkf]
        exact ⟨rfl, rfl⟩)
      (by show y * rbN + x / 8 < img0.Pix.length
          have := rowcol_lt y (x / 8) h rbN hy (by omega)
          omega)
    simp only [] at hval
    rw [hval]
    by_cases hc : heN + y * rbN + x / 8 < body.length <;> simp [hc]
  · apply foldl_invariant _
      (fun t : Int => t = he ∨ (0 ≤ t ∧ t < (body.length : Int)))
    · exact Or.inl rfl
    · intro t p hP
      by_cases hc : heN + p.1 * rbN + p.2 / 8 < body.length
      · rw [if_pos hc]
        right
        constructor
        · positivity
        · exact_mod_cast hc
      · rw [if_neg hc]
        exact hP

theorem int_toNat_mul (a b : Int) (ha : 0 ≤ a) (hb : 0 ≤ b) :
    (a * b).toNat = a.toNat * b.toNat := by
  rcases Int.eq_ofNat_of_zero_le ha with ⟨m, rfl⟩
  rcases Int.eq_ofNat_of_zero_le hb with ⟨n, rfl⟩
  norm_cast

/-- Full characterisation of a successful decode: whenever the header parses
with positive row bytes and height and at least one byte follows the header,
`Bytes2Image` succeeds; each pixel of the reconstructed image holds the
corresponding payload bit when its byte index is inside the buffer, and is
left off (the freshly allocated default) when the payload is truncated. -/
theorem bytes2Image_spec (body : List Nat) (bh : BitmapHeader)
    (hparse : ParseBitmapHeader body = .ok bh)
    (hrb : 0 < bh.RowBytes) (hh : 0 < bh.Height)
    (hlen : bh.HeaderEnd < (body.length : Int)) :
    ∃ t : TImage, Bytes2Image body = .ok t ∧
      t.Bitmap.Rect = ⟨0, 0, bh.RowBytes * 8, bh.Height⟩ ∧
      t.Bitmap.Stride = bh.RowBytes ∧
      (∀ x y : Nat, x < 8 * bh.RowBytes.toNat → y < bh.Height.toNat →
        t.Bitmap.IsWhite (x : Int) (y : Int)
          = if bh.HeaderEnd.toNat + y * bh.RowBytes.toNat + x / 8 < body.length
            then getBitB body
              (bh.HeaderEnd.toNat + y * bh.RowBytes.toNat + x / 8) (7 - x % 8)
            else false) := by
  obtain ⟨hbw, hhe1, hheLen⟩ := parseBitmapHeader_ok_props body bh hparse
  have hwpos : 0 < bh.Width := by omega
  have hstride : Int.tdiv bh.Width 8 = bh.RowBytes := by
    rw [hbw]
    exact Int.mul_tdiv_cancel _ (by norm_num)
  have hnb : NewBinary bh.Width bh.Height = .ok
      (Binary.mk (List.replicate (bh.RowBytes * bh.Height).toNat 0)
        bh.RowBytes ⟨0, 0, bh.Width, bh.Height⟩) := by
    unfold NewBinary
    rw [if_neg (by omega), if_neg (by rw [hbw]; simp [Int.mul_emod_left]),
      hstride]
  have himg0R : (Binary.mk (List.replicate (bh.RowBytes * bh.Height).toNat 0)
      bh.RowBytes ⟨0, 0, bh.Width, bh.Height⟩).Pix.length
      = bh.RowBytes.toNat * bh.Height.toNat := by
    show (List.replicate (bh.RowBytes * bh.Height).toNat 0).length = _
    rw [List.length_replicate, int_toNat_mul _ _ (by omega) (by omega)]
  have hspec := decodeLoop_spec body bh.HeaderEnd bh.RowBytes
    bh.HeaderEnd.toNat bh.RowBytes.toNat bh.Width.toNat bh.Height.toNat
    (Binary.mk (List.replicate (bh.RowBytes * bh.Height).toNat 0)
      bh.RowBytes ⟨0, 0, bh.Width, bh.Height⟩)
    (by omega) (by omega) (by omega) rfl rfl (by show bh.RowBytes = _; omega)
    (by rw [himg0R]; exact le_of_eq (Nat.mul_comm ..))
  obtain ⟨hRect, hStride, hLen, hBits, hEnd⟩ := hspec
  have hok : (decodeLoop body bh.HeaderEnd bh.RowBytes bh.Width.toNat
      bh.Height.toNat
      (Binary.mk (List.replicate (bh.RowBytes * bh.Height).toNat 0)
        bh.RowBytes ⟨0, 0, bh.Width, bh.Height⟩)).2 + 1
      ≤ (body.length : Int) := by
    rcases hEnd with h | h <;> omega
  refine ⟨⟨body.take bh.HeaderEnd.toNat,
    (decodeLoop body bh.HeaderEnd bh.RowBytes bh.Width.toNat bh.Height.toNat
      (Binary.mk (List.replicate (bh.RowBytes * bh.Height).toNat 0)
        bh.RowBytes ⟨0, 0, bh.Width, bh.Height⟩)).1,
    body.drop ((decodeLoop body bh.HeaderEnd bh.RowBytes bh.Width.toNat
      bh.Height.toNat
      (Binary.mk (List.replicate (bh.RowBytes * bh.Height).toNat 0)
        bh.RowBytes ⟨0, 0, bh.Width, bh.Height⟩)).2 + 1).toNat⟩,
    ?_, ?_, ?_, ?_⟩
  · show Bytes2Image body = _
    unfold Bytes2Image
    rw [hparse]
    simp only []
    rw [if_neg (by omega), hnb]
    simp only []
    rw [if_pos hok]
  · show (decodeLoop _ _ _ _ _ _).1.Rect = _
    rw [hRect]
    show ({ MinX := 0, MinY := 0, MaxX := bh.Width, MaxY := bh.Height } : GoRect)
      = _
    rw [hbw]
  · show (decodeLoop _ _ _ _ _ _).1.Stride = _
    rw [hStride]
  · intro x y hx hy
    show (decodeLoop _ _ _ _ _ _).1.bit (x : Int) (y : Int) = _
    rw [bit_bridge0 _ bh.RowBytes.toNat
      (by rw [hStride]; show bh.RowBytes = _; omega)
      (by rw [hRect]) (by rw [hRect]) x y]
    rw [hBits x y (by omega) hy]
    by_cases hc : bh.HeaderEnd.toNat + y * bh.RowBytes.toNat + x / 8
        < body.length
    · rw [if_pos hc, if_pos hc]
    · rw [if_neg hc, if_neg hc]
      exact getBitB_replicate_zero ..

/-! ## C8: payload truncation -/

/-- C8 counterexample: a body whose buffer ends exactly at the parsed header
(zero payload bytes present, so it certainly "ends before the full
`rowBytes*height` payload") does **not** decode: the final trailer slice
`body[bodyEnd+1:]` is out of range — a runtime fault, modelled as
`sliceFault` — contradicting the claim that every truncated payload decodes
successfully. -/
theorem bytes2Image_header_only_faults :
    ParseBitmapHeader headerOnlyBody = .ok ⟨1, 8, 1, 17⟩ ∧
    headerOnlyBody.length = 17 ∧
    Bytes2Image headerOnlyBody = .error .sliceFault := by
  decide

/-- C8 (amended): whenever the header parses (positive row bytes and height)
and **at least one byte follows the header**, a truncated payload is
tolerated: the decode succeeds and every pixel whose payload byte index falls
at or past the end of the buffer is left at its default off state. -/
theorem bytes2Image_truncation_tolerant (body : List Nat) (bh : BitmapHeader)
    (hparse : ParseBitmapHeader body = .ok bh)
    (hrb : 0 < bh.RowBytes) (hh : 0 < bh.Height)
    (hlen : bh.HeaderEnd < (body.length : Int)) :
    ∃ t : TImage, Bytes2Image body = .ok t ∧
      ∀ x y : Nat, x < 8 * bh.RowBytes.toNat → y < bh.Height.toNat →
        body.length ≤ bh.HeaderEnd.toNat + y * bh.RowBytes.toNat + x / 8 →
        t.Bitmap.IsWhite (x : Int) (y : Int) = false := by
  obtain ⟨t, hok, hR, hS, hbits⟩ := bytes2Image_spec body bh hparse hrb hh hlen
  refine ⟨t, hok, fun x y hx hy hcut => ?_⟩
  rw [hbits x y hx hy, if_neg (by omega)]

/-- Witness for C8 (amended): the 8×2 body one byte short of its payload
decodes, and the pixels of the missing second row are off. -/
theorem bytes2Image_truncation_witness :
    ∃ t : TImage, Bytes2Image shortBody = .ok t ∧
      t.Bitmap.IsWhite ((0 : Nat) : Int) ((1 : Nat) : Int) = false := by
  obtain ⟨t, hok, hbits⟩ := bytes2Image_truncation_tolerant shortBody
    ⟨1, 8, 2, 17⟩ (by decide) (by decide) (by decide) (by decide)
  exact ⟨t, hok, hbits 0 1 (by decide) (by decide) (by decide)⟩

/-! ## Decimal rendering and its re-parse -/

theorem digitsOf_eq (n : Nat) :
    digitsOf n
      = if n < 10 then [48 + n] else digitsOf (n / 10) ++ [48 + n % 10] := by
  rw [digitsOf]

theorem natDecCore_succ (fuel n : Nat) (acc : List Nat) :
    natDecCore (fuel + 1) n acc
      = if n < 10 then (48 + n) :: acc
        else natDecCore fuel (n / 10) ((48 + n % 10) :: acc) := rfl

theorem natDecCore_eq_digitsOf (fuel : Nat) : ∀ n : Nat, n < 10 ^ (fuel + 1) →
    ∀ acc : List Nat, natDecCore (fuel + 1) n acc = digitsOf n ++ acc := by
  induction fuel with
  | zero =>
    intro n hn acc
    have h10 : n < 10 := by simpa using hn
    rw [natDecCore_succ, if_pos h10, digitsOf_eq, if_pos h10]
    rfl
  | succ f ih =>
    intro n hn acc
    by_cases h10 : n < 10
    · rw [natDecCore_succ, if_pos h10, digitsOf_eq, if_pos h10]
      rfl
    · rw [natDecCore_succ, if_neg h10, digitsOf_eq, if_neg h10,
        List.append_assoc]
      refine ih (n / 10) (Nat.div_lt_of_lt_mul ?_) _
      calc n < 10 ^ (f + 1 + 1) := hn
        _ = 10 * 10 ^ (f + 1) := by ring

theorem natDec_eq_digitsOf (n : Nat) : natDec n = digitsOf n := by
  have hfuel : n < 10 ^ (n + 1) :=
    lt_of_lt_of_le (Nat.lt_pow_self (by omega) n)
      (Nat.pow_le_pow_right (by omega) (by omega))
  unfold natDec
  rw [natDecCore_eq_digitsOf n n hfuel []]
  simp

theorem digitsOf_digits (n : Nat) : ∀ d ∈ digitsOf n, 48 ≤ d ∧ d ≤ 57 := by
  induction n using Nat.strong_induction_on with
  | _ n ih =>
    intro d hd
    rw [digitsOf_eq] at hd
    by_cases h10 : n < 10
    · rw [if_pos h10] at hd
      simp only [List.mem_singleton] at hd
      omega
    · rw [if_neg h10] at hd
      rcases List.mem_append.mp hd with h | h
      · exact ih (n / 10) (Nat.div_lt_self (by omega) (by omega)) d h
      · simp only [List.mem_singleton] at h
        have := Nat.mod_lt n (show 0 < 10 by omega)
        omega

theorem digitsOf_ne_nil (n : Nat) : digitsOf n ≠ [] := by
  rw [digitsOf_eq]
  by_cases h10 : n < 10
  · rw [if_pos h10]
    simp
  · rw [if_neg h10]
    simp

theorem digitsVal_go (n : Nat) : ∀ acc : Nat,
    (digitsOf n).foldl (fun a d => a * 10 + (d - 48)) acc
      = acc * 10 ^ (digitsOf n).length + n := by
  induction n using Nat.strong_induction_on with
  | _ n ih =>
    intro acc
    rw [digitsOf_eq]
    by_cases h10 : n < 10
    · rw [if_pos h10]
      simp only [List.foldl_cons, List.foldl_nil, List.length_singleton,
        pow_one]
      omega
    · rw [if_neg h10]
      rw [List.foldl_append, List.foldl_cons, List.foldl_nil,
        ih (n / 10) (Nat.div_lt_self (by omega) (by omega)) acc,
        List.length_append, List.length_singleton]
      have hd : 48 + n % 10 - 48 = n % 10 := by omega
      rw [hd, pow_succ, ← mul_assoc]
      generalize acc * 10 ^ (digitsOf (n / 10)).length = A
      omega

theorem digitsVal_digitsOf (n : Nat) : digitsVal (digitsOf n) = n := by
  unfold digitsVal
  rw [digitsVal_go]
  simp

theorem takeDigits_append (ds : List Nat) (c : Nat) (r : List Nat)
    (hds : ∀ d ∈ ds, isDigit d = true) (hc : isDigit c = false) :
    takeDigits (ds ++ c :: r) = (ds, c :: r) := by
  induction ds with
  | nil =>
    rw [List.nil_append]
    simp only [takeDigits, hc]
    rfl
  | cons d t ih =>
    rw [List.cons_append]
    simp only [takeDigits, hds d (by simp)]
    rw [ih (fun x hx => hds x (by simp [hx]))]
    simp

theorem skipSp_of_head (c : Nat) (t : List Nat) (hc : c ≠ 32) :
    skipSp (c :: t) = c :: t := by
  simp only [skipSp]
  rw [if_neg hc]

theorem parseIntTok_digitsOf (n : Nat) (r : List Nat) :
    parseIntTok (digitsOf n ++ 44 :: r) = some ((n : Int), 44 :: r) := by
  obtain ⟨d, ds, hd⟩ : ∃ d ds, digitsOf n = d :: ds := by
    rcases h : digitsOf n with _ | ⟨d, ds⟩
    · exact absurd h (digitsOf_ne_nil n)
    · exact ⟨d, ds, rfl⟩
  have hdig : 48 ≤ d ∧ d ≤ 57 := digitsOf_digits n d (by rw [hd]; simp)
  have htd : takeDigits (d :: (ds ++ 44 :: r)) = (d :: ds, 44 :: r) := by
    rw [← List.cons_append]
    exact takeDigits_append (d :: ds) 44 r
      (fun x hx => by
        have := digitsOf_digits n x (by rw [hd]; exact hx)
        show decide _ = true
        simp
        omega)
      (by decide)
  unfold parseIntTok
  rw [hd, List.cons_append, skipSp_of_head d _ (by omega)]
  simp only []
  rw [if_neg (by omega), if_neg (by omega), htd]
  simp only []
  rw [← hd, digitsVal_digitsOf]

theorem expectComma_comma (r : List Nat) : expectComma (44 :: r) = some r := by
  simp [expectComma]

/-! ## The comma scan over an encoded header -/

theorem find5c_cons_other (c : Nat) (t : List Nat) (cnt idx : Nat)
    (h : c ≠ 44) : find5c (c :: t) cnt idx = find5c t cnt (idx + 1) := by
  simp only [find5c]
  rw [if_neg h]

theorem find5c_comma (t : List Nat) (cnt idx : Nat) (h : cnt + 1 ≠ 5) :
    find5c (44 :: t) cnt idx = find5c t (cnt + 1) (idx + 1) := by
  simp only [find5c, if_neg h]
  simp

theorem find5c_comma5 (t : List Nat) (cnt idx : Nat) (h : cnt + 1 = 5) :
    find5c (44 :: t) cnt idx = some idx := by
  simp only [find5c, if_pos h]
  simp

theorem find5c_append_noComma (l : List Nat) (hl : ∀ c ∈ l, c ≠ 44) :
    ∀ (rest : List Nat) (cnt idx : Nat),
    find5c (l ++ rest) cnt idx = find5c rest cnt (idx + l.length) := by
  induction l with
  | nil =>
    intro rest cnt idx
    simp
  | cons c t ih =>
    intro rest cnt idx
    rw [List.cons_append, find5c_cons_other c _ _ _ (hl c (by simp)),
      ih (fun x hx => hl x (by simp [hx])) rest cnt (idx + 1),
      List.length_cons]
    congr 1
    omega

/-! ## Parsing the header that `Image2Bytes` itself renders -/

theorem intDec_ofNat (n : Nat) : intDec (n : Int) = digitsOf n := by
  unfold intDec
  rw [if_neg (by omega), show ((n : Int)).toNat = n from by omega]
  exact natDec_eq_digitsOf n

theorem bmpHeaderBytes_ofNat (rbN hN : Nat) :
    bmpHeaderBytes (rbN : Int) (hN : Int)
      = [66,73,84,77,65,80,32,48,44,48,44] ++ digitsOf rbN ++ [44] ++
        digitsOf hN ++ [44,49,44] := by
  unfold bmpHeaderBytes
  rw [intDec_ofNat, intDec_ofNat]

theorem bmpHeaderBytes_length (rbN hN : Nat) :
    (bmpHeaderBytes (rbN : Int) (hN : Int)).length
      = 15 + (digitsOf rbN).length + (digitsOf hN).length := by
  rw [bmpHeaderBytes_ofNat]
  simp [List.length_append]
  omega

theorem digitsOf_ne_comma (n : Nat) : ∀ c ∈ digitsOf n, c ≠ 44 := by
  intro c hc
  have := digitsOf_digits n c hc
  omega

theorem find5c_bmpHeader (rbN hN : Nat) (rest : List Nat) :
    find5c (bmpHeaderBytes (rbN : Int) (hN : Int) ++ rest) 0 0
      = some (14 + (digitsOf rbN).length + (digitsOf hN).length) := by
  rw [bmpHeaderBytes_ofNat]
  simp only [List.append_assoc, List.cons_append, List.nil_append]
  rw [find5c_cons_other 66 _ _ _ (by omega), find5c_cons_other 73 _ _ _ (by omega),
    find5c_cons_other 84 _ _ _ (by omega), find5c_cons_other 77 _ _ _ (by omega),
    find5c_cons_other 65 _ _ _ (by omega), find5c_cons_other 80 _ _ _ (by omega),
    find5c_cons_other 32 _ _ _ (by omega), find5c_cons_other 48 _ _ _ (by omega),
    find5c_comma _ _ _ (by omega), find5c_cons_other 48 _ _ _ (by omega),
    find5c_comma _ _ _ (by omega),
    find5c_append_noComma (digitsOf rbN) (digitsOf_ne_comma rbN),
    find5c_comma _ _ _ (by omega),
    find5c_append_noComma (digitsOf hN) (digitsOf_ne_comma hN),
    find5c_comma _ _ _ (by omega), find5c_cons_other 49 _ _ _ (by omega),
    find5c_comma5 _ _ _ (by omega)]
  congr 1
  omega

theorem dropLit_bitmap (t : List Nat) :
    dropLit [66,73,84,77,65,80] (66 :: 73 :: 84 :: 77 :: 65 :: 80 :: t)
      = some t := by
  simp [dropLit]

theorem skipSp_sp (t : List Nat) : skipSp (32 :: t) = skipSp t := by
  simp [skipSp]

theorem skipSp_48 (t : List Nat) : skipSp (48 :: t) = 48 :: t := by
  simp [skipSp]

theorem digitsOf_zero : digitsOf 0 = [48] := by
  rw [digitsOf_eq]
  simp

theorem digitsOf_one : digitsOf 1 = [49] := by
  rw [digitsOf_eq]
  norm_num

theorem parseIntTok_zero (r : List Nat) :
    parseIntTok (48 :: 44 :: r) = some (0, 44 :: r) := by
  have h := parseIntTok_digitsOf 0 r
  rw [digitsOf_zero] at h
  simpa using h

theorem parseIntTok_one (r : List Nat) :
    parseIntTok (49 :: 44 :: r) = some (1, 44 :: r) := by
  have h := parseIntTok_digitsOf 1 r
  rw [digitsOf_one] at h
  simpa using h

theorem scanBitmapLine_encoded (rbN hN : Nat) (rest : List Nat) :
    scanBitmapLine (bmpHeaderBytes (rbN : Int) (hN : Int) ++ rest)
      = some (0, 0, (rbN : Int), (hN : Int), 1) := by
  unfold scanBitmapLine
  rw [bmpHeaderBytes_ofNat]
  simp only [List.append_assoc, List.cons_append, List.nil_append]
  rw [dropLit_bitmap]
  simp only [skipSp_sp, skipSp_48, parseIntTok_zero, parseIntTok_one,
    parseIntTok_digitsOf, expectComma_comma, Option.some_bind,
    Option.map_some']

theorem parseBitmapHeader_encoded (rbN hN : Nat) (rest : List Nat) :
    ParseBitmapHeader (bmpHeaderBytes (rbN : Int) (hN : Int) ++ rest)
      = .ok ⟨(rbN : Int), (rbN : Int) * 8, (hN : Int),
          ((bmpHeaderBytes (rbN : Int) (hN : Int)).length : Int)⟩ := by
  have hpre : [66,73,84,77,65,80].isPrefixOf
      (bmpHeaderBytes (rbN : Int) (hN : Int) ++ rest) = true := by
    rw [bmpHeaderBytes_ofNat]
    simp only [List.append_assoc, List.cons_append, List.nil_append]
    simp [List.isPrefixOf]
  unfold ParseBitmapHeader
  rw [if_pos hpre, find5c_bmpHeader, scanBitmapLine_encoded]
  simp only []
  congr 1
  rw [bmpHeaderBytes_length]
  push_cast
  ring_nf

/-! ## The encode pixel loop as a conditional-write fold -/

theorem condFold_take {α : Type} (ps : List α) (idx kf : α → Nat)
    (cond val : α → Bool) (l : List Nat) (n : Nat) (hn : n ≤ l.length)
    (h : ∀ q ∈ ps, n ≤ idx q) :
    (ps.foldl (condStep idx kf cond val) l).take n = l.take n := by
  apply List.ext_getElem
  · simp [condFold_length]
  · intro i h1 h2
    have hi : i < n := by
      simp [condFold_length] at h1
      omega
    have hiL : i < l.length := by omega
    have hiF : i < (ps.foldl (condStep idx kf cond val) l).length := by
      rw [condFold_length]
      omega
    rw [List.getElem_take, List.getElem_take,
      ← List.getD_eq_getElem _ 0 hiL, ← List.getD_eq_getElem _ 0 hiF]
    exact condFold_getD_frame ps idx kf cond val l i
      (fun q hq => by have := h q hq; omega)

theorem encodeLoop_eq_condFold (bw : Binary) (w h : Nat)
    (hDx : bw.Rect.Dx.toNat = w) (hDy : bw.Rect.Dy.toNat = h)
    (hs : Nat) (rowBytes : Int) (rbN : Nat) (hrb : rowBytes.toNat = rbN)
    (buf0 : List Nat) :
    encodeLoop bw hs rowBytes buf0
      = (pairGrid h w).foldl (condStep
          (fun q : Nat × Nat => hs + q.1 * rbN + q.2 / 8)
          (fun q => 7 - q.2 % 8)
          (fun q => bw.IsWhite (q.2 : Int) (q.1 : Int))
          (fun _ => true)) buf0 := by
  unfold encodeLoop
  simp only []
  rw [hDx, hDy]
  rw [← foldl_pairGrid2 (fun (buf : List Nat) (y x : Nat) =>
    if bw.IsWhite (x : Int) (y : Int) then
      buf.set (hs + y * rowBytes.toNat + x / 8)
        (buf.getD (hs + y * rowBytes.toNat + x / 8) 0 ||| (1 <<< (7 - x % 8)))
    else buf)]
  apply foldl_congr_mem
  intro l p _
  by_cases hw : bw.IsWhite (p.2 : Int) (p.1 : Int) = true
  · rw [if_pos hw, condStep_of_true _ _ _ _ _ _ (by simpa using hw), hrb]
    unfold bitWrite
    rw [if_pos rfl]
  · rw [if_neg hw, condStep_of_false _ _ _ _ _ _ (by simpa using hw)]

/-- `Image2Bytes` on an already-binary image of standard shape: the output is
the rendered `BITMAP` header followed by a `w/8 × h` payload whose bit
`(y*(w/8) + x/8, 7 - x%8)` is exactly pixel `(x, y)` of the image, and the
returned start offset is the header's length. -/
theorem image2Bytes_bin (b : Binary) (w h : Nat) (hwf : b.StdWF w h) :
    ∃ pay : List Nat,
      Image2Bytes (GoImage.bin b)
        = .ok ((bmpHeaderBytes ((w / 8 : Nat) : Int) (h : Int)).length,
            bmpHeaderBytes ((w / 8 : Nat) : Int) (h : Int) ++ pay) ∧
      pay.length = w / 8 * h ∧
      (∀ x y : Nat, x < w → y < h →
        getBitB pay (y * (w / 8) + x / 8) (7 - x % 8)
          = b.IsWhite (x : Int) (y : Int)) := by
  obtain ⟨hRect, hStride, hmod, hwpos, hhpos, hlenPix, hWFb⟩ := hwf
  have hDx : b.Rect.Dx = (w : Int) := by
    rw [GoRect.Dx, hRect]
    show (w : Int) - 0 = _
    ring
  have hDy : b.Rect.Dy = (h : Int) := by
    rw [GoRect.Dy, hRect]
    show (h : Int) - 0 = _
    ring
  have hrow : Int.tdiv (b.Rect.Dx + 7) 8 = ((w / 8 : Nat) : Int) := by
    rw [hDx, Int.tdiv_eq_ediv (by omega) (by omega)]
    omega
  have hcnt : ((((w / 8 : Nat) : Int)) * b.Rect.Dy).toNat = w / 8 * h := by
    have hc1 : (((w / 8 : Nat) : Int)).toNat = w / 8 := by omega
    have hc2 : (((h : Nat) : Int)).toNat = h := by omega
    rw [hDy, int_toNat_mul _ _ (by omega) (by omega), hc1, hc2]
  unfold Image2Bytes
  simp only []
  rw [hrow, hcnt]
  rw [encodeLoop_eq_condFold b w h (by rw [hDx]; omega) (by rw [hDy]; omega)
    _ _ (w / 8) (by omega)]
  set hdr := bmpHeaderBytes ((w / 8 : Nat) : Int) b.Rect.Dy with hhdr
  have hdrEq : hdr = bmpHeaderBytes ((w / 8 : Nat) : Int) (h : Int) := by
    rw [hhdr, hDy]
  set E := (pairGrid h w).foldl (condStep
      (fun q : Nat × Nat => hdr.length + q.1 * (w / 8) + q.2 / 8)
      (fun q => 7 - q.2 % 8)
      (fun q => b.IsWhite (q.2 : Int) (q.1 : Int))
      (fun _ => true)) (hdr ++ List.replicate (w / 8 * h) 0) with hE
  have hElen : E.length = hdr.length + w / 8 * h := by
    rw [hE, condFold_length]
    simp
  have htake : E.take hdr.length = hdr := by
    rw [hE, condFold_take _ _ _ _ _ _ hdr.length (by simp)
      (fun q hq => by omega)]
    exact List.take_left ..
  have hsplit : E = hdr ++ E.drop hdr.length := by
    conv_lhs => rw [← List.take_append_drop hdr.length E, htake]
  refine ⟨E.drop hdr.length, ?_, ?_, ?_⟩
  · rw [← hdrEq, ← hsplit]
  · rw [List.length_drop, hElen]
    omega
  · intro x y hx hy
    have hoff : getBitB (E.drop hdr.length) (y * (w / 8) + x / 8) (7 - x % 8)
        = getBitB E (hdr.length + (y * (w / 8) + x / 8)) (7 - x % 8) := by
      unfold getBitB
      rw [hsplit]
      conv_lhs => rw [← hsplit]
      rw [getD_append_right hdr (E.drop hdr.length) _ (by omega)]
      congr 2
      omega
    rw [hoff]
    have hp : (y, x) ∈ pairGrid h w := (pairGrid_mem _ _ _ _).mpr ⟨hy, hx⟩
    have hval := condFold_getBit (pairGrid h w)
      (fun q : Nat × Nat => hdr.length + q.1 * (w / 8) + q.2 / 8)
      (fun q => 7 - q.2 % 8)
      (fun q => b.IsWhite (q.2 : Int) (q.1 : Int))
      (fun _ => true)
      (hdr ++ List.replicate (w / 8 * h) 0) (y, x) hp
      (fun q _ => by show 7 - q.2 % 8 < 8; omega)
      (fun q hq q' hq' hidx hkf => by
        rcases q with ⟨qy, qx⟩
        rcases q' with ⟨qy', qx'⟩
        simp only [] at hidx hkf ⊢
        obtain ⟨hy1, hx1⟩ := (pairGrid_mem h w qy qx).mp hq
        obtain ⟨hy2, hx2⟩ := (pairGrid_mem h w qy' qx').mp hq'
        obtain ⟨hyy, hxx⟩ := @gridAddr_inj (w / 8) qy qx qy' qx'
          (by omega) (by omega) (by omega) hkf
        subst hyy
        subst hxx
        exact ⟨rfl, trivial⟩)
      (by show hdr.length + (y, x).1 * (w / 8) + (y, x).2 / 8
            < (hdr ++ List.replicate (w / 8 * h) 0).length
          simp only [List.length_append, List.length_replicate]
          have h1 := rowcol_lt y (x / 8) h (w / 8) hy (by omega)
          have h2 := Nat.mul_comm h (w / 8)
          show hdr.length + y * (w / 8) + x / 8 < hdr.length + w / 8 * h
          omega)
    simp only [] at hval
    rw [show hdr.length + (y * (w / 8) + x / 8)
        = hdr.length + y * (w / 8) + x / 8 from by omega, hval]
    have h0 : getBitB (hdr ++ List.replicate (w / 8 * h) 0)
        (hdr.length + y * (w / 8) + x / 8) (7 - x % 8) = false := by
      unfold getBitB
      rw [getD_append_right hdr _ _ (by omega), getD_replicate_zero]
      simp
    rw [h0]
    by_cases hw : b.IsWhite (x : Int) (y : Int) = true
    · rw [hw, if_pos rfl]
    · rw [Bool.not_eq_true] at hw
      rw [hw]
      simp

/-! ## C1: round-tripping the encoder's output -/

/-- C1 counterexample: decoding the **full** encoding fails.  `Encode`
prepends the setup commands (`"SET CUTTER OFF\r\n..."`), so its output does
not start with `"BITMAP"` and `Bytes2Image` rejects it with
`NotABitmapLine`; the round-trip only holds from the bitmap line onward. -/
theorem encode_full_decode_fails :
    (match Encode 8 1 8 (GoImage.bin tinyImage) ⟨false⟩ with
     | .ok bytes => Bytes2Image bytes
     | .error e => .error e) = .error .notABitmapLine := by
  decide

/-- C1 (amended): for every image of the standard allocated shape
(`NewBinary` plus arbitrary per-pixel sets), `Encode` succeeds and produces
setup header ++ bitmap ++ trailer, and decoding **the bitmap together with
the trailer** (the suffix of the full encoding starting at the `BITMAP`
line) succeeds and reconstructs every in-bounds pixel exactly. -/
theorem encode_decode_roundtrip (b : Binary) (w h : Nat) (hwf : b.StdWF w h)
    (w' h' dpm : Int) (opt : Options) :
    ∃ bm : List Nat, ∃ t : TImage,
      Image2Bytes (GoImage.bin b)
        = .ok ((bmpHeaderBytes ((w / 8 : Nat) : Int) (h : Int)).length, bm) ∧
      Encode w' h' dpm (GoImage.bin b) opt
        = .ok (HeaderCmd w' h' dpm opt ++ bm ++ printTail) ∧
      Bytes2Image (bm ++ printTail) = .ok t ∧
      ∀ x y : Nat, x < w → y < h →
        t.Bitmap.IsWhite (x : Int) (y : Int)
          = b.IsWhite (x : Int) (y : Int) := by
  obtain ⟨pay, hI2B, hpayLen, hpayBits⟩ := image2Bytes_bin b w h hwf
  obtain ⟨hRect, hStride, hmod, hwpos, hhpos, hlenPix, hWFb⟩ := hwf
  set hdr := bmpHeaderBytes ((w / 8 : Nat) : Int) (h : Int) with hhdr
  have hEnc : Encode w' h' dpm (GoImage.bin b) opt
      = .ok (HeaderCmd w' h' dpm opt ++ (hdr ++ pay) ++ printTail) := by
    unfold Encode
    rw [hI2B]
  have hbody : (hdr ++ pay) ++ printTail = hdr ++ (pay ++ printTail) :=
    List.append_assoc ..
  have hparse : ParseBitmapHeader ((hdr ++ pay) ++ printTail)
      = .ok ⟨((w / 8 : Nat) : Int), ((w / 8 : Nat) : Int) * 8, (h : Int),
          (hdr.length : Int)⟩ := by
    rw [hbody]
    exact parseBitmapHeader_encoded (w / 8) h (pay ++ printTail)
  have hrbpos : 0 < w / 8 := by omega
  have hprod : 0 < w / 8 * h := Nat.mul_pos hrbpos hhpos
  have hfullLen : ((hdr ++ pay) ++ printTail).length
      = hdr.length + (w / 8 * h + 11) := by
    simp [List.length_append, hpayLen]
    rfl
  obtain ⟨t, hdec, hR, hS, hbits⟩ := bytes2Image_spec ((hdr ++ pay) ++ printTail)
    _ hparse
    (by show (0 : Int) < ((w / 8 : Nat) : Int); omega)
    (by show (0 : Int) < ((h : Nat) : Int); omega)
    (by show ((hdr.length : Nat) : Int) < _
        rw [hfullLen]
        omega)
  refine ⟨hdr ++ pay, t, hI2B, hEnc, hdec, ?_⟩
  intro x y hx hy
  have hRB : ((((w / 8 : Nat) : Int))).toNat = w / 8 := by omega
  have hHE : (((hdr.length : Nat) : Int)).toNat = hdr.length := by omega
  have hHN : (((h : Nat) : Int)).toNat = h := by omega
  have hxw : x < 8 * ((((w / 8 : Nat) : Int))).toNat := by
    rw [hRB]
    omega
  have hyh : y < (((h : Nat) : Int)).toNat := by
    rw [hHN]
    exact hy
  rw [hbits x y hxw hyh]
  simp only []
  rw [hRB, hHE]
  have hoffLt : y * (w / 8) + x / 8 < w / 8 * h := by
    have h1 := rowcol_lt y (x / 8) h (w / 8) hy (by omega)
    have h2 := Nat.mul_comm h (w / 8)
    omega
  have hidxLt : hdr.length + y * (w / 8) + x / 8
      < ((hdr ++ pay) ++ printTail).length := by
    rw [hfullLen]
    omega
  rw [if_pos hidxLt]
  have hread : getBitB ((hdr ++ pay) ++ printTail)
      (hdr.length + y * (w / 8) + x / 8) (7 - x % 8)
      = getBitB pay (y * (w / 8) + x / 8) (7 - x % 8) := by
    unfold getBitB
    rw [hbody, getD_append_right hdr _ _ (by omega),
      show hdr.length + y * (w / 8) + x / 8 - hdr.length
          = y * (w / 8) + x / 8 from by omega,
      getD_append_left pay printTail _ (by omega)]
  rw [hread]
  exact hpayBits x y hx hy

/-- Witness for C1 (amended): the concrete 8×1 image with byte `0xA5`
satisfies the hypotheses and round-trips. -/
theorem encode_decode_roundtrip_witness :
    Binary.StdWF tinyImage 8 1 ∧
    (∃ bm : List Nat, ∃ t : TImage,
      Image2Bytes (GoImage.bin tinyImage)
        = .ok ((bmpHeaderBytes ((8 / 8 : Nat) : Int) ((1 : Nat) : Int)).length,
            bm) ∧
      Encode 8 1 8 (GoImage.bin tinyImage) ⟨false⟩
        = .ok (HeaderCmd 8 1 8 ⟨false⟩ ++ bm ++ printTail) ∧
      Bytes2Image (bm ++ printTail) = .ok t ∧
      ∀ x y : Nat, x < 8 → y < 1 →
        t.Bitmap.IsWhite (x : Int) (y : Int)
          = tinyImage.IsWhite (x : Int) (y : Int)) :=
  ⟨by decide, encode_decode_roundtrip tinyImage 8 1 (by decide) 8 1 8 ⟨false⟩⟩

/-! ## C10: non-Binary sources are converted with the fixed threshold 151 -/

/-- C10: when the image handed to `Image2Bytes`/`Encode` is not an
already-packed `Binary`, it is first converted with the hard-coded threshold
151, and the rest of the pipeline is exactly the pipeline on the converted
`Binary` (errors of the conversion propagate unchanged); a `Binary` input is
used as-is, which is definitional in `Image2Bytes`. -/
theorem encode_converts_via_threshold_151 (s : PixelSource) (w' h' dpm : Int)
    (opt : Options) :
    Image2Bytes (GoImage.src s)
      = (match FromGrayThreshold s 151 with
         | .error e => .error e
         | .ok bw => Image2Bytes (GoImage.bin bw)) ∧
    Encode w' h' dpm (GoImage.src s) opt
      = (match FromGrayThreshold s 151 with
         | .error e => .error e
         | .ok bw => Encode w' h' dpm (GoImage.bin bw) opt) := by
  have hI : Image2Bytes (GoImage.src s)
      = (match FromGrayThreshold s 151 with
         | .error e => .error e
         | .ok bw => Image2Bytes (GoImage.bin bw)) := by
    cases hc : FromGrayThreshold s 151 with
    | error e =>
      unfold Image2Bytes
      simp only []
      rw [hc]
    | ok bw =>
      unfold Image2Bytes
      simp only []
      rw [hc]
  refine ⟨hI, ?_⟩
  unfold Encode
  rw [hI]
  cases FromGrayThreshold s 151 with
  | error e => rfl
  | ok bw => rfl

/-! ## C3: row segment writes of `fromGrayThresh` -/

theorem getD_take (l : List Nat) (n j : Nat) (h : j < n) :
    (l.take n).getD j 0 = l.getD j 0 := by
  by_cases hj : j < l.length
  · have h1 : j < (l.take n).length := by
      simp
      omega
    rw [List.getD_eq_getElem _ 0 h1, List.getD_eq_getElem _ 0 hj,
      List.getElem_take]
  · rw [List.getD_eq_default _ 0 (by simp; omega),
      List.getD_eq_default _ 0 (by omega)]

theorem getD_drop (l : List Nat) (n j : Nat) :
    (l.drop n).getD j 0 = l.getD (n + j) 0 := by
  by_cases hj : n + j < l.length
  · have h1 : j < (l.drop n).length := by
      simp
      omega
    rw [List.getD_eq_getElem _ 0 h1, List.getD_eq_getElem _ 0 hj,
      List.getElem_drop]
  · rw [List.getD_eq_default _ 0 (by simp; omega),
      List.getD_eq_default _ 0 (by omega)]

theorem setSeg_length (l : List Nat) (off : Nat) (seg : List Nat)
    (hoff : off + seg.length ≤ l.length) :
    (setSeg l off seg).length = l.length := by
  unfold setSeg
  simp
  omega

theorem setSeg_getD_in (l : List Nat) (off : Nat) (seg : List Nat) (j : Nat)
    (hoff : off + seg.length ≤ l.length) (hj1 : off ≤ j)
    (hj2 : j < off + seg.length) :
    (setSeg l off seg).getD j 0 = seg.getD (j - off) 0 := by
  unfold setSeg
  have htl : (l.take off).length = off := List.length_take_of_le (by omega)
  rw [List.append_assoc, getD_append_right _ _ _ (by omega),
    getD_append_left _ _ _ (by omega), htl]

theorem setSeg_getD_out (l : List Nat) (off : Nat) (seg : List Nat) (j : Nat)
    (hoff : off + seg.length ≤ l.length)
    (hj : j < off ∨ off + seg.length ≤ j) :
    (setSeg l off seg).getD j 0 = l.getD j 0 := by
  unfold setSeg
  have htl : (l.take off).length = off := List.length_take_of_le (by omega)
  rcases hj with hj | hj
  · rw [List.append_assoc, getD_append_left _ _ _ (by omega), getD_take _ _ _ hj]
  · rw [List.append_assoc, getD_append_right _ _ _ (by omega),
      getD_append_right _ _ _ (by omega), getD_drop]
    congr 1
    omega

/-- The row-writing outer loop of `fromGrayThresh`: after processing the
first `n` rows, the bytes of row `y` hold row content `rows y` when `y < n`
and the original buffer bytes otherwise. -/
theorem rowsFold_aux (rows : Nat → List Nat) (rb h : Nat) (pix0 : List Nat)
    (hlen : pix0.length = rb * h) (hrows : ∀ yi, yi < h → (rows yi).length = rb) :
    ∀ n, n ≤ h →
      ((List.range n).foldl
          (fun pix yi => setSeg pix (yi * rb) (rows yi)) pix0).length = rb * h ∧
      (∀ y q : Nat, q < rb →
        ((List.range n).foldl
            (fun pix yi => setSeg pix (yi * rb) (rows yi)) pix0).getD
            (y * rb + q) 0
          = if y < n then (rows y).getD q 0 else pix0.getD (y * rb + q) 0) := by
  intro n
  induction n with
  | zero =>
    intro _
    exact ⟨hlen, fun y q _ => by simp⟩
  | succ m ih =>
    intro hn
    obtain ⟨ihlen, ihget⟩ := ih (by omega)
    have hseg : (rows m).length = rb := hrows m (by omega)
    have hoff : m * rb + (rows m).length ≤ rb * h := by
      rw [hseg]
      have h1 : (m + 1) * rb ≤ h * rb := Nat.mul_le_mul_right rb (by omega)
      have h2 : (m + 1) * rb = m * rb + rb := Nat.succ_mul m rb
      have h3 : rb * h = h * rb := Nat.mul_comm rb h
      omega
    rw [List.range_succ, List.foldl_append, List.foldl_cons, List.foldl_nil]
    refine ⟨?_, ?_⟩
    · rw [setSeg_length _ _ _ (by rw [ihlen]; exact hoff), ihlen]
    · intro y q hq
      by_cases hy : y = m
      · subst hy
        rw [setSeg_getD_in _ _ _ _ (by rw [ihlen]; exact hoff) (by omega)
          (by rw [hseg]; omega), if_pos (by omega)]
        congr 1
        omega
      · by_cases hy2 : y < m
        · have hlt : y * rb + q < m * rb := by
            have h1 : (y + 1) * rb ≤ m * rb := Nat.mul_le_mul_right rb (by omega)
            have h2 : (y + 1) * rb = y * rb + rb := Nat.succ_mul y rb
            omega
          rw [setSeg_getD_out _ _ _ _ (by rw [ihlen]; exact hoff) (Or.inl hlt),
            ihget y q hq, if_pos (by omega), if_pos (by omega)]
        · have hgt : m * rb + rb ≤ y * rb := by
            have h1 : (m + 1) * rb ≤ y * rb := Nat.mul_le_mul_right rb (by omega)
            have h2 : (m + 1) * rb = m * rb + rb := Nat.succ_mul m rb
            omega
          rw [setSeg_getD_out _ _ _ _ (by rw [ihlen]; exact hoff)
              (Or.inr (by rw [hseg]; omega)),
            ihget y q hq, if_neg (by omega), if_neg (by omega)]

/-- `condStep` with constant value `true` is the conditional OR-in of the
single-bit mask, in the exact shape the loop bodies have. -/
theorem condStep_set_or {α : Type} (idx kf : α → Nat) (cond : α → Bool)
    (l : List Nat) (q : α) :
    condStep idx kf cond (fun _ => true) l q
      = if cond q then l.set (idx q) (l.getD (idx q) 0 ||| (1 <<< kf q))
        else l := by
  unfold condStep bitWrite
  by_cases hc : cond q = true
  · rw [if_pos hc, if_pos hc, if_pos rfl]
  · rw [if_neg hc, if_neg hc]

/-- One row of `fromGrayThresh` over an origin rectangle of width `w`
(a multiple of 8): the row has `w/8` bytes and bit `(x/8, 7 - x%8)` holds
the thresholded luma of source pixel `(x, y)`. -/
theorem grayRow_spec (w h' : Nat) (hmod : w % 8 = 0) (src : PixelSource)
    (t : Nat) (y : Int) :
    (grayRow ⟨0, 0, (w : Int), (h' : Int)⟩ (w / 8) src t y).length = w / 8 ∧
    ∀ x : Nat, x < w →
      getBitB (grayRow ⟨0, 0, (w : Int), (h' : Int)⟩ (w / 8) src t y)
          (x / 8) (7 - x % 8)
        = (if (src.At (x : Int) y).A = 0 then false
           else decide ((((299 * (src.At (x : Int) y).R
               + 587 * (src.At (x : Int) y).G
               + 114 * (src.At (x : Int) y).B) / 1000) >>> 8) % 256 ≥ t)) := by
  have hDxN : ((⟨0, 0, (w : Int), (h' : Int)⟩ : GoRect)).Dx.toNat = w := by
    unfold GoRect.Dx
    show ((w : Int) - 0).toNat = w
    omega
  have hstep : grayRow ⟨0, 0, (w : Int), (h' : Int)⟩ (w / 8) src t y
      = (List.range w).foldl (condStep
          (fun xi : Nat => xi / 8)
          (fun xi => 7 - xi % 8)
          (fun xi =>
            if (src.At (xi : Int) y).A = 0 then false
            else decide ((((299 * (src.At (xi : Int) y).R
                + 587 * (src.At (xi : Int) y).G
                + 114 * (src.At (xi : Int) y).B) / 1000) >>> 8) % 256 ≥ t))
          (fun _ => true)) (List.replicate (w / 8) 0) := by
    unfold grayRow
    simp only []
    rw [hDxN]
    apply foldl_congr_mem
    intro row xi _
    show (if (if (src.At ((0 : Int) + (xi : Int)) y).A = 0 then false
            else decide _) = true then
          row.set (xi / 8) (row.getD (xi / 8) 0
            ||| (0x80 >>> ((((0 : Int) + (xi : Int)) % 8)).toNat))
        else row) = _
    rw [show ((0 : Int) + (xi : Int)) = (xi : Int) from zero_add _,
      show ((((xi : Int)) % 8)).toNat = xi % 8 from by omega,
      shift128 _ (by omega), condStep_set_or]
  constructor
  · rw [hstep, condFold_length]
    simp
  · intro x hx
    rw [hstep]
    have hp : x ∈ List.range w := List.mem_range.mpr hx
    have hval := condFold_getBit (List.range w)
      (fun xi : Nat => xi / 8)
      (fun xi => 7 - xi % 8)
      (fun xi =>
        if (src.At (xi : Int) y).A = 0 then false
        else decide ((((299 * (src.At (xi : Int) y).R
            + 587 * (src.At (xi : Int) y).G
            + 114 * (src.At (xi : Int) y).B) / 1000) >>> 8) % 256 ≥ t))
      (fun _ => true)
      (List.replicate (w / 8) 0) x hp
      (fun q _ => by show 7 - q % 8 < 8; omega)
      (fun q hq q' hq' hidx hkf => by
        simp only [] at hidx hkf
        have : q = q' := by omega
        subst this
        exact ⟨rfl, rfl⟩)
      (by show x / 8 < (List.replicate (w / 8) 0).length
          simp
          omega)
    simp only [] at hval
    rw [hval]
    rw [show getBitB (List.replicate (w / 8) 0) (x / 8) (7 - x % 8) = false
      from getBitB_replicate_zero ..]
    by_cases hA : (if (src.At ((x : Nat) : Int) y).A = 0 then false
        else decide ((((299 * (src.At ((x : Nat) : Int) y).R
            + 587 * (src.At ((x : Nat) : Int) y).G
            + 114 * (src.At ((x : Nat) : Int) y).B) / 1000) >>> 8) % 256 ≥ t))
        = true
    · rw [if_pos hA, hA]
    · rw [Bool.not_eq_true] at hA
      rw [hA]
      simp

/-- C3: `FromGrayThreshold` puts a pixel off when the source alpha is zero
and otherwise on iff `uint8(((299*R + 587*G + 114*B) / 1000) >> 8) >= t`
over the 16-bit channels (sum first, divide by 1000, shift right 8, fold to
8 bits); in particular luma exactly `t` is on, below `t` is off, and a
transparent pixel is off for every `t`.  Stated for source bounds that
`NewBinary` accepts (positive, width a multiple of 8). -/
theorem fromGrayThreshold_spec (src : PixelSource) (t : Nat) (ht : t ≤ 255)
    (w h : Nat) (hDx : src.SrcBounds.Dx = (w : Int))
    (hDy : src.SrcBounds.Dy = (h : Int)) (hmod : w % 8 = 0)
    (hw : 0 < w) (hh : 0 < h)
    (hchan : ∀ x y : Int, (src.At x y).R ≤ 0xFFFF ∧ (src.At x y).G ≤ 0xFFFF ∧
      (src.At x y).B ≤ 0xFFFF) :
    ∃ b : Binary, FromGrayThreshold src t = .ok b ∧
      b.Rect = ⟨0, 0, (w : Int), (h : Int)⟩ ∧
      ∀ x y : Nat, x < w → y < h →
        b.IsWhite (x : Int) (y : Int)
          = (if (src.At (x : Int) (y : Int)).A = 0 then false
             else decide ((((299 * (src.At (x : Int) (y : Int)).R
                 + 587 * (src.At (x : Int) (y : Int)).G
                 + 114 * (src.At (x : Int) (y : Int)).B) / 1000) >>> 8) % 256
               ≥ t)) := by
  have htd : Int.tdiv (w : Int) 8 = ((w / 8 : Nat) : Int) := by
    rw [Int.tdiv_eq_ediv (by omega) (by omega)]
    omega
  have hcnt : ((((w / 8 : Nat) : Int)) * ((h : Nat) : Int)).toNat
      = w / 8 * h := by
    have hc1 : (((w / 8 : Nat) : Int)).toNat = w / 8 := by omega
    have hc2 : (((h : Nat) : Int)).toNat = h := by omega
    rw [int_toNat_mul _ _ (by omega) (by omega), hc1, hc2]
  have hnb : NewBinary (w : Int) (h : Int)
      = .ok (Binary.mk (List.replicate (w / 8 * h) 0) ((w / 8 : Nat) : Int)
          ⟨0, 0, (w : Int), (h : Int)⟩) := by
    unfold NewBinary
    rw [if_neg (by omega), if_neg (by omega), htd, hcnt]
  unfold FromGrayThreshold
  rw [hDx, hDy, hnb]
  simp only []
  refine ⟨_, rfl, rfl, ?_⟩
  intro x y hx hy
  set b0 : Binary := Binary.mk (List.replicate (w / 8 * h) 0)
    ((w / 8 : Nat) : Int) ⟨0, 0, (w : Int), (h : Int)⟩ with hb0
  have hPix : (b0.fromGrayThresh src t).Pix
      = (List.range h).foldl
          (fun pix yi => setSeg pix (yi * (w / 8))
            (grayRow ⟨0, 0, (w : Int), (h : Int)⟩ (w / 8) src t
              ((0 : Int) + (yi : Int))))
          (List.replicate (w / 8 * h) 0) := rfl
  have hbit : (b0.fromGrayThresh src t).IsWhite (x : Int) (y : Int)
      = getBitB (b0.fromGrayThresh src t).Pix (y * (w / 8) + x / 8)
          (7 - x % 8) := by
    unfold Binary.IsWhite
    exact bit_bridge0 _ (w / 8) rfl rfl rfl x y
  rw [hbit, hPix]
  have hrows := rowsFold_aux
    (fun yi => grayRow ⟨0, 0, (w : Int), (h : Int)⟩ (w / 8) src t
      ((0 : Int) + (yi : Int)))
    (w / 8) h (List.replicate (w / 8 * h) 0) (by simp)
    (fun yi _ => (grayRow_spec w h hmod src t ((0 : Int) + (yi : Int))).1)
    h (le_refl h)
  unfold getBitB
  rw [hrows.2 y (x / 8) (by omega), if_pos hy]
  have hrow := (grayRow_spec w h hmod src t ((0 : Int) + (y : Int))).2 x hx
  unfold getBitB at hrow
  rw [hrow, show ((0 : Int) + (y : Int)) = (y : Int) from zero_add _]

/-- Witness for C3: on the concrete source, the transparent pixel, the
boundary-luma pixel (exactly 151) and a dark pixel come out as the formula
dictates. -/
theorem fromGrayThreshold_spec_witness :
    ∃ b : Binary, FromGrayThreshold srcEx 151 = .ok b ∧
      b.Rect = ⟨0, 0, ((8 : Nat) : Int), ((1 : Nat) : Int)⟩ ∧
      ∀ x y : Nat, x < 8 → y < 1 →
        b.IsWhite (x : Int) (y : Int)
          = (if (srcEx.At (x : Int) (y : Int)).A = 0 then false
             else decide ((((299 * (srcEx.At (x : Int) (y : Int)).R
                 + 587 * (srcEx.At (x : Int) (y : Int)).G
                 + 114 * (srcEx.At (x : Int) (y : Int)).B) / 1000) >>> 8) % 256
               ≥ 151)) :=
  fromGrayThreshold_spec srcEx 151 (by decide) 8 1 (by decide) (by decide)
    (by decide) (by decide) (by decide)
    (fun x y => by
      have hAt : srcEx.At x y
          = (if x = 0 then (⟨0, 0, 0, 0⟩ : RGBA)
            else if x = 1 then ⟨0x9700, 0x9700, 0x9700, 0xFFFF⟩
            else ⟨0x2000, 0x2000, 0x2000, 0xFFFF⟩) := rfl
      rw [hAt]
      split_ifs <;> exact ⟨by norm_num, by norm_num, by norm_num⟩)

/-! ## Pair-swap folds (the two `Rotate180` loop shapes)

Each iteration reads two addresses and writes both; distinct iterations
touch pairwise disjoint addresses, so every write stores a value read from
the *initial* buffer. -/

section PairFold

variable {α : Type}

theorem pairStep_length (a1 a2 : α → Nat) (g : Nat → Nat) (l : List Nat)
    (q : α) : (pairStep a1 a2 g l q).length = l.length := by
  unfold pairStep
  simp

theorem pairStep_getD_ne (a1 a2 : α → Nat) (g : Nat → Nat) (l : List Nat)
    (q : α) (i : Nat) (h1 : a1 q ≠ i) (h2 : a2 q ≠ i) :
    (pairStep a1 a2 g l q).getD i 0 = l.getD i 0 := by
  unfold pairStep
  rw [getD_set_ne _ _ _ _ h2, getD_set_ne _ _ _ _ h1]

theorem pairStep_getD_a2 (a1 a2 : α → Nat) (g : Nat → Nat) (l : List Nat)
    (q : α) (hb : a2 q < l.length) :
    (pairStep a1 a2 g l q).getD (a2 q) 0 = g (l.getD (a1 q) 0) := by
  unfold pairStep
  rw [getD_set_self _ _ _ (by simp; omega)]

theorem pairStep_getD_a1 (a1 a2 : α → Nat) (g : Nat → Nat) (l : List Nat)
    (q : α) (hb : a1 q < l.length) :
    (pairStep a1 a2 g l q).getD (a1 q) 0 = g (l.getD (a2 q) 0) := by
  by_cases he : a2 q = a1 q
  · rw [← he, pairStep_getD_a2 a1 a2 g l q (by omega), he]
  · unfold pairStep
    rw [getD_set_ne _ _ _ _ he, getD_set_self _ _ _ hb]

theorem pairStep_bytesWF (a1 a2 : α → Nat) (g : Nat → Nat) (l : List Nat)
    (q : α) (hg : ∀ v, v < 256 → g v < 256) (hl : BytesWF l) :
    BytesWF (pairStep a1 a2 g l q) := by
  unfold pairStep
  apply bytesWF_set
  · exact bytesWF_set _ _ _ hl (hg _ (getD_lt_256 _ _ hl))
  · exact hg _ (getD_lt_256 _ _ hl)

theorem pairFold_length (ps : List α) (a1 a2 : α → Nat) (g : Nat → Nat)
    (l : List Nat) :
    (ps.foldl (pairStep a1 a2 g) l).length = l.length := by
  induction ps generalizing l with
  | nil => rfl
  | cons a t ih => rw [List.foldl_cons, ih, pairStep_length]

theorem pairFold_getD_frame (ps : List α) (a1 a2 : α → Nat) (g : Nat → Nat)
    (l : List Nat) (i : Nat) (h : ∀ q ∈ ps, a1 q ≠ i ∧ a2 q ≠ i) :
    (ps.foldl (pairStep a1 a2 g) l).getD i 0 = l.getD i 0 := by
  induction ps generalizing l with
  | nil => rfl
  | cons a t ih =>
    rw [List.foldl_cons, ih _ (fun q hq => h q (List.mem_cons_of_mem a hq)),
      pairStep_getD_ne _ _ _ _ _ _ (h a (List.mem_cons_self a t)).1
        (h a (List.mem_cons_self a t)).2]

theorem pairFold_bytesWF (ps : List α) (a1 a2 : α → Nat) (g : Nat → Nat)
    (l : List Nat) (hg : ∀ v, v < 256 → g v < 256) (hl : BytesWF l) :
    BytesWF (ps.foldl (pairStep a1 a2 g) l) := by
  induction ps generalizing l with
  | nil => exact hl
  | cons a t ih =>
    rw [List.foldl_cons]
    exact ih _ (pairStep_bytesWF _ _ _ _ _ hg hl)

/-- Value of the two bytes of iteration `p` after a pairwise-disjoint swap
fold: each holds `g` of the *initial* other byte. -/
theorem pairFold_getD (ps : List α) (a1 a2 : α → Nat) (g : Nat → Nat)
    (l : List Nat)
    (hP : ps.Pairwise (fun q q' => a1 q ≠ a1 q' ∧ a1 q ≠ a2 q' ∧
      a2 q ≠ a1 q' ∧ a2 q ≠ a2 q'))
    (p : α) (hp : p ∈ ps) (hb1 : a1 p < l.length) (hb2 : a2 p < l.length) :
    (ps.foldl (pairStep a1 a2 g) l).getD (a1 p) 0 = g (l.getD (a2 p) 0) ∧
    (ps.foldl (pairStep a1 a2 g) l).getD (a2 p) 0 = g (l.getD (a1 p) 0) := by
  induction ps using List.reverseRecOn with
  | nil => exact absurd hp (List.not_mem_nil p)
  | append_singleton t a ih =>
    rw [List.pairwise_append] at hP
    obtain ⟨hPt, _, hcross⟩ := hP
    rw [List.foldl_append, List.foldl_cons, List.foldl_nil]
    rcases List.mem_append.mp hp with hpt | hpa
    · obtain ⟨h11, h12, h21, h22⟩ := hcross p hpt a (by simp)
      constructor
      · rw [pairStep_getD_ne _ _ _ _ _ _ (Ne.symm h11) (Ne.symm h12)]
        exact (ih hPt hpt).1
      · rw [pairStep_getD_ne _ _ _ _ _ _ (Ne.symm h21) (Ne.symm h22)]
        exact (ih hPt hpt).2
    · have hpa' : p = a := by simpa using hpa
      subst hpa'
      have hfr1 : (t.foldl (pairStep a1 a2 g) l).getD (a1 p) 0
          = l.getD (a1 p) 0 :=
        pairFold_getD_frame t a1 a2 g l (a1 p)
          (fun q hq => ⟨(hcross q hq p (by simp)).1,
            (hcross q hq p (by simp)).2.2.1⟩)
      have hfr2 : (t.foldl (pairStep a1 a2 g) l).getD (a2 p) 0
          = l.getD (a2 p) 0 :=
        pairFold_getD_frame t a1 a2 g l (a2 p)
          (fun q hq => ⟨(hcross q hq p (by simp)).2.1,
            (hcross q hq p (by simp)).2.2.2⟩)
      have hlen : (t.foldl (pairStep a1 a2 g) l).length = l.length :=
        pairFold_length ..
      constructor
      · rw [pairStep_getD_a1 _ _ _ _ _ (by omega), hfr2]
      · rw [pairStep_getD_a2 _ _ _ _ _ (by omega), hfr1]

theorem pairStepBit_length (i1 k1 i2 k2 : α → Nat) (l : List Nat) (q : α) :
    (pairStepBit i1 k1 i2 k2 l q).length = l.length := by
  unfold pairStepBit
  rw [bitWrite_length, bitWrite_length]

theorem pairStepBit_getBit_ne (i1 k1 i2 k2 : α → Nat) (l : List Nat) (q : α)
    (j k : Nat) (hk1 : k1 q < 8) (hk2 : k2 q < 8) (hk : k < 8)
    (h1 : i1 q ≠ j ∨ k1 q ≠ k) (h2 : i2 q ≠ j ∨ k2 q ≠ k) :
    getBitB (pairStepBit i1 k1 i2 k2 l q) j k = getBitB l j k := by
  unfold pairStepBit
  rw [getBitB_bitWrite_ne _ _ _ _ _ _ hk2 hk h2,
    getBitB_bitWrite_ne _ _ _ _ _ _ hk1 hk h1]

theorem pairStepBit_getBit_a2 (i1 k1 i2 k2 : α → Nat) (l : List Nat) (q : α)
    (hb : i2 q < l.length) (hk2 : k2 q < 8) :
    getBitB (pairStepBit i1 k1 i2 k2 l q) (i2 q) (k2 q)
      = getBitB l (i1 q) (k1 q) := by
  unfold pairStepBit
  rw [getBitB_bitWrite_self _ _ _ _ (by rw [bitWrite_length]; omega) hk2]

theorem pairStepBit_getBit_a1 (i1 k1 i2 k2 : α → Nat) (l : List Nat) (q : α)
    (hb : i1 q < l.length) (hk1 : k1 q < 8) (hk2 : k2 q < 8) :
    getBitB (pairStepBit i1 k1 i2 k2 l q) (i1 q) (k1 q)
      = getBitB l (i2 q) (k2 q) := by
  by_cases he : i2 q = i1 q ∧ k2 q = k1 q
  · obtain ⟨he1, he2⟩ := he
    unfold pairStepBit
    rw [← he1, ← he2,
      getBitB_bitWrite_self _ _ _ _ (by rw [bitWrite_length]; omega) hk2,
      he1, he2]
  · have hne : i2 q ≠ i1 q ∨ k2 q ≠ k1 q := by tauto
    unfold pairStepBit
    rw [getBitB_bitWrite_ne _ _ _ _ _ _ hk2 hk1 hne,
      getBitB_bitWrite_self _ _ _ _ hb hk1]

theorem pairStepBit_bytesWF (i1 k1 i2 k2 : α → Nat) (l : List Nat) (q : α)
    (hk1 : k1 q < 8) (hk2 : k2 q < 8) (hl : BytesWF l) :
    BytesWF (pairStepBit i1 k1 i2 k2 l q) := by
  unfold pairStepBit
  exact bytesWF_bitWrite _ _ _ _ (bytesWF_bitWrite _ _ _ _ hl hk1) hk2

theorem pairFoldBit_length (ps : List α) (i1 k1 i2 k2 : α → Nat)
    (l : List Nat) :
    (ps.foldl (pairStepBit i1 k1 i2 k2) l).length = l.length := by
  induction ps generalizing l with
  | nil => rfl
  | cons a t ih => rw [List.foldl_cons, ih, pairStepBit_length]

theorem pairFoldBit_bytesWF (ps : List α) (i1 k1 i2 k2 : α → Nat)
    (l : List Nat) (hks : ∀ q ∈ ps, k1 q < 8 ∧ k2 q < 8) (hl : BytesWF l) :
    BytesWF (ps.foldl (pairStepBit i1 k1 i2 k2) l) := by
  induction ps generalizing l with
  | nil => exact hl
  | cons a t ih =>
    rw [List.foldl_cons]
    exact ih _ (fun q hq => hks q (List.mem_cons_of_mem a hq))
      (pairStepBit_bytesWF _ _ _ _ _ _ (hks a (List.mem_cons_self a t)).1
        (hks a (List.mem_cons_self a t)).2 hl)

theorem pairFoldBit_getBit_frame (ps : List α) (i1 k1 i2 k2 : α → Nat)
    (l : List Nat) (j k : Nat) (hks : ∀ q ∈ ps, k1 q < 8 ∧ k2 q < 8)
    (hk : k < 8)
    (h : ∀ q ∈ ps, (i1 q ≠ j ∨ k1 q ≠ k) ∧ (i2 q ≠ j ∨ k2 q ≠ k)) :
    getBitB (ps.foldl (pairStepBit i1 k1 i2 k2) l) j k = getBitB l j k := by
  induction ps generalizing l with
  | nil => rfl
  | cons a t ih =>
    rw [List.foldl_cons,
      ih _ (fun q hq => hks q (List.mem_cons_of_mem a hq))
        (fun q hq => h q (List.mem_cons_of_mem a hq)),
      pairStepBit_getBit_ne _ _ _ _ _ _ _ _
        (hks a (List.mem_cons_self a t)).1 (hks a (List.mem_cons_self a t)).2
        hk (h a (List.mem_cons_self a t)).1 (h a (List.mem_cons_self a t)).2]

/-- Value of the two bits of iteration `p` after a pairwise-disjoint bit-swap
fold: each holds the *initial* other bit. -/
theorem pairFoldBit_getBit (ps : List α) (i1 k1 i2 k2 : α → Nat)
    (l : List Nat)
    (hks : ∀ q ∈ ps, k1 q < 8 ∧ k2 q < 8)
    (hP : ps.Pairwise (fun q q' =>
      (i1 q ≠ i1 q' ∨ k1 q ≠ k1 q') ∧ (i1 q ≠ i2 q' ∨ k1 q ≠ k2 q') ∧
      (i2 q ≠ i1 q' ∨ k2 q ≠ k1 q') ∧ (i2 q ≠ i2 q' ∨ k2 q ≠ k2 q')))
    (p : α) (hp : p ∈ ps) (hb1 : i1 p < l.length) (hb2 : i2 p < l.length) :
    getBitB (ps.foldl (pairStepBit i1 k1 i2 k2) l) (i1 p) (k1 p)
      = getBitB l (i2 p) (k2 p) ∧
    getBitB (ps.foldl (pairStepBit i1 k1 i2 k2) l) (i2 p) (k2 p)
      = getBitB l (i1 p) (k1 p) := by
  induction ps using List.reverseRecOn with
  | nil => exact absurd hp (List.not_mem_nil p)
  | append_singleton t a ih =>
    rw [List.pairwise_append] at hP
    obtain ⟨hPt, _, hcross⟩ := hP
    have hksT : ∀ q ∈ t, k1 q < 8 ∧ k2 q < 8 := fun q hq =>
      hks q (List.mem_append.mpr (Or.inl hq))
    have hksA : k1 a < 8 ∧ k2 a < 8 :=
      hks a (List.mem_append.mpr (Or.inr (by simp)))
    have hksP : k1 p < 8 ∧ k2 p < 8 := hks p hp
    rw [List.foldl_append, List.foldl_cons, List.foldl_nil]
    rcases List.mem_append.mp hp with hpt | hpa
    · obtain ⟨h11, h12, h21, h22⟩ := hcross p hpt a (by simp)
      constructor
      · rw [pairStepBit_getBit_ne _ _ _ _ _ _ _ _ hksA.1 hksA.2 hksP.1
          (h11.imp Ne.symm Ne.symm) (h12.imp Ne.symm Ne.symm)]
        exact (ih hksT hPt hpt).1
      · rw [pairStepBit_getBit_ne _ _ _ _ _ _ _ _ hksA.1 hksA.2 hksP.2
          (h21.imp Ne.symm Ne.symm) (h22.imp Ne.symm Ne.symm)]
        exact (ih hksT hPt hpt).2
    · have hpa' : p = a := by simpa using hpa
      subst hpa'
      have hfr1 : getBitB (t.foldl (pairStepBit i1 k1 i2 k2) l) (i1 p) (k1 p)
          = getBitB l (i1 p) (k1 p) :=
        pairFoldBit_getBit_frame t i1 k1 i2 k2 l (i1 p) (k1 p) hksT hksP.1
          (fun q hq => ⟨(hcross q hq p (by simp)).1,
            (hcross q hq p (by simp)).2.2.1⟩)
      have hfr2 : getBitB (t.foldl (pairStepBit i1 k1 i2 k2) l) (i2 p) (k2 p)
          = getBitB l (i2 p) (k2 p) :=
        pairFoldBit_getBit_frame t i1 k1 i2 k2 l (i2 p) (k2 p) hksT hksP.2
          (fun q hq => ⟨(hcross q hq p (by simp)).2.1,
            (hcross q hq p (by simp)).2.2.2⟩)
      have hlen : (t.foldl (pairStepBit i1 k1 i2 k2) l).length = l.length :=
        pairFoldBit_length ..
      constructor
      · rw [pairStepBit_getBit_a1 _ _ _ _ _ _ (by omega) hksP.1 hksP.2, hfr2]
      · rw [pairStepBit_getBit_a2 _ _ _ _ _ _ (by omega) hksP.2, hfr1]

end PairFold

theorem pairGrid_nodup (h w : Nat) : (pairGrid h w).Nodup := by
  show ((List.range h).product (List.range w)).Nodup
  exact List.Nodup.product (List.nodup_range h) (List.nodup_range w)

theorem pairwise_of_nodup_inj {α : Type} (ps : List α) (hnd : ps.Nodup)
    (R : α → α → Prop) (h : ∀ q ∈ ps, ∀ q' ∈ ps, q ≠ q' → R q q') :
    ps.Pairwise R :=
  List.Pairwise.imp_of_mem (fun ha hb hne => h _ ha _ hb hne) hnd

/-- Bit addresses of a stride-`st` grid with a fixed alignment offset `mX`:
the byte is `y*st + x/8` (view-relative), the bit `7 - (mX + x) % 8`
(absolute `x`, as the Go mask computes it). -/
theorem gridAddr_inj' (st mX : Nat) {y x y' x' : Nat}
    (hx : x / 8 < st) (hx' : x' / 8 < st)
    (hi : y * st + x / 8 = y' * st + x' / 8)
    (hk : 7 - (mX + x) % 8 = 7 - (mX + x') % 8) : y = y' ∧ x = x' := by
  have hyy : y = y' := by
    rcases Nat.lt_trichotomy y y' with hlt | he | hgt
    · have h2 : (y + 1) * st ≤ y' * st := Nat.mul_le_mul_right st (by omega)
      rw [Nat.add_mul, Nat.one_mul] at h2
      omega
    · exact he
    · have h2 : (y' + 1) * st ≤ y * st := Nat.mul_le_mul_right st (by omega)
      rw [Nat.add_mul, Nat.one_mul] at h2
      omega
  subst hyy
  exact ⟨rfl, by omega⟩

theorem rev8_lt_256 : ∀ v, v < 256 → rev8 v < 256 := by decide

theorem rev8_testBit :
    ∀ v, v < 256 → ∀ k, k < 8 → (rev8 v).testBit k = v.testBit (7 - k) := by
  decide

theorem byteAddr_inj (st : Nat) {y i y' i' : Nat} (hi : i < st) (hi' : i' < st)
    (he : y * st + i = y' * st + i') : y = y' ∧ i = i' := by
  have hyy : y = y' := by
    rcases Nat.lt_trichotomy y y' with hlt | heq | hgt
    · have h2 : (y + 1) * st ≤ y' * st := Nat.mul_le_mul_right st (by omega)
      rw [Nat.add_mul, Nat.one_mul] at h2
      omega
    · exact heq
    · have h2 : (y' + 1) * st ≤ y * st := Nat.mul_le_mul_right st (by omega)
      rw [Nat.add_mul, Nat.one_mul] at h2
      omega
  subst hyy
  exact ⟨rfl, by omega⟩

/-- Byte-level characterisation of the fast path: each of the `h × rb`
payload bytes becomes the bit-reversal of its 180°-opposite byte, every
other byte (row padding up to the stride, bytes past the last row) is
untouched, and the geometry fields are preserved. -/
theorem rotFast_getD (b : Binary) (rb h st : Nat) (hst : b.Stride.toNat = st)
    (hrb : 0 < rb) (hrbst : rb ≤ st) (hh : 0 < h)
    (hlen : (h - 1) * st + rb ≤ b.Pix.length) :
    (rotFast b rb h).Rect = b.Rect ∧
    (rotFast b rb h).Stride = b.Stride ∧
    (rotFast b rb h).Pix.length = b.Pix.length ∧
    (BytesWF b.Pix → BytesWF (rotFast b rb h).Pix) ∧
    (∀ y i : Nat, y < h → i < rb →
      (rotFast b rb h).Pix.getD (y * st + i) 0
        = rev8 (b.Pix.getD ((h - 1 - y) * st + (rb - 1 - i)) 0)) ∧
    (∀ j : Nat, (∀ y i : Nat, y < h → i < rb → j ≠ y * st + i) →
      (rotFast b rb h).Pix.getD j 0 = b.Pix.getD j 0) := by
  have hmul : ∀ u v : Nat, u ≤ v → u * st ≤ v * st := fun u v huv =>
    Nat.mul_le_mul_right st huv
  have hpix : (rotFast b rb h).Pix
      = (if h % 2 = 1 then
          (if rb % 2 = 1 then
            ((List.range (rb / 2)).foldl
              (pairStep (fun q : Nat => (h / 2) * st + q)
                (fun q => (h / 2) * st + (rb - 1 - q)) rev8)
              ((pairGrid (h / 2) rb).foldl
                (pairStep (fun q : Nat × Nat => q.1 * st + q.2)
                  (fun q => (h - 1 - q.1) * st + (rb - 1 - q.2)) rev8)
                b.Pix)).set ((h / 2) * st + rb / 2)
              (rev8 (((List.range (rb / 2)).foldl
                (pairStep (fun q : Nat => (h / 2) * st + q)
                  (fun q => (h / 2) * st + (rb - 1 - q)) rev8)
                ((pairGrid (h / 2) rb).foldl
                  (pairStep (fun q : Nat × Nat => q.1 * st + q.2)
                    (fun q => (h - 1 - q.1) * st + (rb - 1 - q.2)) rev8)
                  b.Pix)).getD ((h / 2) * st + rb / 2) 0))
          else
            (List.range (rb / 2)).foldl
              (pairStep (fun q : Nat => (h / 2) * st + q)
                (fun q => (h / 2) * st + (rb - 1 - q)) rev8)
              ((pairGrid (h / 2) rb).foldl
                (pairStep (fun q : Nat × Nat => q.1 * st + q.2)
                  (fun q => (h - 1 - q.1) * st + (rb - 1 - q.2)) rev8)
                b.Pix))
        else
          (pairGrid (h / 2) rb).foldl
            (pairStep (fun q : Nat × Nat => q.1 * st + q.2)
              (fun q => (h - 1 - q.1) * st + (rb - 1 - q.2)) rev8)
            b.Pix) := by
    show ((if h % 2 = 1 then _ else _ : List Nat)) = _
    rw [hst,
      ← foldl_pairGrid2 (fun pix (y i : Nat) =>
        revSwapBytes pix (y * st + i) ((h - 1 - y) * st + (rb - 1 - i)))]
    rfl
  set E1 : List Nat := (pairGrid (h / 2) rb).foldl
    (pairStep (fun q : Nat × Nat => q.1 * st + q.2)
      (fun q => (h - 1 - q.1) * st + (rb - 1 - q.2)) rev8) b.Pix with hE1
  have hE1len : E1.length = b.Pix.length := pairFold_length ..
  have hP1 : (pairGrid (h / 2) rb).Pairwise (fun q q' =>
      (fun q : Nat × Nat => q.1 * st + q.2) q
          ≠ (fun q : Nat × Nat => q.1 * st + q.2) q' ∧
      (fun q : Nat × Nat => q.1 * st + q.2) q
          ≠ (fun q : Nat × Nat => (h - 1 - q.1) * st + (rb - 1 - q.2)) q' ∧
      (fun q : Nat × Nat => (h - 1 - q.1) * st + (rb - 1 - q.2)) q
          ≠ (fun q : Nat × Nat => q.1 * st + q.2) q' ∧
      (fun q : Nat × Nat => (h - 1 - q.1) * st + (rb - 1 - q.2)) q
          ≠ (fun q : Nat × Nat => (h - 1 - q.1) * st + (rb - 1 - q.2)) q') := by
    apply pairwise_of_nodup_inj _ (pairGrid_nodup _ _)
    intro q hq q' hq' hne
    rcases q with ⟨qy, qi⟩
    rcases q' with ⟨qy', qi'⟩
    obtain ⟨hqy, hqi⟩ := (pairGrid_mem _ _ _ _).mp hq
    obtain ⟨hqy', hqi'⟩ := (pairGrid_mem _ _ _ _).mp hq'
    simp only []
    refine ⟨?_, ?_, ?_, ?_⟩
    · intro he
      obtain ⟨h1, h2⟩ := byteAddr_inj st (by omega) (by omega) he
      exact hne (by rw [h1, h2])
    · intro he
      obtain ⟨h1, h2⟩ := byteAddr_inj st (by omega) (by omega) he
      omega
    · intro he
      obtain ⟨h1, h2⟩ := byteAddr_inj st (by omega) (by omega) he
      omega
    · intro he
      obtain ⟨h1, h2⟩ := byteAddr_inj st (by omega) (by omega) he
      exact hne (by
        have : qy = qy' := by omega
        have : qi = qi' := by omega
        simp_all)
  have hbound : ∀ y i : Nat, y < h → i < rb → y * st + i < b.Pix.length := by
    intro y i hy hi
    have := hmul y (h - 1) (by omega)
    omega
  have hval1 : ∀ y i : Nat, y < h / 2 → i < rb →
      E1.getD (y * st + i) 0
          = rev8 (b.Pix.getD ((h - 1 - y) * st + (rb - 1 - i)) 0) ∧
      E1.getD ((h - 1 - y) * st + (rb - 1 - i)) 0
          = rev8 (b.Pix.getD (y * st + i) 0) := by
    intro y i hy hi
    exact pairFold_getD (pairGrid (h / 2) rb) _ _ rev8 b.Pix hP1 (y, i)
      ((pairGrid_mem _ _ _ _).mpr ⟨hy, hi⟩)
      (hbound y i (by omega) hi)
      (hbound (h - 1 - y) (rb - 1 - i) (by omega) (by omega))
  have hfr1 : ∀ j : Nat,
      (∀ q : Nat × Nat, q ∈ pairGrid (h / 2) rb →
        q.1 * st + q.2 ≠ j ∧ (h - 1 - q.1) * st + (rb - 1 - q.2) ≠ j) →
      E1.getD j 0 = b.Pix.getD j 0 := fun j hj =>
    pairFold_getD_frame _ _ _ _ _ _ hj
  have hrowne : ∀ y i y' i' : Nat, i < rb → i' < rb → y ≠ y' →
      y * st + i ≠ y' * st + i' := by
    intro y i y' i' hi hi' hne he
    obtain ⟨h1, _⟩ := byteAddr_inj st (by omega) (by omega) he
    exact hne h1
  have hwf1 : BytesWF b.Pix → BytesWF E1 := fun hwf =>
    pairFold_bytesWF _ _ _ _ _ rev8_lt_256 hwf
  by_cases hodd : h % 2 = 1
  · -- odd height: middle-row swaps, possibly a middle-byte reversal
    rw [hpix, if_pos hodd]
    set S2 : List Nat := (List.range (rb / 2)).foldl
      (pairStep (fun q : Nat => (h / 2) * st + q)
        (fun q => (h / 2) * st + (rb - 1 - q)) rev8) E1 with hS2
    have hS2len : S2.length = b.Pix.length := by
      rw [hS2, pairFold_length, hE1len]
    have hP2 : (List.range (rb / 2)).Pairwise (fun q q' =>
        (fun q : Nat => (h / 2) * st + q) q
            ≠ (fun q : Nat => (h / 2) * st + q) q' ∧
        (fun q : Nat => (h / 2) * st + q) q
            ≠ (fun q : Nat => (h / 2) * st + (rb - 1 - q)) q' ∧
        (fun q : Nat => (h / 2) * st + (rb - 1 - q)) q
            ≠ (fun q : Nat => (h / 2) * st + q) q' ∧
        (fun q : Nat => (h / 2) * st + (rb - 1 - q)) q
            ≠ (fun q : Nat => (h / 2) * st + (rb - 1 - q)) q') := by
      apply pairwise_of_nodup_inj _ (List.nodup_range _)
      intro q hq q' hq' hne
      rw [List.mem_range] at hq hq'
      simp only []
      omega
    have hmidrow : ∀ q : Nat × Nat, q ∈ pairGrid (h / 2) rb →
        ∀ i' : Nat, i' < rb →
        q.1 * st + q.2 ≠ (h / 2) * st + i' ∧
        (h - 1 - q.1) * st + (rb - 1 - q.2) ≠ (h / 2) * st + i' := by
      intro q hq i' hi'
      rcases q with ⟨qy, qi⟩
      obtain ⟨hqy, hqi⟩ := (pairGrid_mem _ _ _ _).mp hq
      constructor
      · exact hrowne _ _ _ _ hqi hi' (by omega)
      · exact hrowne _ _ _ _ (by omega) hi' (by omega)
    have hS2mid : ∀ i : Nat, i < rb →
        S2.getD ((h / 2) * st + i) 0
          = (if rb % 2 = 1 ∧ i = rb / 2 then b.Pix.getD ((h / 2) * st + i) 0
             else rev8 (b.Pix.getD ((h / 2) * st + (rb - 1 - i)) 0)) := by
      intro i hi
      have hE1mid : ∀ i'' : Nat, i'' < rb →
          E1.getD ((h / 2) * st + i'') 0
            = b.Pix.getD ((h / 2) * st + i'') 0 := by
        intro i'' hi''
        exact hfr1 _ (fun q hq => hmidrow q hq i'' hi'')
      by_cases hc1 : i < rb / 2
      · rw [if_neg (by omega)]
        have := (pairFold_getD (List.range (rb / 2)) _ _ rev8 E1 hP2 i
          (List.mem_range.mpr hc1)
          (by rw [hE1len]; exact hbound (h / 2) i (by omega) hi)
          (by rw [hE1len]
              exact hbound (h / 2) (rb - 1 - i) (by omega) (by omega))).1
        rw [hS2, this, hE1mid _ (by omega)]
      · by_cases hc2 : rb - 1 - i < rb / 2
        · rw [if_neg (by omega)]
          have := (pairFold_getD (List.range (rb / 2)) _ _ rev8 E1 hP2
            (rb - 1 - i) (List.mem_range.mpr hc2)
            (by rw [hE1len]
                exact hbound (h / 2) (rb - 1 - i) (by omega) (by omega))
            (by rw [hE1len]
                have h1 : rb - 1 - (rb - 1 - i) = i := by omega
                rw [h1]
                exact hbound (h / 2) i (by omega) hi)).2
          have h1 : rb - 1 - (rb - 1 - i) = i := by omega
          rw [h1] at this
          rw [hS2, this, hE1mid _ (by omega)]
        · rw [if_pos (by omega)]
          have hfr2 : S2.getD ((h / 2) * st + i) 0
              = E1.getD ((h / 2) * st + i) 0 := by
            rw [hS2]
            apply pairFold_getD_frame
            intro q hq
            rw [List.mem_range] at hq
            constructor <;> omega
          rw [hfr2, hE1mid i hi]
    -- the three conclusions under odd h, split on the middle-byte branch
    by_cases hro : rb % 2 = 1
    · rw [if_pos hro]
      set c : Nat := (h / 2) * st + rb / 2 with hc
      have hcb : c < S2.length := by
        rw [hS2len]
        exact hbound (h / 2) (rb / 2) (by omega) (by omega)
      refine ⟨rfl, rfl, ?_, ?_, ?_, ?_⟩
      · rw [List.length_set, hS2len]
      · intro hwf
        apply bytesWF_set
        · exact pairFold_bytesWF _ _ _ _ _ rev8_lt_256 (hwf1 hwf)
        · exact rev8_lt_256 _ (getD_lt_256 _ _
            (pairFold_bytesWF _ _ _ _ _ rev8_lt_256 (hwf1 hwf)))
      · intro y i hy hi
        by_cases hy1 : y < h / 2
        · rw [getD_set_ne _ _ _ _ (by
            rw [hc]
            exact Ne.symm (hrowne _ _ _ _ hi (by omega) (by omega)))]
          have hfrS2 : S2.getD (y * st + i) 0 = E1.getD (y * st + i) 0 := by
            rw [hS2]
            apply pairFold_getD_frame
            intro q hq
            rw [List.mem_range] at hq
            constructor
            · exact Ne.symm (hrowne _ _ _ _ hi (by omega) (by omega))
            · exact Ne.symm (hrowne _ _ _ _ hi (by omega) (by omega))
          rw [hfrS2, (hval1 y i hy1 hi).1]
        · by_cases hy2 : h - 1 - y < h / 2
          · rw [getD_set_ne _ _ _ _ (by
              rw [hc]
              exact Ne.symm (hrowne _ _ _ _ hi (by omega) (by omega)))]
            have hfrS2 : S2.getD (y * st + i) 0
                = E1.getD (y * st + i) 0 := by
              rw [hS2]
              apply pairFold_getD_frame
              intro q hq
              rw [List.mem_range] at hq
              constructor
              · exact Ne.symm (hrowne _ _ _ _ hi (by omega) (by omega))
              · exact Ne.symm (hrowne _ _ _ _ hi (by omega) (by omega))
            rw [hfrS2]
            have hv := (hval1 (h - 1 - y) (rb - 1 - i) hy2 (by omega)).2
            have e1 : h - 1 - (h - 1 - y) = y := by omega
            have e2 : rb - 1 - (rb - 1 - i) = i := by omega
            rw [e1, e2] at hv
            exact hv
          · -- y = h/2, the middle row
            have hymid : y = h / 2 := by omega
            subst hymid
            by_cases hcc : i = rb / 2
            · subst hcc
              rw [show (h / 2) * st + rb / 2 = c from rfl,
                getD_set_self _ _ _ hcb, hS2mid (rb / 2) (by omega),
                if_pos ⟨hro, rfl⟩,
                show h - 1 - h / 2 = h / 2 from by omega,
                show rb - 1 - rb / 2 = rb / 2 from by omega]
            · rw [getD_set_ne _ _ _ _ (by rw [hc]; omega),
                hS2mid i hi, if_neg (fun hcon => hcc hcon.2),
                show h - 1 - h / 2 = h / 2 from by omega]
      · intro j hj
        rw [getD_set_ne _ _ _ _ (by
          rw [hc]
          exact Ne.symm (hj (h / 2) (rb / 2) (by omega) (by omega)))]
        have hfrS2 : S2.getD j 0 = E1.getD j 0 := by
          rw [hS2]
          apply pairFold_getD_frame
          intro q hq
          rw [List.mem_range] at hq
          exact ⟨Ne.symm (hj (h / 2) q (by omega) (by omega)),
            Ne.symm (hj (h / 2) (rb - 1 - q) (by omega) (by omega))⟩
        rw [hfrS2]
        apply hfr1
        intro q hq
        rcases q with ⟨qy, qi⟩
        obtain ⟨hqy, hqi⟩ := (pairGrid_mem _ _ _ _).mp hq
        exact ⟨Ne.symm (hj qy qi (by omega) hqi),
          Ne.symm (hj (h - 1 - qy) (rb - 1 - qi) (by omega) (by omega))⟩
    · rw [if_neg hro]
      refine ⟨rfl, rfl, hS2len, ?_, ?_, ?_⟩
      · intro hwf
        exact pairFold_bytesWF _ _ _ _ _ rev8_lt_256 (hwf1 hwf)
      · intro y i hy hi
        by_cases hy1 : y < h / 2
        · have hfrS2 : S2.getD (y * st + i) 0 = E1.getD (y * st + i) 0 := by
            rw [hS2]
            apply pairFold_getD_frame
            intro q hq
            rw [List.mem_range] at hq
            exact ⟨Ne.symm (hrowne _ _ _ _ hi (by omega) (by omega)),
              Ne.symm (hrowne _ _ _ _ hi (by omega) (by omega))⟩
          rw [hfrS2, (hval1 y i hy1 hi).1]
        · by_cases hy2 : h - 1 - y < h / 2
          · have hfrS2 : S2.getD (y * st + i) 0
                = E1.getD (y * st + i) 0 := by
              rw [hS2]
              apply pairFold_getD_frame
              intro q hq
              rw [List.mem_range] at hq
              exact ⟨Ne.symm (hrowne _ _ _ _ hi (by omega) (by omega)),
                Ne.symm (hrowne _ _ _ _ hi (by omega) (by omega))⟩
            rw [hfrS2]
            have hv := (hval1 (h - 1 - y) (rb - 1 - i) hy2 (by omega)).2
            have e1 : h - 1 - (h - 1 - y) = y := by omega
            have e2 : rb - 1 - (rb - 1 - i) = i := by omega
            rw [e1, e2] at hv
            exact hv
          · have hymid : y = h / 2 := by omega
            subst hymid
            rw [hS2mid i hi, if_neg (fun hcon => hro hcon.1),
              show h - 1 - h / 2 = h / 2 from by omega]
      · intro j hj
        have hfrS2 : S2.getD j 0 = E1.getD j 0 := by
          rw [hS2]
          apply pairFold_getD_frame
          intro q hq
          rw [List.mem_range] at hq
          exact ⟨Ne.symm (hj (h / 2) q (by omega) (by omega)),
            Ne.symm (hj (h / 2) (rb - 1 - q) (by omega) (by omega))⟩
        rw [hfrS2]
        apply hfr1
        intro q hq
        rcases q with ⟨qy, qi⟩
        obtain ⟨hqy, hqi⟩ := (pairGrid_mem _ _ _ _).mp hq
        exact ⟨Ne.symm (hj qy qi (by omega) hqi),
          Ne.symm (hj (h - 1 - qy) (rb - 1 - qi) (by omega) (by omega))⟩
  · -- even height: only the half-grid swaps
    rw [hpix, if_neg hodd]
    refine ⟨rfl, rfl, hE1len, hwf1, ?_, ?_⟩
    · intro y i hy hi
      by_cases hy1 : y < h / 2
      · exact (hval1 y i hy1 hi).1
      · have hy2 : h - 1 - y < h / 2 := by omega
        have hv := (hval1 (h - 1 - y) (rb - 1 - i) hy2 (by omega)).2
        have e1 : h - 1 - (h - 1 - y) = y := by omega
        have e2 : rb - 1 - (rb - 1 - i) = i := by omega
        rw [e1, e2] at hv
        exact hv
    · intro j hj
      apply hfr1
      intro q hq
      rcases q with ⟨qy, qi⟩
      obtain ⟨hqy, hqi⟩ := (pairGrid_mem _ _ _ _).mp hq
      exact ⟨Ne.symm (hj qy qi (by omega) hqi),
        Ne.symm (hj (h - 1 - qy) (rb - 1 - qi) (by omega) (by omega))⟩

/-- `bitSwap` at in-view coordinates is the two-bit-write normal form, with
both values read from the pre-swap buffer. -/
theorem bitSwap_bridge (bb : Binary) (sN : Nat) (hS : bb.Stride = (sN : Int))
    (hMx : 0 ≤ bb.Rect.MinX) (hMy : 0 ≤ bb.Rect.MinY) (x1 y1 x2 y2 : Nat) :
    bitSwap bb (bb.Rect.MinX + (x1 : Int)) (bb.Rect.MinY + (y1 : Int))
        (bb.Rect.MinX + (x2 : Int)) (bb.Rect.MinY + (y2 : Int))
      = { bb with Pix := (bitWrite (bitWrite bb.Pix (y1 * sN + x1 / 8)
            (7 - (bb.Rect.MinX.toNat + x1) % 8)
            (getBitB bb.Pix (y2 * sN + x2 / 8)
              (7 - (bb.Rect.MinX.toNat + x2) % 8)))
          (y2 * sN + x2 / 8) (7 - (bb.Rect.MinX.toNat + x2) % 8)
          (getBitB bb.Pix (y1 * sN + x1 / 8)
            (7 - (bb.Rect.MinX.toNat + x1) % 8))) } := by
  unfold bitSwap
  simp only []
  rw [bit_bridge bb sN hS hMx hMy x1 y1, bit_bridge bb sN hS hMx hMy x2 y2,
    setBit_bridge bb sN hS hMx hMy x1 y1 _]
  have hset2 := setBit_bridge
    { bb with Pix := (bitWrite bb.Pix (y1 * sN + x1 / 8)
        (7 - (bb.Rect.MinX.toNat + x1) % 8)
        (getBitB bb.Pix (y2 * sN + x2 / 8)
          (7 - (bb.Rect.MinX.toNat + x2) % 8))) }
    sN hS hMx hMy x2 y2
    (getBitB bb.Pix (y1 * sN + x1 / 8) (7 - (bb.Rect.MinX.toNat + x1) % 8))
  exact hset2

/-- Bit-level characterisation of the general path: every visible bit moves
to its 180°-opposite visible position, every bit address not belonging to a
visible pixel is untouched, and the geometry fields are preserved.  `sN` is
the stride, `mX` the view's `MinX` (whose residue mod 8 fixes the in-byte
bit position). -/
theorem rotGeneral_spec (b : Binary) (w h sN mX : Nat)
    (hS : b.Stride = (sN : Int)) (hMxN : b.Rect.MinX.toNat = mX)
    (hMx0 : 0 ≤ b.Rect.MinX) (hMy0 : 0 ≤ b.Rect.MinY)
    (hsb : (w + 7) / 8 ≤ sN)
    (hlenN : (h - 1) * sN + (w + 7) / 8 ≤ b.Pix.length) (hh : 0 < h) :
    (rotGeneral b w h).Rect = b.Rect ∧
    (rotGeneral b w h).Stride = b.Stride ∧
    (rotGeneral b w h).Pix.length = b.Pix.length ∧
    (BytesWF b.Pix → BytesWF (rotGeneral b w h).Pix) ∧
    (∀ x y : Nat, x < w → y < h →
      getBitB (rotGeneral b w h).Pix (y * sN + x / 8) (7 - (mX + x) % 8)
        = getBitB b.Pix ((h - 1 - y) * sN + (w - 1 - x) / 8)
            (7 - (mX + (w - 1 - x)) % 8)) ∧
    (∀ j k : Nat, k < 8 →
      (∀ x y : Nat, x < w → y < h →
        ¬(j = y * sN + x / 8 ∧ k = 7 - (mX + x) % 8)) →
      getBitB (rotGeneral b w h).Pix j k = getBitB b.Pix j k) := by
  have hmul : ∀ u v : Nat, u ≤ v → u * sN ≤ v * sN := fun u v huv =>
    Nat.mul_le_mul_right sN huv
  have hx8 : ∀ x : Nat, x < w → x / 8 < sN := by
    intro x hx
    omega
  have hbound : ∀ x y : Nat, x < w → y < h →
      y * sN + x / 8 < b.Pix.length := by
    intro x y hx hy
    have := hmul y (h - 1) (by omega)
    omega
  -- stage 1: the half-grid of bit swaps, as a Pix-level fold
  have hb1 : (List.range (h / 2)).foldl (fun bb (y : Nat) =>
        (List.range w).foldl (fun bb (x : Nat) =>
          bitSwap bb (b.Rect.MinX + (x : Int)) (b.Rect.MinY + (y : Int))
            (b.Rect.MinX + ((w - 1 - x : Nat) : Int))
            (b.Rect.MinY + ((h - 1 - y : Nat) : Int))) bb) b
      = { b with Pix := ((pairGrid (h / 2) w).foldl
          (pairStepBit (fun q : Nat × Nat => q.1 * sN + q.2 / 8)
            (fun q => 7 - (mX + q.2) % 8)
            (fun q => (h - 1 - q.1) * sN + (w - 1 - q.2) / 8)
            (fun q => 7 - (mX + (w - 1 - q.2)) % 8)) b.Pix) } := by
    rw [← foldl_pairGrid2 (fun (bb : Binary) (y x : Nat) =>
      bitSwap bb (b.Rect.MinX + (x : Int)) (b.Rect.MinY + (y : Int))
        (b.Rect.MinX + ((w - 1 - x : Nat) : Int))
        (b.Rect.MinY + ((h - 1 - y : Nat) : Int)))]
    apply foldl_binary_pix b.Rect b.Stride _ _ _ _ b rfl rfl
    intro bb p hbR hbS
    have hMx' : b.Rect.MinX = bb.Rect.MinX := by rw [hbR]
    have hMy' : b.Rect.MinY = bb.Rect.MinY := by rw [hbR]
    rw [hMx', hMy']
    have hbr := bitSwap_bridge bb sN (by rw [hbS, hS])
      (by rw [← hMx']; exact hMx0) (by rw [← hMy']; exact hMy0)
      p.2 p.1 (w - 1 - p.2) (h - 1 - p.1)
    rw [show bb.Rect.MinX.toNat = mX from by rw [← hMx']; exact hMxN] at hbr
    exact hbr
  set E1 : List Nat := (pairGrid (h / 2) w).foldl
    (pairStepBit (fun q : Nat × Nat => q.1 * sN + q.2 / 8)
      (fun q => 7 - (mX + q.2) % 8)
      (fun q => (h - 1 - q.1) * sN + (w - 1 - q.2) / 8)
      (fun q => 7 - (mX + (w - 1 - q.2)) % 8)) b.Pix with hE1
  have hE1len : E1.length = b.Pix.length := pairFoldBit_length ..
  have hks1 : ∀ q ∈ pairGrid (h / 2) w,
      (fun q : Nat × Nat => 7 - (mX + q.2) % 8) q < 8 ∧
      (fun q : Nat × Nat => 7 - (mX + (w - 1 - q.2)) % 8) q < 8 := by
    intro q _
    constructor <;> (show 7 - _ % 8 < 8; omega)
  have hP1 : (pairGrid (h / 2) w).Pairwise (fun q q' =>
      ((fun q : Nat × Nat => q.1 * sN + q.2 / 8) q
          ≠ (fun q : Nat × Nat => q.1 * sN + q.2 / 8) q' ∨
        (fun q : Nat × Nat => 7 - (mX + q.2) % 8) q
          ≠ (fun q : Nat × Nat => 7 - (mX + q.2) % 8) q') ∧
      ((fun q : Nat × Nat => q.1 * sN + q.2 / 8) q
          ≠ (fun q : Nat × Nat => (h - 1 - q.1) * sN + (w - 1 - q.2) / 8) q' ∨
        (fun q : Nat × Nat => 7 - (mX + q.2) % 8) q
          ≠ (fun q : Nat × Nat => 7 - (mX + (w - 1 - q.2)) % 8) q') ∧
      ((fun q : Nat × Nat => (h - 1 - q.1) * sN + (w - 1 - q.2) / 8) q
          ≠ (fun q : Nat × Nat => q.1 * sN + q.2 / 8) q' ∨
        (fun q : Nat × Nat => 7 - (mX + (w - 1 - q.2)) % 8) q
          ≠ (fun q : Nat × Nat => 7 - (mX + q.2) % 8) q') ∧
      ((fun q : Nat × Nat => (h - 1 - q.1) * sN + (w - 1 - q.2) / 8) q
          ≠ (fun q : Nat × Nat => (h - 1 - q.1) * sN + (w - 1 - q.2) / 8) q' ∨
        (fun q : Nat × Nat => 7 - (mX + (w - 1 - q.2)) % 8) q
          ≠ (fun q : Nat × Nat => 7 - (mX + (w - 1 - q.2)) % 8) q')) := by
    apply pairwise_of_nodup_inj _ (pairGrid_nodup _ _)
    intro q hq q' hq' hne
    rcases q with ⟨qy, qx⟩
    rcases q' with ⟨qy', qx'⟩
    obtain ⟨hqy, hqx⟩ := (pairGrid_mem _ _ _ _).mp hq
    obtain ⟨hqy', hqx'⟩ := (pairGrid_mem _ _ _ _).mp hq'
    simp only []
    refine ⟨?_, ?_, ?_, ?_⟩
    · by_contra hcon
      push_neg at hcon
      obtain ⟨hyy, hxx⟩ := @gridAddr_inj' sN mX qy qx qy' qx'
        (hx8 _ (by omega)) (hx8 _ (by omega)) hcon.1 hcon.2
      exact hne (by rw [hyy, hxx])
    · by_contra hcon
      push_neg at hcon
      obtain ⟨hyy, hxx⟩ := @gridAddr_inj' sN mX qy qx (h - 1 - qy')
        (w - 1 - qx') (hx8 _ (by omega)) (hx8 _ (by omega)) hcon.1 hcon.2
      omega
    · by_contra hcon
      push_neg at hcon
      obtain ⟨hyy, hxx⟩ := @gridAddr_inj' sN mX (h - 1 - qy) (w - 1 - qx)
        qy' qx' (hx8 _ (by omega)) (hx8 _ (by omega)) hcon.1 hcon.2
      omega
    · by_contra hcon
      push_neg at hcon
      obtain ⟨hyy, hxx⟩ := @gridAddr_inj' sN mX (h - 1 - qy) (w - 1 - qx)
        (h - 1 - qy') (w - 1 - qx') (hx8 _ (by omega)) (hx8 _ (by omega))
        hcon.1 hcon.2
      exact hne (by
        have h1 : qy = qy' := by omega
        have h2 : qx = qx' := by omega
        rw [h1, h2])
  have hval1 : ∀ x y : Nat, x < w → y < h / 2 →
      getBitB E1 (y * sN + x / 8) (7 - (mX + x) % 8)
          = getBitB b.Pix ((h - 1 - y) * sN + (w - 1 - x) / 8)
              (7 - (mX + (w - 1 - x)) % 8) ∧
      getBitB E1 ((h - 1 - y) * sN + (w - 1 - x) / 8)
          (7 - (mX + (w - 1 - x)) % 8)
          = getBitB b.Pix (y * sN + x / 8) (7 - (mX + x) % 8) := by
    intro x y hx hy
    exact pairFoldBit_getBit (pairGrid (h / 2) w) _ _ _ _ b.Pix hks1 hP1
      (y, x) ((pairGrid_mem _ _ _ _).mpr ⟨hy, hx⟩)
      (hbound x y hx (by omega))
      (hbound (w - 1 - x) (h - 1 - y) (by omega) (by omega))
  have hfr1 : ∀ j k : Nat, k < 8 →
      (∀ q : Nat × Nat, q ∈ pairGrid (h / 2) w →
        (q.1 * sN + q.2 / 8 ≠ j ∨ 7 - (mX + q.2) % 8 ≠ k) ∧
        ((h - 1 - q.1) * sN + (w - 1 - q.2) / 8 ≠ j ∨
          7 - (mX + (w - 1 - q.2)) % 8 ≠ k)) →
      getBitB E1 j k = getBitB b.Pix j k := by
    intro j k hk hj
    exact pairFoldBit_getBit_frame _ _ _ _ _ _ _ _ hks1 hk hj
  have hrowne1 : ∀ y x y' x' : Nat, x < w → x' < w → y ≠ y' →
      y * sN + x / 8 ≠ y' * sN + x' / 8 := by
    intro y x y' x' hx hx' hne he
    obtain ⟨h1, _⟩ := byteAddr_inj sN (hx8 _ hx) (hx8 _ hx') he
    exact hne h1
  have hwf1 : BytesWF b.Pix → BytesWF E1 := fun hwf =>
    pairFoldBit_bytesWF _ _ _ _ _ _ hks1 hwf
  by_cases hodd : h % 2 = 1
  · -- odd height: stage 2 swaps the middle row
    have hrot : rotGeneral b w h
        = { b with Pix := ((List.range (w / 2)).foldl
            (pairStepBit (fun x : Nat => (h / 2) * sN + x / 8)
              (fun x => 7 - (mX + x) % 8)
              (fun x => (h / 2) * sN + (w - 1 - x) / 8)
              (fun x => 7 - (mX + (w - 1 - x)) % 8)) E1) } := by
      unfold rotGeneral
      simp only []
      rw [hb1, if_pos hodd]
      exact foldl_binary_pix b.Rect b.Stride _
        (pairStepBit (fun x : Nat => (h / 2) * sN + x / 8)
          (fun x => 7 - (mX + x) % 8)
          (fun x => (h / 2) * sN + (w - 1 - x) / 8)
          (fun x => 7 - (mX + (w - 1 - x)) % 8))
        (List.range (w / 2))
        (fun bb p hbR hbS => by
          have hMx' : b.Rect.MinX = bb.Rect.MinX := by rw [hbR]
          have hMy' : b.Rect.MinY = bb.Rect.MinY := by rw [hbR]
          rw [hMx', hMy']
          have hbr := bitSwap_bridge bb sN (by rw [hbS, hS])
            (by rw [← hMx']; exact hMx0) (by rw [← hMy']; exact hMy0)
            p (h / 2) (w - 1 - p) (h / 2)
          rw [show bb.Rect.MinX.toNat = mX from by rw [← hMx']; exact hMxN]
            at hbr
          exact hbr)
        { b with Pix := E1 } rfl rfl
    rw [hrot]
    set S2 : List Nat := (List.range (w / 2)).foldl
      (pairStepBit (fun x : Nat => (h / 2) * sN + x / 8)
        (fun x => 7 - (mX + x) % 8)
        (fun x => (h / 2) * sN + (w - 1 - x) / 8)
        (fun x => 7 - (mX + (w - 1 - x)) % 8)) E1 with hS2
    have hS2len : S2.length = b.Pix.length := by
      rw [hS2, pairFoldBit_length, hE1len]
    have hks2 : ∀ q ∈ List.range (w / 2),
        (fun x : Nat => 7 - (mX + x) % 8) q < 8 ∧
        (fun x : Nat => 7 - (mX + (w - 1 - x)) % 8) q < 8 := by
      intro q _
      constructor <;> (show 7 - _ % 8 < 8; omega)
    have hP2 : (List.range (w / 2)).Pairwise (fun q q' =>
        ((fun x : Nat => (h / 2) * sN + x / 8) q
            ≠ (fun x : Nat => (h / 2) * sN + x / 8) q' ∨
          (fun x : Nat => 7 - (mX + x) % 8) q
            ≠ (fun x : Nat => 7 - (mX + x) % 8) q') ∧
        ((fun x : Nat => (h / 2) * sN + x / 8) q
            ≠ (fun x : Nat => (h / 2) * sN + (w - 1 - x) / 8) q' ∨
          (fun x : Nat => 7 - (mX + x) % 8) q
            ≠ (fun x : Nat => 7 - (mX + (w - 1 - x)) % 8) q') ∧
        ((fun x : Nat => (h / 2) * sN + (w - 1 - x) / 8) q
            ≠ (fun x : Nat => (h / 2) * sN + x / 8) q' ∨
          (fun x : Nat => 7 - (mX + (w - 1 - x)) % 8) q
            ≠ (fun x : Nat => 7 - (mX + x) % 8) q') ∧
        ((fun x : Nat => (h / 2) * sN + (w - 1 - x) / 8) q
            ≠ (fun x : Nat => (h / 2) * sN + (w - 1 - x) / 8) q' ∨
          (fun x : Nat => 7 - (mX + (w - 1 - x)) % 8) q
            ≠ (fun x : Nat => 7 - (mX + (w - 1 - x)) % 8) q')) := by
      apply pairwise_of_nodup_inj _ (List.nodup_range _)
      intro q hq q' hq' hne
      rw [List.mem_range] at hq hq'
      simp only []
      refine ⟨?_, ?_, ?_, ?_⟩
      · by_contra hcon
        push_neg at hcon
        obtain ⟨_, hxx⟩ := @gridAddr_inj' sN mX (h / 2) q (h / 2) q'
          (hx8 _ (by omega)) (hx8 _ (by omega)) hcon.1 hcon.2
        exact hne hxx
      · by_contra hcon
        push_neg at hcon
        obtain ⟨_, hxx⟩ := @gridAddr_inj' sN mX (h / 2) q (h / 2) (w - 1 - q')
          (hx8 _ (by omega)) (hx8 _ (by omega)) hcon.1 hcon.2
        omega
      · by_contra hcon
        push_neg at hcon
        obtain ⟨_, hxx⟩ := @gridAddr_inj' sN mX (h / 2) (w - 1 - q) (h / 2) q'
          (hx8 _ (by omega)) (hx8 _ (by omega)) hcon.1 hcon.2
        omega
      · by_contra hcon
        push_neg at hcon
        obtain ⟨_, hxx⟩ := @gridAddr_inj' sN mX (h / 2) (w - 1 - q) (h / 2)
          (w - 1 - q') (hx8 _ (by omega)) (hx8 _ (by omega)) hcon.1 hcon.2
        exact hne (by omega)
    have hfrMid : ∀ x : Nat, x < w →
        getBitB E1 ((h / 2) * sN + x / 8) (7 - (mX + x) % 8)
          = getBitB b.Pix ((h / 2) * sN + x / 8) (7 - (mX + x) % 8) := by
      intro x hx
      apply hfr1 _ _ (by omega)
      intro q hq
      rcases q with ⟨qy, qx⟩
      obtain ⟨hqy, hqx⟩ := (pairGrid_mem _ _ _ _).mp hq
      exact ⟨Or.inl (hrowne1 _ _ _ _ hqx hx (by omega)),
        Or.inl (hrowne1 _ _ _ _ (by omega) hx (by omega))⟩
    have hS2val : ∀ x : Nat, x < w →
        getBitB S2 ((h / 2) * sN + x / 8) (7 - (mX + x) % 8)
          = getBitB b.Pix ((h / 2) * sN + (w - 1 - x) / 8)
              (7 - (mX + (w - 1 - x)) % 8) := by
      intro x hx
      by_cases hc1 : x < w / 2
      · have := (pairFoldBit_getBit (List.range (w / 2)) _ _ _ _ E1 hks2 hP2
          x (List.mem_range.mpr hc1)
          (by rw [hE1len]; exact hbound x (h / 2) hx (by omega))
          (by rw [hE1len]
              exact hbound (w - 1 - x) (h / 2) (by omega) (by omega))).1
        rw [hS2, this, hfrMid (w - 1 - x) (by omega)]
      · by_cases hc2 : w - 1 - x < w / 2
        · have := (pairFoldBit_getBit (List.range (w / 2)) _ _ _ _ E1 hks2
            hP2 (w - 1 - x) (List.mem_range.mpr hc2)
            (by rw [hE1len]
                exact hbound (w - 1 - x) (h / 2) (by omega) (by omega))
            (by rw [hE1len]
                have h1 : w - 1 - (w - 1 - x) = x := by omega
                rw [h1]
                exact hbound x (h / 2) hx (by omega))).2
          have h1 : w - 1 - (w - 1 - x) = x := by omega
          rw [h1] at this
          rw [hS2, this, hfrMid (w - 1 - x) (by omega)]
        · have hxm : w % 2 = 1 ∧ x = w / 2 := by omega
          have hfrS2 : getBitB S2 ((h / 2) * sN + x / 8) (7 - (mX + x) % 8)
              = getBitB E1 ((h / 2) * sN + x / 8) (7 - (mX + x) % 8) := by
            rw [hS2]
            apply pairFoldBit_getBit_frame _ _ _ _ _ _ _ _ hks2 (by omega)
            intro q hq
            rw [List.mem_range] at hq
            constructor
            · by_contra hcon
              push_neg at hcon
              obtain ⟨_, hxx⟩ := @gridAddr_inj' sN mX (h / 2) q (h / 2) x
                (hx8 _ (by omega)) (hx8 _ hx) hcon.1 hcon.2
              omega
            · by_contra hcon
              push_neg at hcon
              obtain ⟨_, hxx⟩ := @gridAddr_inj' sN mX (h / 2) (w - 1 - q)
                (h / 2) x (hx8 _ (by omega)) (hx8 _ hx) hcon.1 hcon.2
              omega
          rw [hfrS2, hfrMid _ hx]
          congr 2 <;> omega
    refine ⟨rfl, rfl, hS2len, ?_, ?_, ?_⟩
    · intro hwf
      exact pairFoldBit_bytesWF _ _ _ _ _ _ hks2 (hwf1 hwf)
    · intro x y hx hy
      show getBitB S2 _ _ = _
      by_cases hy1 : y < h / 2
      · have hfrS2 : getBitB S2 (y * sN + x / 8) (7 - (mX + x) % 8)
            = getBitB E1 (y * sN + x / 8) (7 - (mX + x) % 8) := by
          rw [hS2]
          apply pairFoldBit_getBit_frame _ _ _ _ _ _ _ _ hks2 (by omega)
          intro q hq
          rw [List.mem_range] at hq
          exact ⟨Or.inl (hrowne1 _ _ _ _ (by omega) hx (by omega)),
            Or.inl (hrowne1 _ _ _ _ (by omega) hx (by omega))⟩
        rw [hfrS2, (hval1 x y hx hy1).1]
      · by_cases hy2 : h - 1 - y < h / 2
        · have hfrS2 : getBitB S2 (y * sN + x / 8) (7 - (mX + x) % 8)
              = getBitB E1 (y * sN + x / 8) (7 - (mX + x) % 8) := by
            rw [hS2]
            apply pairFoldBit_getBit_frame _ _ _ _ _ _ _ _ hks2 (by omega)
            intro q hq
            rw [List.mem_range] at hq
            exact ⟨Or.inl (hrowne1 _ _ _ _ (by omega) hx (by omega)),
              Or.inl (hrowne1 _ _ _ _ (by omega) hx (by omega))⟩
          rw [hfrS2]
          have hv := (hval1 (w - 1 - x) (h - 1 - y) (by omega) hy2).2
          have e1 : h - 1 - (h - 1 - y) = y := by omega
          have e2 : w - 1 - (w - 1 - x) = x := by omega
          rw [e1, e2] at hv
          exact hv
        · have hymid : y = h / 2 := by omega
          subst hymid
          rw [show h - 1 - h / 2 = h / 2 from by omega]
          exact hS2val x hx
    · intro j k hk hj
      show getBitB S2 j k = _
      have hfrS2 : getBitB S2 j k = getBitB E1 j k := by
        rw [hS2]
        apply pairFoldBit_getBit_frame _ _ _ _ _ _ _ _ hks2 hk
        intro q hq
        rw [List.mem_range] at hq
        have h1 := hj q (h / 2) (by omega) (by omega)
        have h2 := hj (w - 1 - q) (h / 2) (by omega) (by omega)
        constructor
        · show (h / 2) * sN + q / 8 ≠ j ∨ 7 - (mX + q) % 8 ≠ k
          omega
        · show (h / 2) * sN + (w - 1 - q) / 8 ≠ j ∨
            7 - (mX + (w - 1 - q)) % 8 ≠ k
          omega
      rw [hfrS2]
      apply hfr1 _ _ hk
      intro q hq
      rcases q with ⟨qy, qx⟩
      obtain ⟨hqy, hqx⟩ := (pairGrid_mem _ _ _ _).mp hq
      have h1 := hj qx qy hqx (by omega)
      have h2 := hj (w - 1 - qx) (h - 1 - qy) (by omega) (by omega)
      constructor
      · show qy * sN + qx / 8 ≠ j ∨ 7 - (mX + qx) % 8 ≠ k
        omega
      · show (h - 1 - qy) * sN + (w - 1 - qx) / 8 ≠ j ∨
          7 - (mX + (w - 1 - qx)) % 8 ≠ k
        omega
  · -- even height: only the half-grid swaps
    have hrot : rotGeneral b w h = { b with Pix := E1 } := by
      unfold rotGeneral
      simp only []
      rw [hb1, if_neg hodd]
    rw [hrot]
    refine ⟨rfl, rfl, hE1len, hwf1, ?_, ?_⟩
    · intro x y hx hy
      show getBitB E1 _ _ = _
      by_cases hy1 : y < h / 2
      · exact (hval1 x y hx hy1).1
      · have hy2 : h - 1 - y < h / 2 := by omega
        have hv := (hval1 (w - 1 - x) (h - 1 - y) (by omega) hy2).2
        have e1 : h - 1 - (h - 1 - y) = y := by omega
        have e2 : w - 1 - (w - 1 - x) = x := by omega
        rw [e1, e2] at hv
        exact hv
    · intro j k hk hj
      show getBitB E1 j k = _
      apply hfr1 _ _ hk
      intro q hq
      rcases q with ⟨qy, qx⟩
      obtain ⟨hqy, hqx⟩ := (pairGrid_mem _ _ _ _).mp hq
      have h1 := hj qx qy hqx (by omega)
      have h2 := hj (w - 1 - qx) (h - 1 - qy) (by omega) (by omega)
      constructor
      · show qy * sN + qx / 8 ≠ j ∨ 7 - (mX + qx) % 8 ≠ k
        omega
      · show (h - 1 - qy) * sN + (w - 1 - qx) / 8 ≠ j ∨
          7 - (mX + (w - 1 - qx)) % 8 ≠ k
        omega

/-- The master `Rotate180` characterisation for well-formed images: geometry
fields are preserved, the buffer stays 8-bit clean, every visible bit moves
to its 180°-opposite visible position, and every bit address not belonging
to a visible pixel is untouched.  This covers all four branches: the two
trivial returns, the unaligned general path and the aligned fast path. -/
theorem rotate180_spec (b : Binary) (w h sN mX : Nat) (hWF : b.WF)
    (hDx : b.Rect.Dx = (w : Int)) (hDy : b.Rect.Dy = (h : Int))
    (hS : b.Stride = (sN : Int)) (hMxN : b.Rect.MinX.toNat = mX) :
    (b.Rotate180).Rect = b.Rect ∧
    (b.Rotate180).Stride = b.Stride ∧
    (b.Rotate180).Pix.length = b.Pix.length ∧
    BytesWF (b.Rotate180).Pix ∧
    (∀ x y : Nat, x < w → y < h →
      getBitB (b.Rotate180).Pix (y * sN + x / 8) (7 - (mX + x) % 8)
        = getBitB b.Pix ((h - 1 - y) * sN + (w - 1 - x) / 8)
            (7 - (mX + (w - 1 - x)) % 8)) ∧
    (∀ j k : Nat, k < 8 →
      (∀ x y : Nat, x < w → y < h →
        ¬(j = y * sN + x / 8 ∧ k = 7 - (mX + x) % 8)) →
      getBitB (b.Rotate180).Pix j k = getBitB b.Pix j k) := by
  obtain ⟨hBW, hStpos, hMx0, hMy0, hMxMax, hMyMax, hDx8, hlenI⟩ := hWF
  unfold Binary.Rotate180
  simp only []
  by_cases htriv : b.Rect.Dx ≤ 1 ∧ b.Rect.Dy ≤ 1
  · rw [if_pos htriv]
    refine ⟨rfl, rfl, rfl, hBW, ?_, fun j k _ _ => rfl⟩
    intro x y hx hy
    have hw1 : w ≤ 1 := by
      have := htriv.1
      rw [hDx] at this
      omega
    have hh1 : h ≤ 1 := by
      have := htriv.2
      rw [hDy] at this
      omega
    have hx0 : x = 0 := by omega
    have hy0 : y = 0 := by omega
    subst hx0
    subst hy0
    rw [show w - 1 - 0 = 0 from by omega, show h - 1 - 0 = 0 from by omega]
  · rw [if_neg htriv]
    have hfd : Int.fdiv (b.Rect.Dx + 7) 8 = (((w + 7) / 8 : Nat) : Int) := by
      rw [hDx, Int.fdiv_eq_ediv _ (by norm_num)]
      omega
    by_cases hrb0 : Int.fdiv (b.Rect.Dx + 7) 8 ≤ 0
    · rw [if_pos hrb0]
      have hw0 : w = 0 := by
        rw [hfd] at hrb0
        omega
      refine ⟨rfl, rfl, rfl, hBW, ?_, fun j k _ _ => rfl⟩
      intro x y hx _
      exact absurd hx (by omega)
    · rw [if_neg hrb0]
      have hwpos : 0 < w := by
        rw [hfd] at hrb0
        omega
      have hsbN : (w + 7) / 8 ≤ sN := by
        rw [hDx, hS] at hDx8
        omega
      have hDxT : b.Rect.Dx.toNat = w := by
        rw [hDx]
        omega
      have hDyT : b.Rect.Dy.toNat = h := by
        rw [hDy]
        omega
      by_cases hh0 : h = 0
      · subst hh0
        by_cases hpath : b.Rect.MinX % 8 ≠ 0 ∨ b.Rect.Dx % 8 ≠ 0
        · rw [if_pos hpath, hDyT, hDxT]
          have hgid : rotGeneral b w 0 = b := rfl
          rw [hgid]
          exact ⟨rfl, rfl, rfl, hBW,
            fun x y _ hy => absurd hy (by omega), fun j k _ _ => rfl⟩
        · rw [if_neg hpath, hDyT]
          have hgid : rotFast b (Int.fdiv (b.Rect.Dx + 7) 8).toNat 0 = b := rfl
          rw [hgid]
          exact ⟨rfl, rfl, rfl, hBW,
            fun x y _ hy => absurd hy (by omega), fun j k _ _ => rfl⟩
      · have hhpos : 0 < h := by omega
        have hlenN : (h - 1) * sN + (w + 7) / 8 ≤ b.Pix.length := by
          rw [hDy, hDx, hS] at hlenI
          have h1 : ((h : Int) - 1) = ((h - 1 : Nat) : Int) := by omega
          have hcast : ((h - 1 : Nat) : Int) * (sN : Int)
              = (((h - 1) * sN : Nat) : Int) := by
            push_cast
            ring
          rw [h1, hcast] at hlenI
          omega
        by_cases hpath : b.Rect.MinX % 8 ≠ 0 ∨ b.Rect.Dx % 8 ≠ 0
        · rw [if_pos hpath, hDxT, hDyT]
          obtain ⟨hR, hSt, hL, hWFp, hval, hfr⟩ := rotGeneral_spec b w h sN mX
            hS hMxN hMx0 hMy0 hsbN hlenN hhpos
          exact ⟨hR, hSt, hL, hWFp hBW, hval, hfr⟩
        · rw [if_neg hpath]
          push_neg at hpath
          have hw8 : w % 8 = 0 := by
            have := hpath.2
            rw [hDx] at this
            omega
          have hmx8 : mX % 8 = 0 := by
            have := hpath.1
            omega
          have hrbT : (Int.fdiv (b.Rect.Dx + 7) 8).toNat = (w + 7) / 8 := by
            rw [hfd]
            omega
          rw [hrbT, hDyT]
          obtain ⟨hR, hSt, hL, hWFp, hval, hfr⟩ := rotFast_getD b ((w + 7) / 8)
            h sN (by rw [hS]; omega) (by omega) hsbN hhpos hlenN
          refine ⟨hR, hSt, hL, hWFp hBW, ?_, ?_⟩
          · intro x y hx hy
            have hval' := hval y (x / 8) hy (by omega)
            unfold getBitB
            rw [hval', rev8_testBit _ (getD_lt_256 _ _ hBW) _ (by omega)]
            have e1 : (w + 7) / 8 - 1 - x / 8 = (w - 1 - x) / 8 := by omega
            have e2 : 7 - (7 - (mX + x) % 8) = 7 - (mX + (w - 1 - x)) % 8 := by
              omega
            rw [e1, e2]
          · intro j k hk hj
            by_cases htouch : ∃ y i : Nat, y < h ∧ i < (w + 7) / 8 ∧
                j = y * sN + i
            · obtain ⟨y, i, hy, hi, rfl⟩ := htouch
              exfalso
              exact hj (8 * i + (7 - k)) y (by omega) hy ⟨by omega, by omega⟩
            · push_neg at htouch
              unfold getBitB
              rw [hfr j (fun y i hy hi => htouch y i hy hi)]

/-! ## C4: `Rotate180` is an involution -/

/-- C4: for every well-formed `Binary` — byte-aligned or an unaligned
sub-view, any parity of width and height, hence either rotation path —
applying `Rotate180` twice returns the image bit-for-bit (indeed
field-for-field) identical to the original. -/
theorem rotate180_involution (b : Binary) (hWF : b.WF) :
    b.Rotate180.Rotate180 = b := by
  obtain ⟨hBW, hStpos, hMx0, hMy0, hMxMax, hMyMax, hDx8, hlenI⟩ := hWF
  have hDx0 : (0 : Int) ≤ b.Rect.Dx := by
    show (0 : Int) ≤ b.Rect.MaxX - b.Rect.MinX
    omega
  have hDy0 : (0 : Int) ≤ b.Rect.Dy := by
    show (0 : Int) ≤ b.Rect.MaxY - b.Rect.MinY
    omega
  set w := b.Rect.Dx.toNat with hw
  set h := b.Rect.Dy.toNat with hhh
  set sN := b.Stride.toNat with hsn
  set mX := b.Rect.MinX.toNat with hmx
  have hDx : b.Rect.Dx = (w : Int) := by omega
  have hDy : b.Rect.Dy = (h : Int) := by omega
  have hS : b.Stride = (sN : Int) := by omega
  obtain ⟨hR1, hS1, hL1, hW1, hv1, hf1⟩ := rotate180_spec b w h sN mX
    ⟨hBW, hStpos, hMx0, hMy0, hMxMax, hMyMax, hDx8, hlenI⟩ hDx hDy hS rfl
  have hWF1 : (b.Rotate180).WF := by
    unfold Binary.WF
    refine ⟨hW1, ?_, ?_, ?_, ?_, ?_, ?_, ?_⟩
    · rw [hS1]
      exact hStpos
    · rw [hR1]
      exact hMx0
    · rw [hR1]
      exact hMy0
    · rw [hR1]
      exact hMxMax
    · rw [hR1]
      exact hMyMax
    · rw [hR1, hS1]
      exact hDx8
    · rw [hR1, hS1, hL1]
      exact hlenI
  obtain ⟨hR2, hS2, hL2, hW2, hv2, hf2⟩ := rotate180_spec (b.Rotate180) w h sN
    mX hWF1 (by rw [hR1]; exact hDx) (by rw [hR1]; exact hDy)
    (by rw [hS1]; exact hS) (by rw [hR1])
  have hPix : (b.Rotate180.Rotate180).Pix = b.Pix := by
    apply List.ext_getElem
    · rw [hL2, hL1]
    · intro j hj1 hj2
      rw [← List.getD_eq_getElem _ 0 hj1, ← List.getD_eq_getElem _ 0 hj2]
      apply Nat.eq_of_testBit_eq
      intro k
      by_cases hk : k < 8
      · by_cases hvis : ∃ x y : Nat, x < w ∧ y < h ∧
            j = y * sN + x / 8 ∧ k = 7 - (mX + x) % 8
        · obtain ⟨x, y, hx, hy, rfl, rfl⟩ := hvis
          show getBitB (b.Rotate180.Rotate180).Pix _ _ = getBitB b.Pix _ _
          rw [hv2 x y hx hy]
          have hm := hv1 (w - 1 - x) (h - 1 - y) (by omega) (by omega)
          rw [show h - 1 - (h - 1 - y) = y from by omega,
            show w - 1 - (w - 1 - x) = x from by omega] at hm
          exact hm
        · push_neg at hvis
          have hcond : ∀ x y : Nat, x < w → y < h →
              ¬(j = y * sN + x / 8 ∧ k = 7 - (mX + x) % 8) :=
            fun x y hx hy hcon => hvis x y hx hy hcon.1 hcon.2
          show getBitB (b.Rotate180.Rotate180).Pix j k = getBitB b.Pix j k
          rw [hf2 j k hk hcond, hf1 j k hk hcond]
      · have h2 : (b.Rotate180.Rotate180).Pix.getD j 0 < 256 :=
          getD_lt_256 _ _ hW2
        have h1 : b.Pix.getD j 0 < 256 := getD_lt_256 _ _ hBW
        have hle : (256 : Nat) ≤ 2 ^ k := by
          calc (256 : Nat) = 2 ^ 8 := by norm_num
            _ ≤ 2 ^ k := Nat.pow_le_pow_right (by omega) (by omega)
        rw [Nat.testBit_lt_two_pow (by omega), Nat.testBit_lt_two_pow (by omega)]
  calc b.Rotate180.Rotate180
      = Binary.mk (b.Rotate180.Rotate180).Pix (b.Rotate180.Rotate180).Stride
          (b.Rotate180.Rotate180).Rect := rfl
    _ = Binary.mk b.Pix b.Stride b.Rect := by
          rw [hPix, hS2, hS1, hR2, hR1]
    _ = b := rfl

/-- Witness for C4: a concrete unaligned odd-width sub-view is well formed
and returns to itself after two rotations. -/
theorem rotate180_involution_witness :
    Binary.WF oddView ∧ oddView.Rotate180.Rotate180 = oddView :=
  ⟨by decide, rotate180_involution oddView (by decide)⟩

/-! ## C5: the two rotation paths compute the same rotation -/

/-- C5: rotating the same logical pixel content through any two well-formed
views of equal visible size — in particular a byte-aligned view (the fast
byte-reversal path) and an unaligned sub-view (the general bit-swap path) —
yields identical visible pixel values at every in-rect coordinate. -/
theorem rotate180_path_equiv (b1 b2 : Binary) (w h : Nat)
    (h1 : b1.WF) (h2 : b2.WF)
    (hd1 : b1.Rect.Dx = (w : Int)) (he1 : b1.Rect.Dy = (h : Int))
    (hd2 : b2.Rect.Dx = (w : Int)) (he2 : b2.Rect.Dy = (h : Int))
    (heq : ∀ x y : Nat, x < w → y < h →
      b1.bit (b1.Rect.MinX + (x : Int)) (b1.Rect.MinY + (y : Int))
        = b2.bit (b2.Rect.MinX + (x : Int)) (b2.Rect.MinY + (y : Int))) :
    ∀ x y : Nat, x < w → y < h →
      b1.Rotate180.bit (b1.Rect.MinX + (x : Int)) (b1.Rect.MinY + (y : Int))
        = b2.Rotate180.bit (b2.Rect.MinX + (x : Int))
            (b2.Rect.MinY + (y : Int)) := by
  have key : ∀ bb : Binary, bb.WF → bb.Rect.Dx = (w : Int) →
      bb.Rect.Dy = (h : Int) → ∀ x y : Nat, x < w → y < h →
      bb.Rotate180.bit (bb.Rect.MinX + (x : Int)) (bb.Rect.MinY + (y : Int))
        = bb.bit (bb.Rect.MinX + ((w - 1 - x : Nat) : Int))
            (bb.Rect.MinY + ((h - 1 - y : Nat) : Int)) := by
    intro bb hWF hDx hDy x y hx hy
    obtain ⟨hBW, hStpos, hMx0, hMy0, hMxMax, hMyMax, hDx8, hlenI⟩ := hWF
    have hS : bb.Stride = ((bb.Stride.toNat : Nat) : Int) := by omega
    obtain ⟨hR1, hS1, hL1, hW1, hv1, hf1⟩ := rotate180_spec bb w h
      bb.Stride.toNat bb.Rect.MinX.toNat
      ⟨hBW, hStpos, hMx0, hMy0, hMxMax, hMyMax, hDx8, hlenI⟩ hDx hDy hS rfl
    have hb := bit_bridge bb.Rotate180 bb.Stride.toNat
      (by rw [hS1]; exact hS) (by rw [hR1]; exact hMx0)
      (by rw [hR1]; exact hMy0) x y
    rw [hR1] at hb
    rw [hb, hv1 x y hx hy,
      ← bit_bridge bb bb.Stride.toNat hS hMx0 hMy0 (w - 1 - x) (h - 1 - y)]
  intro x y hx hy
  rw [key b1 h1 hd1 he1 x y hx hy, key b2 h2 hd2 he2 x y hx hy]
  exact heq (w - 1 - x) (h - 1 - y) (by omega) (by omega)

/-- Witness for C5: the aligned 8×1 image (fast path) and the deliberately
unaligned `MinX = 1` view holding the same visible pixels (general path)
agree on every visible pixel of the rotation. -/
theorem rotate180_path_equiv_witness :
    (∀ x : Nat, x < 8 → ∀ y : Nat, y < 1 →
      tinyImage.bit (tinyImage.Rect.MinX + (x : Int))
          (tinyImage.Rect.MinY + (y : Int))
        = shiftView.bit (shiftView.Rect.MinX + (x : Int))
            (shiftView.Rect.MinY + (y : Int))) ∧
    (∀ x y : Nat, x < 8 → y < 1 →
      tinyImage.Rotate180.bit (tinyImage.Rect.MinX + (x : Int))
          (tinyImage.Rect.MinY + (y : Int))
        = shiftView.Rotate180.bit (shiftView.Rect.MinX + (x : Int))
            (shiftView.Rect.MinY + (y : Int))) :=
  ⟨by decide, rotate180_path_equiv tinyImage shiftView 8 1 (by decide)
    (by decide) (by decide) (by decide) (by decide) (by decide)
    (fun x y hx hy =>
      (show ∀ x : Nat, x < 8 → ∀ y : Nat, y < 1 →
          tinyImage.bit (tinyImage.Rect.MinX + (x : Int))
              (tinyImage.Rect.MinY + (y : Int))
            = shiftView.bit (shiftView.Rect.MinX + (x : Int))
                (shiftView.Rect.MinY + (y : Int)) from by decide) x hx y hy)⟩

end Tspl
